import Mathlib

/-!
Shallow embedding of the GoKV storage engine (an embedded B+-tree key-value
store over a paged file) and proofs about it.

The embedding follows the Go sources:
* `node.go` (latest revision): slotted-page node encoder/decoder, binary
  search, leaf/branch insertion, compaction, splitting;
* `transaction.go` / the `Tx` type (latest revision): copy-on-write
  transactions with a dirty-node map, `Get`, `Put`, `Commit`;
* `pager.go`: fixed-size page file abstraction;
* `db.go`: meta page and tree descent.

Pages are byte buffers modelled as `List Nat` (each element a byte value),
Go `uint16`/`uint32`/`uint64` reads and writes are modelled on `Nat` with
explicit `% 256` per stored byte.  Fallible operations return `Option` or
a result paired with an optional error.  Functions that panic in Go on
corrupt pages (out-of-bounds slot offsets) are modelled as total functions
that agree with the Go code on all non-panicking inputs: list reads clip
at the end of the buffer instead of panicking.
-/

namespace GoKV

/-- Page size in bytes (`pager.go`: `PageSize = 4096`). -/
def PageSize : Nat := 4096

/-- Node type tag for leaf nodes (`node.go`: `NodeLeaf = 1`). -/
def NodeLeaf : Nat := 1

/-- Node type tag for branch nodes (`node.go`: `NodeBranch = 2`). -/
def NodeBranch : Nat := 2

/-- Node header size in bytes: 1 type byte + 2 count bytes (`NodeHeaderSize = 3`). -/
def NodeHeaderSize : Nat := 3

/-- Size of one slot-table entry, a `uint16` offset (`OffsetSize = 2`). -/
def OffsetSize : Nat := 2

/-- Size of the per-record key-length field (`KeyLenSize = 2`). -/
def KeyLenSize : Nat := 2

/-- Size of the per-record value-length field (`ValLenSize = 2`). -/
def ValLenSize : Nat := 2

/-- Size of a record header: key length + value length fields (`KVHeaderSize = 4`). -/
def KVHeaderSize : Nat := KeyLenSize + ValLenSize

/-- Byte strings: lists of byte values. -/
abbrev Bytes := List Nat

/-- Numeric value of `PageSize`, for arithmetic reasoning. -/
@[simp] theorem PageSize_val : PageSize = 4096 := rfl

/-- Numeric value of `NodeLeaf`. -/
@[simp] theorem NodeLeaf_val : NodeLeaf = 1 := rfl

/-- Numeric value of `NodeBranch`. -/
@[simp] theorem NodeBranch_val : NodeBranch = 2 := rfl

/-- Numeric value of `NodeHeaderSize`. -/
@[simp] theorem NodeHeaderSize_val : NodeHeaderSize = 3 := rfl

/-- Numeric value of `OffsetSize`. -/
@[simp] theorem OffsetSize_val : OffsetSize = 2 := rfl

/-- Numeric value of `KeyLenSize`. -/
@[simp] theorem KeyLenSize_val : KeyLenSize = 2 := rfl

/-- Numeric value of `ValLenSize`. -/
@[simp] theorem ValLenSize_val : ValLenSize = 2 := rfl

/-- Numeric value of `KVHeaderSize`. -/
@[simp] theorem KVHeaderSize_val : KVHeaderSize = 4 := rfl

/-- Go `bytes.Compare`: lexicographic comparison of byte slices, a proper
prefix compares less than the longer slice. -/
def bytesCompare : Bytes → Bytes → Ordering
  | [], [] => .eq
  | [], _ :: _ => .lt
  | _ :: _, [] => .gt
  | a :: as, b :: bs =>
    if a < b then .lt else if b < a then .gt else bytesCompare as bs

/-- Go `bytes.Compare(a, b) >= 0`, as used by the `find` comparator. -/
def bytesGe (a b : Bytes) : Bool :=
  match bytesCompare a b with
  | .lt => false
  | _ => true

/-- Strict lexicographic order on byte strings (`bytes.Compare < 0`). -/
def bytesLt (a b : Bytes) : Prop := bytesCompare a b = Ordering.lt

instance (a b : Bytes) : Decidable (bytesLt a b) := by
  unfold bytesLt; infer_instance

/-- Read `len` bytes of a buffer starting at `pos` (Go slice `l[pos : pos+len]`;
clips at the end of the buffer where Go would panic). -/
def readBytes (l : Bytes) (pos len : Nat) : Bytes := (l.drop pos).take len

/-- Overwrite the bytes of a buffer from position `pos` with `bs`
(Go `copy(l[pos:], bs)` under the in-bounds uses of the source). -/
def writeBytes (l : Bytes) (pos : Nat) (bs : Bytes) : Bytes :=
  l.take pos ++ bs ++ l.drop (pos + bs.length)

/-- Read a little-endian `uint16` at `pos` (`binary.LittleEndian.Uint16`). -/
def readU16 (l : Bytes) (pos : Nat) : Nat := l.getD pos 0 + 256 * l.getD (pos + 1) 0

/-- Little-endian byte encoding of a `uint16` value. -/
def u16Bytes (v : Nat) : Bytes := [v % 256, v / 256 % 256]

/-- Write a little-endian `uint16` at `pos` (`binary.LittleEndian.PutUint16`). -/
def writeU16 (l : Bytes) (pos v : Nat) : Bytes := writeBytes l pos (u16Bytes v)

/-- Little-endian byte encoding of a `uint32` value. -/
def u32Bytes (v : Nat) : Bytes :=
  [v % 256, v / 256 % 256, v / 256 ^ 2 % 256, v / 256 ^ 3 % 256]

/-- Little-endian byte encoding of a `uint64` value (`binary.LittleEndian.PutUint64`). -/
def u64Bytes (v : Nat) : Bytes :=
  [v % 256, v / 256 % 256, v / 256 ^ 2 % 256, v / 256 ^ 3 % 256,
   v / 256 ^ 4 % 256, v / 256 ^ 5 % 256, v / 256 ^ 6 % 256, v / 256 ^ 7 % 256]

/-- Decode a little-endian `uint64` from a byte slice (`binary.LittleEndian.Uint64`). -/
def readU64Bytes (bs : Bytes) : Nat :=
  bs.getD 0 0 + 256 * bs.getD 1 0 + 256 ^ 2 * bs.getD 2 0 + 256 ^ 3 * bs.getD 3 0 +
  256 ^ 4 * bs.getD 4 0 + 256 ^ 5 * bs.getD 5 0 + 256 ^ 6 * bs.getD 6 0 +
  256 ^ 7 * bs.getD 7 0

/-- A B+-tree node: one page worth of raw bytes (`node.go`: `type Node struct`). -/
structure Node where
  data : Bytes
deriving DecidableEq

/-- Node-level errors returned by slotted-page operations.  The Go code uses
`fmt.Errorf` strings; `insertRecursive` dispatches on the exact string
"node is full", which corresponds to the `nodeFull` constructor. -/
inductive Err where
  | keyExists
  | nodeFull
  | keyNotFound
  | ioRead
  | ioWrite
  | notWritable
  | insertAfterSplit
  | readOldRoot
  | fuelOut
deriving DecidableEq

/-- Node type tag (`Node.getType`). -/
def Node.getType (n : Node) : Nat := n.data.getD 0 0

/-- Number of entries stored in the node (`Node.getKeyCount`). -/
def Node.getKeyCount (n : Node) : Nat := readU16 n.data 1

/-- Byte offset of the record of entry `index` (`Node.getOffset`). -/
def Node.getOffset (n : Node) (index : Nat) : Nat :=
  readU16 n.data (NodeHeaderSize + OffsetSize * index)

/-- Decode the record found at byte offset `off`: key-length and value-length
headers followed by the key and value bytes. -/
def entryAt (d : Bytes) (off : Nat) : Bytes × Bytes :=
  let keyLen := readU16 d off
  let valLen := readU16 d (off + KeyLenSize)
  let start := off + KVHeaderSize
  (readBytes d start keyLen, readBytes d (start + keyLen) valLen)

/-- Key and value of entry `index` (`Node.getLeafKeyValue`; the corruption
panics of the Go code become clipped reads, see the module comment). -/
def Node.getLeafKeyValue (n : Node) (index : Nat) : Bytes × Bytes :=
  entryAt n.data (n.getOffset index)

/-- Child page id stored in a branch entry (`Node.getChild`). -/
def Node.getChild (n : Node) (index : Nat) : Nat :=
  readU64Bytes (n.getLeafKeyValue index).2

/-- Write one record and its slot offset (`Node.writeLeafKeyValue`). -/
def Node.writeLeafKeyValue (n : Node) (index offset : Nat) (key val : Bytes) : Node :=
  let d1 := writeU16 n.data (NodeHeaderSize + index * OffsetSize) offset
  let d2 := writeU16 d1 offset key.length
  let d3 := writeU16 d2 (offset + KeyLenSize) val.length
  let d4 := writeBytes d3 (offset + KVHeaderSize) key
  let d5 := writeBytes d4 (offset + KVHeaderSize + key.length) val
  Node.mk d5

/-- Loop of Go `sort.Search` on the half-open interval `[i, j)`, with the
interval width as a structurally decreasing fuel (one halving step shrinks
`j - i` by at least one, so `j - i` steps always suffice). -/
def sortSearchAux (f : Nat → Bool) : Nat → Nat → Nat → Nat
  | 0, i, _ => i
  | fuel + 1, i, j =>
    if i < j then
      if f ((i + j) / 2) then sortSearchAux f fuel i ((i + j) / 2)
      else sortSearchAux f fuel ((i + j) / 2 + 1) j
    else i

/-- Go `sort.Search(n, f)` specialised to the half-open interval `[i, j)`:
returns the smallest index in `[i, j]` at which `f` flips to `true`,
assuming `f` is monotone on the interval. -/
def sortSearch (f : Nat → Bool) (i j : Nat) : Nat := sortSearchAux f (j - i) i j

/-- Binary search for `key` over the node's slots (`Node.findKeyInNode`):
returns the insertion index and whether an exact match was found. -/
def Node.findKeyInNode (n : Node) (key : Bytes) : Nat × Bool :=
  let count := n.getKeyCount
  let index := sortSearch (fun i => bytesGe (n.getLeafKeyValue i).1 key) 0 count
  let found := if index < count then decide ((n.getLeafKeyValue index).1 = key) else false
  (index, found)

/-- Scan of all existing slots computing `(heapStart, maxEnd)`:
the minimum record offset and the maximum record end
(the `for` loop shared by `insertLeafKeyValue` and `insertBranchKey`). -/
def Node.scanHeap (n : Node) : Nat × Nat :=
  (List.range n.getKeyCount).foldl
    (fun (p : Nat × Nat) i =>
      let off := n.getOffset i
      let heapStart := if off < p.1 then off else p.1
      let kLen := readU16 n.data off
      let vLen := readU16 n.data (off + 2)
      let e := off + KVHeaderSize + kLen + vLen
      let maxEnd := if e > p.2 then e else p.2
      (heapStart, maxEnd))
    (PageSize, 0)

/-- Rebuild the page contiguously (`Node.compact`): re-extract all entries,
then rewrite the slot table and records packed from the front, reserving
space for one extra slot when `reserveNewEntry` is true.  Returns the
rewritten node, the next free write position, and a success flag; on
failure the node is returned unchanged (the Go code checks the total size
before writing anything). -/
def Node.compact (n : Node) (reserveNewEntry : Bool) : Node × Nat × Bool :=
  let count := n.getKeyCount
  if count = 0 then
    (n, (if reserveNewEntry then NodeHeaderSize + OffsetSize else NodeHeaderSize), true)
  else
    let pairs := (List.range count).map n.getLeafKeyValue
    let offsetCount := if reserveNewEntry then count + 1 else count
    let startPos := NodeHeaderSize + offsetCount * OffsetSize
    let totalSize := startPos +
      pairs.foldl (fun acc p => acc + KVHeaderSize + p.1.length + p.2.length) 0
    if totalSize > PageSize then (n, 0, false)
    else
      let res := pairs.enum.foldl
        (fun (st : Bytes × Nat) ip =>
          let d := writeU16 st.1 (NodeHeaderSize + ip.1 * OffsetSize) st.2
          let d := writeU16 d st.2 ip.2.1.length
          let d := writeU16 d (st.2 + 2) ip.2.2.length
          let d := writeBytes d (st.2 + KVHeaderSize) ip.2.1
          let d := writeBytes d (st.2 + KVHeaderSize + ip.2.1.length) ip.2.2
          (d, st.2 + KVHeaderSize + ip.2.1.length + ip.2.2.length))
        (n.data, startPos)
      (Node.mk res.1, res.2, true)

/-- Shared tail of `insertLeafKeyValue` and `insertBranchKey` (the code after
the full/compaction checks): shift the offset table to open a 2-byte gap at
`index`, write the new record at `writePos`, and increment the count. -/
def Node.insertFinish (n : Node) (index writePos : Nat) (key value : Bytes)
    (count : Nat) : Node :=
  let offsetPos := NodeHeaderSize + index * OffsetSize
  let shifted := writeBytes n.data (offsetPos + OffsetSize)
    (readBytes n.data offsetPos (NodeHeaderSize + count * OffsetSize - offsetPos))
  let n' := Node.writeLeafKeyValue (Node.mk shifted) index writePos key value
  Node.mk (writeU16 n'.data 1 (count + 1))

/-- Insert a key-value pair into a leaf node (`Node.insertLeafKeyValue`),
compacting the page first when the offset table would collide with the
record heap or the new record would not fit past `maxEnd`.  Returns the
resulting node together with an optional error; on error the returned node
carries any compaction already performed, exactly as the in-place Go code
leaves the page. -/
def Node.insertLeafKeyValue (n : Node) (key value : Bytes) : Node × Option Err :=
  let fr := n.findKeyInNode key
  if fr.2 then (n, some .keyExists)
  else
    let index := fr.1
    let count := n.getKeyCount
    let newEntrySize := KVHeaderSize + key.length + value.length
    let hm := n.scanHeap
    let heapStart := if count = 0 then NodeHeaderSize + OffsetSize else hm.1
    let maxEnd0 := if count = 0 then NodeHeaderSize + OffsetSize else hm.2
    let offsetTableEnd := NodeHeaderSize + (count + 1) * OffsetSize
    let maxEnd := if maxEnd0 < offsetTableEnd then offsetTableEnd else maxEnd0
    if offsetTableEnd > heapStart ∨ maxEnd + newEntrySize > PageSize then
      match n.compact true with
      | (n', _, false) => (n', some .nodeFull)
      | (n', newEnd, true) =>
        if newEnd + newEntrySize > PageSize then (n', some .nodeFull)
        else (n'.insertFinish index newEnd key value count, none)
    else (n.insertFinish index maxEnd key value count, none)

/-- Insert a key and child page id into a branch node (`Node.insertBranchKey`);
the value payload is the 8-byte little-endian child page id. -/
def Node.insertBranchKey (n : Node) (key : Bytes) (childPageID : Nat) : Node × Option Err :=
  let fr := n.findKeyInNode key
  if fr.2 then (n, some .keyExists)
  else
    let index := fr.1
    let count := n.getKeyCount
    let pageIDBytes := u64Bytes childPageID
    let newEntrySize := KVHeaderSize + key.length + pageIDBytes.length
    let hm := n.scanHeap
    let heapStart := if count = 0 then NodeHeaderSize + OffsetSize else hm.1
    let maxEnd0 := if count = 0 then NodeHeaderSize + OffsetSize else hm.2
    let offsetTableEnd := NodeHeaderSize + (count + 1) * OffsetSize
    let maxEnd := if maxEnd0 < offsetTableEnd then offsetTableEnd else maxEnd0
    if offsetTableEnd > heapStart ∨ maxEnd + newEntrySize > PageSize then
      match n.compact true with
      | (n', _, false) => (n', some .nodeFull)
      | (n', newEnd, true) =>
        if newEnd + newEntrySize > PageSize then (n', some .nodeFull)
        else (n'.insertFinish index newEnd key pageIDBytes count, none)
    else (n.insertFinish index maxEnd key pageIDBytes count, none)

/-- Initialise the destination page of a split: reallocate to a full zero page
if too small, set the type byte and zero the count (`splitLeaf`/`splitBranch`
share these lines). -/
def splitInitDest (dest : Bytes) (ty : Nat) : Bytes :=
  let d := if dest.length < PageSize then List.replicate PageSize 0 else dest
  writeU16 (writeBytes d 0 [ty % 256]) 1 0

/-- Copy entries `[middle, count)` of `n`, packed contiguously, into the
destination buffer (the copy loop shared by `splitLeaf` and `splitBranch`). -/
def splitCopyLoop (n : Node) (middle newCount : Nat) (dest : Bytes) : Node :=
  ((List.range newCount).foldl
    (fun (st : Node × Nat) i =>
      let kv := n.getLeafKeyValue (middle + i)
      (st.1.writeLeafKeyValue i st.2 kv.1 kv.2,
       st.2 + KVHeaderSize + kv.1.length + kv.2.length))
    (Node.mk dest, NodeHeaderSize + newCount * OffsetSize)).1

/-- Split a full leaf node (`Node.splitLeaf`): promote the key at slot
`count / 2`, move entries `[count/2, count)` into `newNode`, truncate the
original to `count / 2` entries and compact it.  Returns the updated
original node, the new node and the promoted key. -/
def Node.splitLeaf (n : Node) (newNode : Node) : Node × Node × Bytes :=
  let count := n.getKeyCount
  let middle := count / 2
  let promoteKey := (n.getLeafKeyValue middle).1
  let newCount := count - middle
  let newN := splitCopyLoop n middle newCount (splitInitDest newNode.data NodeLeaf)
  let newN := Node.mk (writeU16 newN.data 1 newCount)
  let oldN := Node.mk (writeU16 n.data 1 middle)
  ((oldN.compact false).1, newN, promoteKey)

/-- Split a full branch node (`Node.splitBranch`); identical to `splitLeaf`
except for the type tag written into the new node. -/
def Node.splitBranch (n : Node) (newNode : Node) : Node × Node × Bytes :=
  let count := n.getKeyCount
  let middle := count / 2
  let promoteKey := (n.getLeafKeyValue middle).1
  let newCount := count - middle
  let newN := splitCopyLoop n middle newCount (splitInitDest newNode.data NodeBranch)
  let newN := Node.mk (writeU16 newN.data 1 newCount)
  let oldN := Node.mk (writeU16 n.data 1 middle)
  ((oldN.compact false).1, newN, promoteKey)

/-- Decoded logical contents of a node: the list of its (key, value) records
in slot order. -/
def Node.entries (n : Node) : List (Bytes × Bytes) :=
  (List.range n.getKeyCount).map n.getLeafKeyValue

/-- Keys of a node in slot order. -/
def Node.keys (n : Node) : List Bytes := n.entries.map Prod.fst

/-- End offset of the record starting at `off`: header plus key and value lengths. -/
def entryEnd (d : Bytes) (off : Nat) : Nat :=
  off + KVHeaderSize + readU16 d off + readU16 d (off + KeyLenSize)

/-- Well-formed node: a full page of genuine byte values in which every
record referenced from the slot table lies within the page. -/
def Node.WF (n : Node) : Prop :=
  n.data.length = PageSize ∧ (∀ b ∈ n.data, b < 256) ∧
    ∀ i, i < n.getKeyCount → entryEnd n.data (n.getOffset i) ≤ PageSize

instance (n : Node) : Decidable n.WF := by
  unfold Node.WF; infer_instance

/-- Strict ascending key order within a node (the ordering invariant). -/
def Node.sortedKeys (n : Node) : Prop := List.Pairwise bytesLt n.keys

instance (n : Node) : Decidable n.sortedKeys := by
  unfold Node.sortedKeys; exact List.instDecidablePairwise _

/-! ### Branch child selection (`DB.findLeaf`, db.go) -/

/-- Child-selection step of the branch descent (`DB.findLeaf`, db.go lines
117-134; the same lines appear in `Tx.findLeaf` and `Tx.insertRecursive`):
take `find`'s index, step back one slot when that slot's key is strictly
greater than the search key and the index is positive, and clamp an
out-of-range index to `count - 1`.  (The Go `uint16` wrap-around of
`count - 1` at `count = 0` — unreachable for well-formed branch nodes —
is modelled as truncated subtraction.) -/
def branchChildIndex (node : Node) (key : Bytes) : Nat :=
  let index := (node.findKeyInNode key).1
  let index :=
    if index < node.getKeyCount then
      if bytesCompare (node.getLeafKeyValue index).1 key = Ordering.gt then
        if index > 0 then index - 1 else index
      else index
    else index
  if index ≥ node.getKeyCount then node.getKeyCount - 1 else index

/-- Spec-side definition for the refinement claim C8, following the spec's
words (§9 "Branch child selection"): slot `i` holds the greatest pivot that
is `≤ searchKey`. -/
def IsGreatestPivotLE (n : Node) (key : Bytes) (i : Nat) : Prop :=
  i < n.getKeyCount ∧ ¬ bytesLt key (n.getLeafKeyValue i).1 ∧
    ∀ j, j < n.getKeyCount → ¬ bytesLt key (n.getLeafKeyValue j).1 → j ≤ i

/-! ### The packed-rewrite loop -/

/-- Byte size of one record: header plus key and value lengths. -/
def entrySize (e : Bytes × Bytes) : Nat := KVHeaderSize + e.1.length + e.2.length

/-- Total byte size of a list of records. -/
def sizesSum (es : List (Bytes × Bytes)) : Nat := (es.map entrySize).sum

/-- The packed-rewrite loop shared (up to definitional unfolding) by the write
loops of `compact`, `splitLeaf` and `splitBranch`: write the records of `es`
with consecutive slots starting at slot `i0` and records packed from byte
position `p0`. -/
def packLoop (d : Bytes) (es : List (Bytes × Bytes)) (i0 p0 : Nat) : Bytes × Nat :=
  match es with
  | [] => (d, p0)
  | e :: rest =>
    packLoop ((Node.mk d).writeLeafKeyValue i0 p0 e.1 e.2).data rest (i0 + 1)
      (p0 + KVHeaderSize + e.1.length + e.2.length)

/-! ### Concrete nodes used to witness the claims -/

/-- A freshly initialised empty leaf page (`DB.Open`: a zero page whose first
byte is the leaf type tag). -/
def wEmpty : Node := Node.mk (writeBytes (List.replicate PageSize 0) 0 [NodeLeaf])

/-- The same fresh page with the branch type tag (`Tx.Put`'s new root). -/
def wEmptyB : Node := Node.mk (writeBytes (List.replicate PageSize 0) 0 [NodeBranch])

/-- One key inserted into the fresh leaf. -/
def w1 : Node := (wEmpty.insertLeafKeyValue [97] [120]).1

/-- One pivot inserted into the fresh branch page. -/
def wB : Node := (wEmptyB.insertBranchKey [97] 5).1

/-! ### The pager and transaction layer

The database state visible to one open transaction: the pages of the file on
disk, the pager's counters (`Pager`), the meta fields (`Meta`), the `DB`
root, and the transaction's dirty-node map, allocation list, root and
writability flag (`Tx`).  Writes and syncs against the OS file are recorded
in an event trace in order. -/

/-- An effect on the OS file: a page write (`Pager.Write` reaching
`file.WriteAt`) or a flush (`Pager.Sync`). -/
inductive PagerEvent where
  | write (pageID : Nat) (data : Bytes)
  | sync
deriving DecidableEq

structure St where
  file : List Bytes
  freePages : List Nat
  numPages : Nat
  trace : List PagerEvent
  metaMagic : Nat
  metaRoot : Nat
  metaFree : Nat
  dbRoot : Nat
  dirtyNodes : List (Nat × Node)
  allocated : List Nat
  txRoot : Nat
  writable : Bool
deriving DecidableEq

/-- Overwrite page `pid` of the file image (zero pages pad a write past the
current end, as `WriteAt` past EOF extends the file). -/
def fileSet (f : List Bytes) (pid : Nat) (d : Bytes) : List Bytes :=
  if pid < f.length then f.take pid ++ d :: f.drop (pid + 1)
  else f ++ List.replicate (pid - f.length) (List.replicate PageSize 0) ++ [d]

/-- `Pager.Read`: return page `pid`, or an error past the end of the file. -/
def pagerRead (st : St) (pid : Nat) : Option Bytes := st.file[pid]?

/-- `Pager.Write`: refuse oversized data, bump `numPages` when writing past
the known count, write the page. -/
def pagerWrite (st : St) (pid : Nat) (data : Bytes) : St × Option Err :=
  if data.length > PageSize then (st, some .ioWrite)
  else
    ({ st with
        numPages := if pid ≥ st.numPages then pid + 1 else st.numPages,
        file := fileSet st.file pid data,
        trace := st.trace ++ [.write pid data] }, none)

/-- `Pager.Sync`. -/
def pagerSync (st : St) : St := { st with trace := st.trace ++ [.sync] }

/-- `Pager.GetFreePage`: pop the last free page, else extend the file. -/
def pagerGetFreePage (st : St) : St × Nat :=
  if st.freePages.length ≠ 0 then
    ({ st with freePages := st.freePages.take (st.freePages.length - 1) },
      st.freePages.getD (st.freePages.length - 1) 0)
  else
    ({ st with numPages := st.numPages + 1 }, st.numPages)

/-- Go map lookup on the dirty-node association list (`tx.dirtyNodes[pageID]`). -/
def lookupDirty : List (Nat × Node) → Nat → Option Node
  | [], _ => none
  | (p, n) :: rest, pid => if p = pid then some n else lookupDirty rest pid

/-- Go map store on the dirty-node association list
(`tx.dirtyNodes[pageID] = node`). -/
def setDirty : List (Nat × Node) → Nat → Node → List (Nat × Node)
  | [], pid, n => [(pid, n)]
  | (p, m) :: rest, pid, n =>
    if p = pid then (pid, n) :: rest else (p, m) :: setDirty rest pid n

/-- `Tx.getNode`: the dirty copy when there is one, else a node read through
the pager. -/
def txGetNode (st : St) (pid : Nat) : Option Node :=
  match lookupDirty st.dirtyNodes pid with
  | some n => some n
  | none => (pagerRead st pid).map Node.mk

/-- `Tx.allocateNode`: take a free page id and track it in the transaction. -/
def txAllocateNode (st : St) : St × Nat :=
  let r := pagerGetFreePage st
  ({ r.1 with allocated := r.1.allocated ++ [r.2] }, r.2)

/-- Page id of the meta page (`MetaPageID = 0`). -/
def MetaPageID : Nat := 0

/-- The database magic number (`DBMagic = 0xDEADBEEF`). -/
def DBMagic : Nat := 0xDEADBEEF

/-- `Tx.findLeaf`: descend from `pid` through branch nodes (stepping back one
slot when the found key is strictly greater, clamping at `count - 1`) until a
leaf; fuel bounds the recursion depth. -/
def txFindLeaf (st : St) : Nat → Nat → Bytes → Option Node
  | 0, _, _ => none
  | fuel + 1, pid, key =>
    match txGetNode st pid with
    | none => none
    | some node =>
      if node.getType = NodeLeaf then some node
      else txFindLeaf st fuel (node.getChild (branchChildIndex node key)) key

/-- `Tx.Get`: find the leaf starting from `tx.db.Root` (as the code does —
not from `tx.root`), then look the key up in it. -/
def txGet (st : St) (fuel : Nat) (key : Bytes) : Option Bytes :=
  match txFindLeaf st fuel st.dbRoot key with
  | none => none
  | some leaf =>
    let fr := leaf.findKeyInNode key
    if fr.2 then some (leaf.getLeafKeyValue fr.1).2 else none

/-- `Tx.insertRecursive`: insert into the subtree at `pid`, splitting leaves
and branches as needed; modified nodes are staged in the dirty map only.
Returns the promoted key and new sibling page on a split of the root of the
subtree. -/
def txInsertRecursive : Nat → St → Nat → Bytes → Bytes →
    St × Option (Bytes × Nat) × Option Err
  | 0, st, _, _, _ => (st, none, some .fuelOut)
  | fuel + 1, st, pid, key, value =>
    match txGetNode st pid with
    | none => (st, none, some .ioRead)
    | some node =>
      if node.getType = NodeLeaf then
        match node.insertLeafKeyValue key value with
        | (n', none) =>
          ({ st with dirtyNodes := setDirty st.dirtyNodes pid n' }, none, none)
        | (n', some e) =>
          if e ≠ Err.nodeFull then (st, none, some e)
          else
            let al := txAllocateNode st
            let sp := n'.splitLeaf (Node.mk [])
            if bytesCompare key sp.2.2 = Ordering.lt then
              match sp.1.insertLeafKeyValue key value with
              | (_, some _) => (al.1, none, some .insertAfterSplit)
              | (oldN', none) =>
                ({ al.1 with
                    dirtyNodes :=
                      setDirty (setDirty al.1.dirtyNodes pid oldN') al.2 sp.2.1 },
                  some (sp.2.2, al.2), none)
            else
              match sp.2.1.insertLeafKeyValue key value with
              | (_, some _) => (al.1, none, some .insertAfterSplit)
              | (newN', none) =>
                ({ al.1 with
                    dirtyNodes :=
                      setDirty (setDirty al.1.dirtyNodes pid sp.1) al.2 newN' },
                  some (sp.2.2, al.2), none)
      else
        match txInsertRecursive fuel st (node.getChild (branchChildIndex node key))
            key value with
        | (st1, _, some e) => (st1, none, some e)
        | (st1, none, none) => (st1, none, none)
        | (st1, some kp, none) =>
          match node.insertBranchKey kp.1 kp.2 with
          | (nb, none) =>
            ({ st1 with dirtyNodes := setDirty st1.dirtyNodes pid nb }, none, none)
          | (nb, some e) =>
            if e ≠ Err.nodeFull then (st1, none, some e)
            else
              let al := txAllocateNode st1
              let sp := nb.splitBranch (Node.mk (List.replicate PageSize 0))
              if bytesCompare kp.1 sp.2.2 = Ordering.lt then
                match sp.1.insertBranchKey kp.1 kp.2 with
                | (_, some _) => (al.1, none, some .insertAfterSplit)
                | (oldB', none) =>
                  ({ al.1 with
                      dirtyNodes :=
                        setDirty (setDirty al.1.dirtyNodes pid oldB') al.2 sp.2.1 },
                    some (sp.2.2, al.2), none)
              else
                match sp.2.1.insertBranchKey kp.1 kp.2 with
                | (_, some _) => (al.1, none, some .insertAfterSplit)
                | (newB', none) =>
                  ({ al.1 with
                      dirtyNodes :=
                        setDirty (setDirty al.1.dirtyNodes pid sp.1) al.2 newB' },
                    some (sp.2.2, al.2), none)

/-- `Tx.Put`: recursive insert from `tx.root`; on a root split, allocate and
build a new branch root over the old root and the new sibling. -/
def txPut (fuel : Nat) (st : St) (key value : Bytes) : St × Option Err :=
  match txInsertRecursive fuel st st.txRoot key value with
  | (st1, _, some e) => (st1, some e)
  | (st1, none, none) => (st1, none)
  | (st1, some kp, none) =>
    let al := txAllocateNode st1
    let newRoot := Node.mk (writeU16 (writeBytes (List.replicate PageSize 0) 0
      [NodeBranch]) 1 0)
    match txGetNode al.1 al.1.txRoot with
    | none => (al.1, some .readOldRoot)
    | some oldRootNode =>
      match newRoot.insertBranchKey (oldRootNode.getLeafKeyValue 0).1 al.1.txRoot with
      | (_, some e) => (al.1, some e)
      | (nr1, none) =>
        match nr1.insertBranchKey kp.1 kp.2 with
        | (_, some e) => (al.1, some e)
        | (nr2, none) =>
          ({ al.1 with
              dirtyNodes := setDirty al.1.dirtyNodes al.2 nr2,
              txRoot := al.2 }, none)

/-- `Meta.serialize`: magic, root and free-list pointer little-endian in the
first 12 bytes of a zero page. -/
def metaSerialize (magic root free : Nat) : Bytes :=
  writeBytes (writeBytes (writeBytes (List.replicate PageSize 0)
    0 (u32Bytes magic)) 4 (u32Bytes root)) 8 (u32Bytes free)

/-- Modelled from the spec: `DB.writeMeta` is called by `Tx.Commit` but its
body is not among the repository's files.  Per the spec ("serialize and
write the meta page, then `Sync` again"; write data flow: "then (if root
changed) writes the meta page and `Sync`s again"), it serializes the meta
struct into a page, writes it to page 0 through the pager, and syncs. -/
def dbWriteMeta (st : St) : St × Option Err :=
  match pagerWrite st MetaPageID
      (metaSerialize st.metaMagic st.metaRoot st.metaFree) with
  | (st1, some e) => (st1, some e)
  | (st1, none) => (pagerSync st1, none)

/-- The dirty-page flush loop of `Tx.Commit`. -/
def commitDirty : St → List (Nat × Node) → St × Option Err
  | st, [] => (st, none)
  | st, (pid, n) :: rest =>
    match pagerWrite st pid n.data with
    | (st1, some e) => (st1, some e)
    | (st1, none) => commitDirty st1 rest

/-- `Tx.Commit`: refuse read-only transactions; write all dirty pages, sync;
if the root moved, update the meta root, write the meta page (with a second
sync) and update `db.Root`. -/
def txCommit (st : St) : St × Option Err :=
  if st.writable = false then (st, some .notWritable)
  else
    match commitDirty st st.dirtyNodes with
    | (st1, some e) => (st1, some e)
    | (st1, none) =>
      let st2 := pagerSync st1
      if st2.txRoot ≠ st2.dbRoot then
        match dbWriteMeta { st2 with metaRoot := st2.txRoot % 2 ^ 32 } with
        | (st3, some e) => (st3, some e)
        | (st3, none) => ({ st3 with dbRoot := st3.txRoot }, none)
      else (st2, none)

/-- A read-only transaction open on a freshly created database: page 0 holds
the serialized meta, page 1 the empty leaf root. -/
def c9st : St :=
  { file := [metaSerialize DBMagic 1 0, wEmpty.data]
    freePages := []
    numPages := 2
    trace := []
    metaMagic := DBMagic
    metaRoot := 1
    metaFree := 0
    dbRoot := 1
    dirtyNodes := []
    allocated := []
    txRoot := 1
    writable := false }

/-- A writable transaction over the fresh database with one dirty page and a
moved root, about to commit. -/
def c2st : St :=
  { file := [metaSerialize DBMagic 1 0, wEmpty.data]
    freePages := []
    numPages := 3
    trace := []
    metaMagic := DBMagic
    metaRoot := 1
    metaFree := 0
    dbRoot := 1
    dirtyNodes := [(2, w1)]
    allocated := [2]
    txRoot := 2
    writable := true }

/-! ### The round-trip scenario of C1: three inserts forcing a root split -/

/-- The 2000-byte value used by the scenario's inserts. -/
def c1v : Bytes := List.replicate 2000 120

/-- The root leaf after the first insert. -/
def L1 : Node := (wEmpty.insertLeafKeyValue [97] c1v).1

/-- The root leaf after the second insert. -/
def L2 : Node := (L1.insertLeafKeyValue [98] c1v).1

/-- The compacted root leaf returned by the failing third insert. -/
def L2c : Node := (L2.compact true).1

/-- The two halves of the root-leaf split. -/
def oldL : Node := (L2c.splitLeaf (Node.mk [])).1

def newL : Node := (L2c.splitLeaf (Node.mk [])).2.1

/-- The new right-hand leaf after the third key lands in it. -/
def N2 : Node := (newL.insertLeafKeyValue [99] c1v).1

/-- The fresh branch page built by `Tx.Put` for the new root. -/
def c1root0 : Node :=
  Node.mk (writeU16 (writeBytes (List.replicate PageSize 0) 0 [NodeBranch]) 1 0)

/-- The new root after its first pivot. -/
def R1 : Node := (c1root0.insertBranchKey [97] 1).1

/-- The new root after both pivots. -/
def R2 : Node := (R1.insertBranchKey [98] 2).1

/-- A writable transaction freshly begun on a new database. -/
def c1st0 : St :=
  { file := [metaSerialize DBMagic 1 0, wEmpty.data]
    freePages := []
    numPages := 2
    trace := []
    metaMagic := DBMagic
    metaRoot := 1
    metaFree := 0
    dbRoot := 1
    dirtyNodes := []
    allocated := []
    txRoot := 1
    writable := true }

def c1st1 : St := { c1st0 with dirtyNodes := [(1, L1)] }

def c1st2 : St := { c1st0 with dirtyNodes := [(1, L2)] }

def c1m1 : St :=
  { c1st2 with
    numPages := 3
    allocated := [2]
    dirtyNodes := [(1, oldL), (2, N2)] }

def c1st3 : St :=
  { c1st0 with
    numPages := 4
    dirtyNodes := [(1, oldL), (2, N2), (3, R2)]
    allocated := [2, 3]
    txRoot := 3 }

/-! ## Theorems -/

/-! ### Byte-buffer lemmas -/

theorem getD_eq_zero_of_le (l : Bytes) (i : Nat) (h : l.length ≤ i) : l.getD i 0 = 0 := by
  rw [List.getD_eq_getElem?_getD, List.getElem?_eq_none h]; rfl

theorem length_writeBytes (l : Bytes) (pos : Nat) (bs : Bytes)
    (h : pos + bs.length ≤ l.length) : (writeBytes l pos bs).length = l.length := by
  unfold writeBytes
  simp only [List.length_append, List.length_take, List.length_drop]
  omega

theorem getD_writeBytes (l : Bytes) (pos : Nat) (bs : Bytes)
    (h : pos + bs.length ≤ l.length) (i : Nat) :
    (writeBytes l pos bs).getD i 0 =
      if pos ≤ i ∧ i < pos + bs.length then bs.getD (i - pos) 0 else l.getD i 0 := by
  have htake : (l.take pos).length = pos := by
    simp only [List.length_take]; omega
  unfold writeBytes
  rw [List.append_assoc]
  simp only [List.getD_eq_getElem?_getD]
  rw [List.getElem?_append]
  rcases Nat.lt_or_ge i pos with hlt | hge
  · rw [if_pos (by rw [htake]; omega), if_neg (by omega)]
    rw [List.getElem?_take, if_pos hlt]
  · rw [if_neg (by rw [htake]; omega), htake, List.getElem?_append]
    rcases Nat.lt_or_ge i (pos + bs.length) with hlt2 | hge2
    · rw [if_pos (by omega), if_pos ⟨hge, hlt2⟩]
    · rw [if_neg (by omega), if_neg (by omega), List.getElem?_drop]
      congr 2
      omega

theorem mem_writeBytes_lt (l : Bytes) (pos : Nat) (bs : Bytes)
    (hl : ∀ b ∈ l, b < 256) (hbs : ∀ b ∈ bs, b < 256) :
    ∀ b ∈ writeBytes l pos bs, b < 256 := by
  unfold writeBytes
  intro b hb
  rw [List.append_assoc] at hb
  rcases List.mem_append.1 hb with hb | hb
  · exact hl _ (List.mem_of_mem_take hb)
  rcases List.mem_append.1 hb with hb | hb
  · exact hbs _ hb
  · exact hl _ (List.mem_of_mem_drop hb)

theorem length_readBytes (l : Bytes) (pos len : Nat) (h : pos + len ≤ l.length) :
    (readBytes l pos len).length = len := by
  unfold readBytes
  simp only [List.length_take, List.length_drop]
  omega

theorem readBytes_eq_map (l : Bytes) (pos len : Nat) (h : pos + len ≤ l.length) :
    readBytes l pos len = (List.range len).map fun j => l.getD (pos + j) 0 := by
  apply List.ext_getElem?
  intro i
  unfold readBytes
  rcases Nat.lt_or_ge i len with hlt | hge
  · rw [List.getElem?_take, if_pos hlt, List.getElem?_drop]
    rw [List.getElem?_map, List.getElem?_range hlt]
    have hil : pos + i < l.length := by omega
    rw [List.getElem?_eq_getElem hil]
    simp only [Option.map_some']
    congr 1
    rw [List.getD_eq_getElem?_getD, List.getElem?_eq_getElem hil]
    rfl
  · rw [List.getElem?_take, if_neg (by omega)]
    rw [List.getElem?_eq_none]
    simp only [List.length_map, List.length_range]
    omega

theorem mem_readBytes (l : Bytes) (pos len : Nat) (b : Nat) (hb : b ∈ readBytes l pos len) :
    b ∈ l := by
  unfold readBytes at hb
  exact List.mem_of_mem_drop (List.mem_of_mem_take hb)

theorem readBytes_congr (l l' : Bytes) (pos len : Nat)
    (h : pos + len ≤ l.length) (h' : pos + len ≤ l'.length)
    (hag : ∀ i, pos ≤ i → i < pos + len → l'.getD i 0 = l.getD i 0) :
    readBytes l' pos len = readBytes l pos len := by
  rw [readBytes_eq_map l pos len h, readBytes_eq_map l' pos len h']
  apply List.map_congr_left
  intro j hj
  rw [List.mem_range] at hj
  exact hag (pos + j) (by omega) (by omega)

theorem readU16_congr (l l' : Bytes) (pos : Nat)
    (hag : ∀ i, pos ≤ i → i < pos + 2 → l'.getD i 0 = l.getD i 0) :
    readU16 l' pos = readU16 l pos := by
  unfold readU16
  rw [hag pos (by omega) (by omega), hag (pos + 1) (by omega) (by omega)]

theorem readBytes_writeBytes_self (l : Bytes) (pos : Nat) (bs : Bytes)
    (h : pos + bs.length ≤ l.length) :
    readBytes (writeBytes l pos bs) pos bs.length = bs := by
  rw [readBytes_eq_map _ pos bs.length (by rw [length_writeBytes l pos bs h]; omega)]
  apply List.ext_getElem?
  intro i
  rcases Nat.lt_or_ge i bs.length with hlt | hge
  · rw [List.getElem?_map, List.getElem?_range hlt]
    simp only [Option.map_some']
    rw [getD_writeBytes l pos bs h, if_pos (by omega)]
    rw [List.getElem?_eq_getElem hlt]
    congr 1
    rw [List.getD_eq_getElem?_getD]
    have : pos + i - pos = i := by omega
    rw [this, List.getElem?_eq_getElem hlt]
    rfl
  · rw [List.getElem?_eq_none (by simp only [List.length_map, List.length_range]; omega),
      List.getElem?_eq_none hge]

theorem u16Bytes_length (v : Nat) : (u16Bytes v).length = 2 := rfl

theorem u16Bytes_lt (v : Nat) : ∀ b ∈ u16Bytes v, b < 256 := by
  intro b hb
  simp only [u16Bytes, List.mem_cons, List.not_mem_nil, or_false] at hb
  rcases hb with h | h <;> omega

theorem readU16_writeU16_self (l : Bytes) (pos v : Nat) (h : pos + 2 ≤ l.length) :
    readU16 (writeU16 l pos v) pos = v % 65536 := by
  unfold readU16 writeU16
  rw [getD_writeBytes l pos (u16Bytes v) (by rw [u16Bytes_length]; omega),
    getD_writeBytes l pos (u16Bytes v) (by rw [u16Bytes_length]; omega)]
  rw [u16Bytes_length]
  rw [if_pos (by omega), if_pos (by omega)]
  have h1 : pos - pos = 0 := by omega
  have h2 : pos + 1 - pos = 1 := by omega
  rw [h1, h2]
  show v % 256 + 256 * (v / 256 % 256) = v % 65536
  have := @Nat.mod_mul 256 256 v
  omega

theorem readU16_lt (l : Bytes) (pos : Nat) (hl : ∀ b ∈ l, b < 256) :
    readU16 l pos < 65536 := by
  unfold readU16
  have hmem : ∀ j, j < l.length → l.getD j 0 ∈ l := by
    intro j hj
    rw [List.getD_eq_getElem?_getD, List.getElem?_eq_getElem hj]
    exact List.getElem_mem hj
  have h1 : l.getD pos 0 < 256 := by
    rcases Nat.lt_or_ge pos l.length with h | h
    · exact hl _ (hmem pos h)
    · rw [getD_eq_zero_of_le l pos h]; omega
  have h2 : l.getD (pos + 1) 0 < 256 := by
    rcases Nat.lt_or_ge (pos + 1) l.length with h | h
    · exact hl _ (hmem (pos + 1) h)
    · rw [getD_eq_zero_of_le l (pos + 1) h]; omega
  omega

theorem length_writeU16 (l : Bytes) (pos v : Nat) (h : pos + 2 ≤ l.length) :
    (writeU16 l pos v).length = l.length :=
  length_writeBytes l pos (u16Bytes v) (by rw [u16Bytes_length]; omega)

theorem getD_writeU16 (l : Bytes) (pos v : Nat) (h : pos + 2 ≤ l.length) (i : Nat) :
    (writeU16 l pos v).getD i 0 =
      if pos ≤ i ∧ i < pos + 2 then (u16Bytes v).getD (i - pos) 0 else l.getD i 0 := by
  unfold writeU16
  rw [getD_writeBytes l pos (u16Bytes v) (by rw [u16Bytes_length]; omega) i, u16Bytes_length]

theorem mem_writeU16_lt (l : Bytes) (pos v : Nat) (hl : ∀ b ∈ l, b < 256) :
    ∀ b ∈ writeU16 l pos v, b < 256 :=
  mem_writeBytes_lt l pos (u16Bytes v) hl (u16Bytes_lt v)

/-! ### Lexicographic byte-string order -/

theorem bytesCompare_self (a : Bytes) : bytesCompare a a = Ordering.eq := by
  induction a with
  | nil => rfl
  | cons x xs ih => simp [bytesCompare, ih]

theorem bytesCompare_eq_iff (a b : Bytes) : bytesCompare a b = Ordering.eq ↔ a = b := by
  induction a generalizing b with
  | nil => cases b <;> simp [bytesCompare]
  | cons x xs ih =>
    cases b with
    | nil => simp [bytesCompare]
    | cons y ys =>
      unfold bytesCompare
      rcases Nat.lt_trichotomy x y with h | h | h
      · rw [if_pos h]
        simp only [List.cons.injEq]
        constructor
        · intro hc; cases hc
        · intro hc; omega
      · rw [if_neg (by omega), if_neg (by omega)]
        rw [ih ys]
        simp only [List.cons.injEq]
        constructor
        · intro hc; exact ⟨h, hc⟩
        · intro hc; exact hc.2
      · rw [if_neg (by omega), if_pos h]
        simp only [List.cons.injEq]
        constructor
        · intro hc; cases hc
        · intro hc; omega

theorem bytesLt_trans {a b c : Bytes} (hab : bytesLt a b) (hbc : bytesLt b c) :
    bytesLt a c := by
  unfold bytesLt at *
  induction a generalizing b c with
  | nil =>
    cases c with
    | nil =>
      cases b with
      | nil => exact hbc
      | cons y ys => simp [bytesCompare] at hbc
    | cons z zs => rfl
  | cons x xs ih =>
    cases b with
    | nil => simp [bytesCompare] at hab
    | cons y ys =>
      cases c with
      | nil => simp [bytesCompare] at hbc
      | cons z zs =>
        unfold bytesCompare at hab hbc ⊢
        by_cases hxy : x < y
        · by_cases hyz : y < z
          · rw [if_pos (by omega)]
          · rw [if_neg hyz] at hbc
            by_cases hzy : z < y
            · rw [if_pos hzy] at hbc; cases hbc
            · have : y = z := by omega
              rw [if_pos (by omega)]
        · rw [if_neg hxy] at hab
          by_cases hyx : y < x
          · rw [if_pos hyx] at hab; cases hab
          · rw [if_neg hyx] at hab
            have hxy' : x = y := by omega
            subst hxy'
            by_cases hyz : x < z
            · rw [if_pos hyz]
            · rw [if_neg hyz] at hbc ⊢
              by_cases hzy : z < x
              · rw [if_pos hzy] at hbc; cases hbc
              · rw [if_neg hzy] at hbc ⊢
                exact ih hab hbc

theorem bytesLt_irrefl (a : Bytes) : ¬ bytesLt a a := by
  unfold bytesLt
  rw [bytesCompare_self]
  intro h
  cases h

theorem bytesLt_asymm {a b : Bytes} (h : bytesLt a b) : ¬ bytesLt b a := by
  intro h'
  exact bytesLt_irrefl a (bytesLt_trans h h')

theorem bytesCompare_trichotomy (a b : Bytes) :
    bytesCompare a b = Ordering.lt ∨ bytesCompare a b = Ordering.eq ∨
      bytesCompare a b = Ordering.gt := by
  cases bytesCompare a b
  · exact Or.inl rfl
  · exact Or.inr (Or.inl rfl)
  · exact Or.inr (Or.inr rfl)

theorem bytesCompare_gt_iff_lt (a b : Bytes) :
    bytesCompare a b = Ordering.gt ↔ bytesLt b a := by
  unfold bytesLt
  induction a generalizing b with
  | nil => cases b <;> simp [bytesCompare]
  | cons x xs ih =>
    cases b with
    | nil => simp [bytesCompare]
    | cons y ys =>
      unfold bytesCompare
      rcases Nat.lt_trichotomy x y with h | h | h
      · rw [if_pos h, if_neg (by omega), if_pos h]
        constructor <;> (intro hc; cases hc)
      · rw [if_neg (by omega), if_neg (by omega), if_neg (by omega), if_neg (by omega)]
        exact ih ys
      · rw [if_neg (by omega), if_pos h, if_pos h]
        constructor <;> (intro _; rfl)

theorem bytesGe_eq_false_iff (a b : Bytes) : bytesGe a b = false ↔ bytesLt a b := by
  unfold bytesGe bytesLt
  rcases bytesCompare_trichotomy a b with h | h | h <;> rw [h] <;> simp

theorem bytesGe_of_not_lt {a b : Bytes} (h : ¬ bytesLt a b) : bytesGe a b = true := by
  rcases Bool.eq_false_or_eq_true (bytesGe a b) with ht | hf
  · exact ht
  · exact absurd ((bytesGe_eq_false_iff a b).1 hf) h

/-! ### Binary search (`sort.Search`) correctness -/

theorem sortSearchAux_le (f : Nat → Bool) : ∀ (fuel i j : Nat), i ≤ j →
    sortSearchAux f fuel i j ≤ j := by
  intro fuel
  induction fuel with
  | zero => intro i j hij; exact hij
  | succ fuel ih =>
    intro i j hij
    rw [sortSearchAux]
    split
    · next hlt =>
      split
      · next hf =>
        have := ih i ((i + j) / 2) (by omega)
        omega
      · next hf => exact ih ((i + j) / 2 + 1) j (by omega)
    · next hlt => omega

theorem le_sortSearchAux (f : Nat → Bool) : ∀ (fuel i j : Nat),
    i ≤ sortSearchAux f fuel i j := by
  intro fuel
  induction fuel with
  | zero => intro i j; exact Nat.le_refl i
  | succ fuel ih =>
    intro i j
    rw [sortSearchAux]
    split
    · next hlt =>
      split
      · next hf => exact ih i ((i + j) / 2)
      · next hf =>
        have := ih ((i + j) / 2 + 1) j
        omega
    · next hlt => exact Nat.le_refl i

theorem sortSearchAux_true (f : Nat → Bool) : ∀ (fuel i j : Nat), j - i ≤ fuel → i ≤ j →
    sortSearchAux f fuel i j < j → f (sortSearchAux f fuel i j) = true := by
  intro fuel
  induction fuel with
  | zero =>
    intro i j hfuel hij hr
    exfalso
    have : sortSearchAux f 0 i j = i := rfl
    omega
  | succ fuel ih =>
    intro i j hfuel hij hr
    rw [sortSearchAux] at hr ⊢
    split at hr
    · next hlt =>
      split at hr
      · next hf =>
        rw [if_pos hlt, if_pos hf]
        have hle := sortSearchAux_le f fuel i ((i + j) / 2) (by omega)
        rcases Nat.lt_or_ge (sortSearchAux f fuel i ((i + j) / 2)) ((i + j) / 2) with h | h
        · exact ih i ((i + j) / 2) (by omega) (by omega) h
        · have heq : sortSearchAux f fuel i ((i + j) / 2) = (i + j) / 2 := by omega
          rw [heq]
          exact hf
      · next hf =>
        rw [if_pos hlt, if_neg hf]
        exact ih ((i + j) / 2 + 1) j (by omega) (by omega) hr
    · next hlt => omega

theorem sortSearchAux_false_below (f : Nat → Bool) (hi : Nat)
    (hmono : ∀ a b, a ≤ b → b < hi → f a = true → f b = true) :
    ∀ (fuel i j : Nat), j - i ≤ fuel → j ≤ hi →
      ∀ x, i ≤ x → x < sortSearchAux f fuel i j → f x = false := by
  intro fuel
  induction fuel with
  | zero =>
    intro i j hfuel hjhi x hx hxr
    exfalso
    have : sortSearchAux f 0 i j = i := rfl
    omega
  | succ fuel ih =>
    intro i j hfuel hjhi x hx hxr
    rw [sortSearchAux] at hxr
    split at hxr
    · next hlt =>
      split at hxr
      · next hf => exact ih i ((i + j) / 2) (by omega) (by omega) x hx hxr
      · next hf =>
        rcases Nat.lt_or_ge x ((i + j) / 2 + 1) with hxm | hxm
        · rcases Bool.eq_false_or_eq_true (f x) with hfx | hfx
          · exact absurd (hmono x ((i + j) / 2) (by omega) (by omega) hfx) hf
          · exact hfx
        · exact ih ((i + j) / 2 + 1) j (by omega) hjhi x hxm hxr
    · next hlt => omega

theorem sortSearch_le (f : Nat → Bool) (i j : Nat) (hij : i ≤ j) :
    sortSearch f i j ≤ j := sortSearchAux_le f (j - i) i j hij

theorem le_sortSearch (f : Nat → Bool) (i j : Nat) : i ≤ sortSearch f i j :=
  le_sortSearchAux f (j - i) i j

theorem sortSearch_true (f : Nat → Bool) (i j : Nat) (hij : i ≤ j)
    (hr : sortSearch f i j < j) : f (sortSearch f i j) = true :=
  sortSearchAux_true f (j - i) i j (Nat.le_refl _) hij hr

theorem sortSearch_false_below (f : Nat → Bool) (hi : Nat)
    (hmono : ∀ a b, a ≤ b → b < hi → f a = true → f b = true)
    (i j : Nat) (hjhi : j ≤ hi) :
    ∀ x, i ≤ x → x < sortSearch f i j → f x = false :=
  sortSearchAux_false_below f hi hmono (j - i) i j (Nat.le_refl _) hjhi

/-! ### `findKeyInNode` correctness -/

theorem length_entries (n : Node) : n.entries.length = n.getKeyCount := by
  unfold Node.entries
  simp

theorem length_keys (n : Node) : n.keys.length = n.getKeyCount := by
  unfold Node.keys
  simp [length_entries]

theorem entries_getElem (n : Node) (i : Nat) (hi : i < n.entries.length) :
    n.entries[i] = n.getLeafKeyValue i := by
  unfold Node.entries at hi ⊢
  rw [List.getElem_map]
  congr 1
  exact List.getElem_range i _

theorem keys_getElem (n : Node) (i : Nat) (hi : i < n.keys.length) :
    n.keys[i] = (n.getLeafKeyValue i).1 := by
  unfold Node.keys at hi ⊢
  rw [List.getElem_map]
  congr 1
  apply entries_getElem

theorem sortedKeys_lt (n : Node) (hs : n.sortedKeys) {a b : Nat} (hab : a < b)
    (hb : b < n.getKeyCount) :
    bytesLt (n.getLeafKeyValue a).1 (n.getLeafKeyValue b).1 := by
  have hlen : n.keys.length = n.getKeyCount := length_keys n
  have := List.pairwise_iff_getElem.1 hs a b (by omega) (by omega) hab
  rwa [keys_getElem n a (by omega), keys_getElem n b (by omega)] at this

theorem findKeyInNode_fst (n : Node) (key : Bytes) :
    (n.findKeyInNode key).1 =
      sortSearch (fun i => bytesGe (n.getLeafKeyValue i).1 key) 0 n.getKeyCount := rfl

theorem findKeyInNode_le (n : Node) (key : Bytes) :
    (n.findKeyInNode key).1 ≤ n.getKeyCount := by
  rw [findKeyInNode_fst]
  exact sortSearch_le _ 0 n.getKeyCount (by omega)

theorem findKeyInNode_mono (n : Node) (key : Bytes) (hs : n.sortedKeys) :
    ∀ a b, a ≤ b → b < n.getKeyCount →
      bytesGe (n.getLeafKeyValue a).1 key = true →
      bytesGe (n.getLeafKeyValue b).1 key = true := by
  intro a b hab hb hfa
  apply bytesGe_of_not_lt
  intro hbk
  have hna : ¬ bytesLt (n.getLeafKeyValue a).1 key := by
    intro h
    rw [(bytesGe_eq_false_iff _ _).2 h] at hfa
    cases hfa
  rcases Nat.eq_or_lt_of_le hab with heq | hlt
  · rw [heq] at hna
    exact hna hbk
  · exact hna (bytesLt_trans (sortedKeys_lt n hs hlt hb) hbk)

theorem findKeyInNode_lt_below (n : Node) (key : Bytes) (hs : n.sortedKeys) :
    ∀ j, j < (n.findKeyInNode key).1 → bytesLt (n.getLeafKeyValue j).1 key := by
  intro j hj
  rw [findKeyInNode_fst] at hj
  have hfb := sortSearch_false_below _ n.getKeyCount (findKeyInNode_mono n key hs)
    0 n.getKeyCount (Nat.le_refl _) j (by omega) hj
  exact (bytesGe_eq_false_iff _ _).1 hfb

theorem findKeyInNode_ge_at (n : Node) (key : Bytes)
    (h : (n.findKeyInNode key).1 < n.getKeyCount) :
    bytesGe (n.getLeafKeyValue (n.findKeyInNode key).1).1 key = true := by
  rw [findKeyInNode_fst] at h ⊢
  exact sortSearch_true _ 0 n.getKeyCount (by omega) h

theorem findKeyInNode_found_eq (n : Node) (key : Bytes) :
    (n.findKeyInNode key).2 = true ↔
      ((n.findKeyInNode key).1 < n.getKeyCount ∧
        (n.getLeafKeyValue (n.findKeyInNode key).1).1 = key) := by
  show (if (n.findKeyInNode key).1 < n.getKeyCount
      then decide ((n.getLeafKeyValue (n.findKeyInNode key).1).1 = key) else false) = true ↔ _
  split
  · next h => simp [h]
  · next h => simp [h]

theorem findKeyInNode_found_iff_mem (n : Node) (key : Bytes) (hs : n.sortedKeys) :
    (n.findKeyInNode key).2 = true ↔ key ∈ n.keys := by
  rw [findKeyInNode_found_eq]
  constructor
  · rintro ⟨h1, h2⟩
    have hlen : (n.findKeyInNode key).1 < n.keys.length := by rw [length_keys]; omega
    rw [← h2, ← keys_getElem n _ hlen]
    exact List.getElem_mem hlen
  · intro hm
    obtain ⟨i, hi, hik⟩ := List.getElem_of_mem hm
    rw [keys_getElem n i hi] at hik
    have hic : i < n.getKeyCount := by rw [length_keys] at hi; omega
    have hri : ¬ i < (n.findKeyInNode key).1 := by
      intro hlt
      have := findKeyInNode_lt_below n key hs i hlt
      rw [hik] at this
      exact bytesLt_irrefl key this
    have hr_le : (n.findKeyInNode key).1 ≤ i := by omega
    have hrc : (n.findKeyInNode key).1 < n.getKeyCount := by omega
    rcases Nat.eq_or_lt_of_le hr_le with heq | hlt
    · exact ⟨hrc, by rw [heq, hik]⟩
    · exfalso
      have hge := findKeyInNode_ge_at n key hrc
      have hltk : bytesLt (n.getLeafKeyValue (n.findKeyInNode key).1).1
          (n.getLeafKeyValue i).1 := sortedKeys_lt n hs hlt hic
      rw [hik] at hltk
      rw [(bytesGe_eq_false_iff _ _).2 hltk] at hge
      cases hge

theorem sortedKeys_le_of_le (n : Node) (hs : n.sortedKeys) {a b : Nat} (hab : a ≤ b)
    (hb : b < n.getKeyCount) {k : Bytes} (hk : bytesLt k (n.getLeafKeyValue a).1) :
    bytesLt k (n.getLeafKeyValue b).1 := by
  rcases Nat.eq_or_lt_of_le hab with heq | hlt
  · rw [← heq]; exact hk
  · exact bytesLt_trans hk (sortedKeys_lt n hs hlt hb)

/-- C8: on every sorted branch node containing at least one pivot `≤` the
search key, the descent rule (step back one if the found slot's key is
strictly greater, clamp to `count - 1`) selects exactly the slot holding
the greatest pivot `≤ searchKey`, hence the same child page. -/
theorem branchChildIndex_greatestPivotLE (n : Node) (key : Bytes)
    (hwf : n.WF) (hs : n.sortedKeys) (hc : 1 ≤ n.getKeyCount)
    (hex : ∃ i, i < n.getKeyCount ∧ ¬ bytesLt key (n.getLeafKeyValue i).1) :
    IsGreatestPivotLE n key (branchChildIndex n key) ∧
      ∀ i, IsGreatestPivotLE n key i → n.getChild (branchChildIndex n key) = n.getChild i := by
  have hmain : IsGreatestPivotLE n key (branchChildIndex n key) := by
    simp only [branchChildIndex]
    have hrle := findKeyInNode_le n key
    rcases Nat.lt_or_ge (n.findKeyInNode key).1 n.getKeyCount with hrlt | hrge
    · rw [if_pos hrlt]
      by_cases hgt : bytesCompare (n.getLeafKeyValue (n.findKeyInNode key).1).1 key = Ordering.gt
      · rw [if_pos hgt]
        have hklt : bytesLt key (n.getLeafKeyValue (n.findKeyInNode key).1).1 :=
          (bytesCompare_gt_iff_lt _ _).1 hgt
        rcases Nat.eq_zero_or_pos (n.findKeyInNode key).1 with hz | hpos
        · exfalso
          obtain ⟨i, hi, hile⟩ := hex
          apply hile
          have hk0 : bytesLt key (n.getLeafKeyValue 0).1 := by
            rw [← hz]; exact hklt
          exact sortedKeys_le_of_le n hs (Nat.zero_le i) hi hk0
        · rw [if_pos hpos, if_neg (by omega)]
          refine ⟨by omega, ?_, ?_⟩
          · intro hkl
            have := findKeyInNode_lt_below n key hs ((n.findKeyInNode key).1 - 1) (by omega)
            exact bytesLt_irrefl key (bytesLt_trans hkl this)
          · intro j hj hjle
            by_contra hjgt
            apply hjle
            apply sortedKeys_le_of_le n hs (by omega) hj hklt
      · rw [if_neg hgt, if_neg (by omega)]
        have hge := findKeyInNode_ge_at n key hrlt
        have hkeq : ¬ bytesLt key (n.getLeafKeyValue (n.findKeyInNode key).1).1 := by
          intro h
          exact hgt ((bytesCompare_gt_iff_lt _ _).2 h)
        have hrk : ¬ bytesLt (n.getLeafKeyValue (n.findKeyInNode key).1).1 key := by
          intro h
          rw [(bytesGe_eq_false_iff _ _).2 h] at hge
          cases hge
        have heqk : (n.getLeafKeyValue (n.findKeyInNode key).1).1 = key := by
          rcases bytesCompare_trichotomy (n.getLeafKeyValue (n.findKeyInNode key).1).1 key
            with h | h | h
          · exact absurd h hrk
          · exact (bytesCompare_eq_iff _ _).1 h
          · exact absurd ((bytesCompare_gt_iff_lt _ _).1 h) hkeq
        refine ⟨hrlt, hkeq, ?_⟩
        intro j hj hjle
        by_contra hjgt
        apply hjle
        have : bytesLt (n.getLeafKeyValue (n.findKeyInNode key).1).1 (n.getLeafKeyValue j).1 :=
          sortedKeys_lt n hs (by omega) hj
        rw [heqk] at this
        exact this
    · have hcond : ¬ (n.findKeyInNode key).1 < n.getKeyCount := by omega
      rw [if_neg hcond]
      have hcond2 : (n.findKeyInNode key).1 ≥ n.getKeyCount := hrge
      rw [if_pos hcond2]
      refine ⟨by omega, ?_, ?_⟩
      · intro hkl
        have hbelow := findKeyInNode_lt_below n key hs (n.getKeyCount - 1) (by omega)
        exact bytesLt_irrefl key (bytesLt_trans hkl hbelow)
      · intro j hj hjle
        omega
  refine ⟨hmain, ?_⟩
  intro i hi
  have h1 := hmain.2.2 i hi.1 hi.2.1
  have h2 := hi.2.2 (branchChildIndex n key) hmain.1 hmain.2.1
  have : branchChildIndex n key = i := by omega
  rw [this]

/-! ### Pointwise characterisation of `writeLeafKeyValue` -/

theorem writeLeafKeyValue_getD (n : Node) (index offset : Nat) (key val : Bytes)
    (hlen : n.data.length = PageSize)
    (hslot : NodeHeaderSize + index * OffsetSize + OffsetSize ≤ offset)
    (hoff : offset + KVHeaderSize + key.length + val.length ≤ PageSize) (i : Nat) :
    (n.writeLeafKeyValue index offset key val).data.getD i 0 =
      (if offset + KVHeaderSize + key.length ≤ i ∧
          i < offset + KVHeaderSize + key.length + val.length then
        val.getD (i - (offset + KVHeaderSize + key.length)) 0
      else if offset + KVHeaderSize ≤ i ∧ i < offset + KVHeaderSize + key.length then
        key.getD (i - (offset + KVHeaderSize)) 0
      else if offset + KeyLenSize ≤ i ∧ i < offset + KeyLenSize + 2 then
        (u16Bytes val.length).getD (i - (offset + KeyLenSize)) 0
      else if offset ≤ i ∧ i < offset + 2 then
        (u16Bytes key.length).getD (i - offset) 0
      else if NodeHeaderSize + index * OffsetSize ≤ i ∧
          i < NodeHeaderSize + index * OffsetSize + 2 then
        (u16Bytes offset).getD (i - (NodeHeaderSize + index * OffsetSize)) 0
      else n.data.getD i 0) := by
  have harith1 : 3 + index * 2 + 2 ≤ offset := by
    simp only [NodeHeaderSize_val, OffsetSize_val] at hslot
    omega
  have harith2 : offset + 4 + key.length + val.length ≤ 4096 := by
    simp only [KVHeaderSize_val, PageSize_val] at hoff
    omega
  have hP1 : NodeHeaderSize + index * OffsetSize + 2 ≤ n.data.length := by
    rw [hlen, PageSize_val]
    simp only [NodeHeaderSize_val, OffsetSize_val]
    omega
  have hd1 : (writeU16 n.data (NodeHeaderSize + index * OffsetSize) offset).length =
      PageSize := by
    rw [length_writeU16 _ _ _ hP1]; exact hlen
  have hP2 : offset + 2 ≤
      (writeU16 n.data (NodeHeaderSize + index * OffsetSize) offset).length := by
    rw [hd1, PageSize_val]; omega
  have hd2 : (writeU16 (writeU16 n.data (NodeHeaderSize + index * OffsetSize) offset)
      offset key.length).length = PageSize := by
    rw [length_writeU16 _ _ _ hP2]; exact hd1
  have hP3 : offset + KeyLenSize + 2 ≤
      (writeU16 (writeU16 n.data (NodeHeaderSize + index * OffsetSize) offset)
        offset key.length).length := by
    rw [hd2, PageSize_val, KeyLenSize_val]; omega
  have hd3 : (writeU16 (writeU16 (writeU16 n.data (NodeHeaderSize + index * OffsetSize) offset)
      offset key.length) (offset + KeyLenSize) val.length).length = PageSize := by
    rw [length_writeU16 _ _ _ hP3]; exact hd2
  have hP4 : offset + KVHeaderSize + key.length ≤
      (writeU16 (writeU16 (writeU16 n.data (NodeHeaderSize + index * OffsetSize) offset)
        offset key.length) (offset + KeyLenSize) val.length).length := by
    rw [hd3, PageSize_val, KVHeaderSize_val]; omega
  have hd4 : (writeBytes (writeU16 (writeU16 (writeU16 n.data
      (NodeHeaderSize + index * OffsetSize) offset) offset key.length)
      (offset + KeyLenSize) val.length) (offset + KVHeaderSize) key).length = PageSize := by
    rw [length_writeBytes _ _ _ hP4]; exact hd3
  have hP5 : offset + KVHeaderSize + key.length + val.length ≤
      (writeBytes (writeU16 (writeU16 (writeU16 n.data
        (NodeHeaderSize + index * OffsetSize) offset) offset key.length)
        (offset + KeyLenSize) val.length) (offset + KVHeaderSize) key).length := by
    rw [hd4]; exact hoff
  have hP4' : offset + KVHeaderSize + key.length ≤
      (writeU16 (writeU16 (writeU16 n.data (NodeHeaderSize + index * OffsetSize) offset)
        offset key.length) (offset + KeyLenSize) val.length).length := hP4
  show (writeBytes (writeBytes (writeU16 (writeU16 (writeU16 n.data
      (NodeHeaderSize + index * OffsetSize) offset) offset key.length)
      (offset + KeyLenSize) val.length) (offset + KVHeaderSize) key)
      (offset + KVHeaderSize + key.length) val).getD i 0 = _
  rw [getD_writeBytes _ _ _ hP5]
  rw [getD_writeBytes _ _ _ hP4']
  show _ = _
  rw [show writeU16 (writeU16 (writeU16 n.data (NodeHeaderSize + index * OffsetSize) offset)
      offset key.length) (offset + KeyLenSize) val.length =
      writeBytes (writeU16 (writeU16 n.data (NodeHeaderSize + index * OffsetSize) offset)
      offset key.length) (offset + KeyLenSize) (u16Bytes val.length) from rfl]
  rw [getD_writeBytes _ _ _ (by rw [u16Bytes_length]; exact hP3)]
  rw [show writeU16 (writeU16 n.data (NodeHeaderSize + index * OffsetSize) offset)
      offset key.length =
      writeBytes (writeU16 n.data (NodeHeaderSize + index * OffsetSize) offset)
      offset (u16Bytes key.length) from rfl]
  rw [getD_writeBytes _ _ _ (by rw [u16Bytes_length]; exact hP2)]
  rw [show writeU16 n.data (NodeHeaderSize + index * OffsetSize) offset =
      writeBytes n.data (NodeHeaderSize + index * OffsetSize) (u16Bytes offset) from rfl]
  rw [getD_writeBytes _ _ _ (by rw [u16Bytes_length]; exact hP1)]
  rw [u16Bytes_length, u16Bytes_length, u16Bytes_length]

theorem map_getD_range_self (l : Bytes) :
    (List.range l.length).map (fun j => l.getD j 0) = l := by
  apply List.ext_getElem?
  intro i
  rcases Nat.lt_or_ge i l.length with hlt | hge
  · rw [List.getElem?_map, List.getElem?_range hlt, List.getElem?_eq_getElem hlt]
    simp only [Option.map_some']
    congr 1
    rw [List.getD_eq_getElem?_getD, List.getElem?_eq_getElem hlt]
    rfl
  · rw [List.getElem?_eq_none (by simp only [List.length_map, List.length_range]; omega),
      List.getElem?_eq_none hge]

theorem length_writeLeafKeyValue (n : Node) (index offset : Nat) (key val : Bytes)
    (hlen : n.data.length = PageSize)
    (hslot : NodeHeaderSize + index * OffsetSize + OffsetSize ≤ offset)
    (hoff : offset + KVHeaderSize + key.length + val.length ≤ PageSize) :
    (n.writeLeafKeyValue index offset key val).data.length = PageSize := by
  have hs' : 3 + index * 2 + 2 ≤ offset := by
    simp only [NodeHeaderSize_val, OffsetSize_val] at hslot; omega
  have ho' : offset + 4 + key.length + val.length ≤ 4096 := by
    simp only [KVHeaderSize_val, PageSize_val] at hoff; omega
  have hP1 : NodeHeaderSize + index * OffsetSize + 2 ≤ n.data.length := by
    rw [hlen]
    simp only [NodeHeaderSize_val, OffsetSize_val, PageSize_val]
    omega
  have hd1 : (writeU16 n.data (NodeHeaderSize + index * OffsetSize) offset).length =
      PageSize := by rw [length_writeU16 _ _ _ hP1]; exact hlen
  have hP2 : offset + 2 ≤
      (writeU16 n.data (NodeHeaderSize + index * OffsetSize) offset).length := by
    rw [hd1, PageSize_val]; omega
  have hd2 : (writeU16 (writeU16 n.data (NodeHeaderSize + index * OffsetSize) offset)
      offset key.length).length = PageSize := by
    rw [length_writeU16 _ _ _ hP2]; exact hd1
  have hP3 : offset + KeyLenSize + 2 ≤
      (writeU16 (writeU16 n.data (NodeHeaderSize + index * OffsetSize) offset)
        offset key.length).length := by
    rw [hd2, PageSize_val, KeyLenSize_val]; omega
  have hd3 : (writeU16 (writeU16 (writeU16 n.data (NodeHeaderSize + index * OffsetSize) offset)
      offset key.length) (offset + KeyLenSize) val.length).length = PageSize := by
    rw [length_writeU16 _ _ _ hP3]; exact hd2
  have hP4 : offset + KVHeaderSize + key.length ≤
      (writeU16 (writeU16 (writeU16 n.data (NodeHeaderSize + index * OffsetSize) offset)
        offset key.length) (offset + KeyLenSize) val.length).length := by
    rw [hd3, PageSize_val, KVHeaderSize_val]; omega
  have hd4 : (writeBytes (writeU16 (writeU16 (writeU16 n.data
      (NodeHeaderSize + index * OffsetSize) offset) offset key.length)
      (offset + KeyLenSize) val.length) (offset + KVHeaderSize) key).length = PageSize := by
    rw [length_writeBytes _ _ _ hP4]; exact hd3
  have hP5 : offset + KVHeaderSize + key.length + val.length ≤
      (writeBytes (writeU16 (writeU16 (writeU16 n.data
        (NodeHeaderSize + index * OffsetSize) offset) offset key.length)
        (offset + KeyLenSize) val.length) (offset + KVHeaderSize) key).length := by
    rw [hd4]; exact hoff
  show (writeBytes (writeBytes (writeU16 (writeU16 (writeU16 n.data
      (NodeHeaderSize + index * OffsetSize) offset) offset key.length)
      (offset + KeyLenSize) val.length) (offset + KVHeaderSize) key)
      (offset + KVHeaderSize + key.length) val).length = PageSize
  rw [length_writeBytes _ _ _ hP5]
  exact hd4

theorem writeLeafKeyValue_bytes_lt (n : Node) (index offset : Nat) (key val : Bytes)
    (hb : ∀ b ∈ n.data, b < 256) (hkb : ∀ b ∈ key, b < 256) (hvb : ∀ b ∈ val, b < 256) :
    ∀ b ∈ (n.writeLeafKeyValue index offset key val).data, b < 256 := by
  show ∀ b ∈ writeBytes (writeBytes (writeU16 (writeU16 (writeU16 n.data
      (NodeHeaderSize + index * OffsetSize) offset) offset key.length)
      (offset + KeyLenSize) val.length) (offset + KVHeaderSize) key)
      (offset + KVHeaderSize + key.length) val, b < 256
  apply mem_writeBytes_lt _ _ _ _ hvb
  apply mem_writeBytes_lt _ _ _ _ hkb
  apply mem_writeU16_lt
  apply mem_writeU16_lt
  apply mem_writeU16_lt
  exact hb

theorem writeLeafKeyValue_slot (n : Node) (index offset : Nat) (key val : Bytes)
    (hlen : n.data.length = PageSize)
    (hslot : NodeHeaderSize + index * OffsetSize + OffsetSize ≤ offset)
    (hoff : offset + KVHeaderSize + key.length + val.length ≤ PageSize) :
    readU16 (n.writeLeafKeyValue index offset key val).data
      (NodeHeaderSize + index * OffsetSize) = offset % 65536 := by
  have hs' : 3 + index * 2 + 2 ≤ offset := by
    simp only [NodeHeaderSize_val, OffsetSize_val] at hslot; omega
  have ho' : offset + 4 + key.length + val.length ≤ 4096 := by
    simp only [KVHeaderSize_val, PageSize_val] at hoff; omega
  unfold readU16
  rw [writeLeafKeyValue_getD n index offset key val hlen hslot hoff,
    writeLeafKeyValue_getD n index offset key val hlen hslot hoff]
  simp only [NodeHeaderSize_val, OffsetSize_val, KeyLenSize_val, KVHeaderSize_val]
  rw [if_neg (by omega), if_neg (by omega), if_neg (by omega), if_neg (by omega),
    if_pos (by omega), if_neg (by omega), if_neg (by omega), if_neg (by omega),
    if_neg (by omega), if_pos (by omega)]
  have e1 : 3 + index * 2 - (3 + index * 2) = 0 := by omega
  have e2 : 3 + index * 2 + 1 - (3 + index * 2) = 1 := by omega
  rw [e1, e2]
  show offset % 256 + 256 * (offset / 256 % 256) = offset % 65536
  have := @Nat.mod_mul 256 256 offset
  omega

theorem writeLeafKeyValue_keyLen (n : Node) (index offset : Nat) (key val : Bytes)
    (hlen : n.data.length = PageSize)
    (hslot : NodeHeaderSize + index * OffsetSize + OffsetSize ≤ offset)
    (hoff : offset + KVHeaderSize + key.length + val.length ≤ PageSize) :
    readU16 (n.writeLeafKeyValue index offset key val).data offset = key.length := by
  have hs' : 3 + index * 2 + 2 ≤ offset := by
    simp only [NodeHeaderSize_val, OffsetSize_val] at hslot; omega
  have ho' : offset + 4 + key.length + val.length ≤ 4096 := by
    simp only [KVHeaderSize_val, PageSize_val] at hoff; omega
  unfold readU16
  rw [writeLeafKeyValue_getD n index offset key val hlen hslot hoff,
    writeLeafKeyValue_getD n index offset key val hlen hslot hoff]
  simp only [NodeHeaderSize_val, OffsetSize_val, KeyLenSize_val, KVHeaderSize_val]
  rw [if_neg (by omega), if_neg (by omega), if_neg (by omega), if_pos (by omega),
    if_neg (by omega), if_neg (by omega), if_neg (by omega), if_pos (by omega)]
  have e1 : offset - offset = 0 := by omega
  have e2 : offset + 1 - offset = 1 := by omega
  rw [e1, e2]
  show key.length % 256 + 256 * (key.length / 256 % 256) = key.length
  have hk : key.length < 65536 := by omega
  have := @Nat.mod_mul 256 256 key.length
  omega

theorem writeLeafKeyValue_valLen (n : Node) (index offset : Nat) (key val : Bytes)
    (hlen : n.data.length = PageSize)
    (hslot : NodeHeaderSize + index * OffsetSize + OffsetSize ≤ offset)
    (hoff : offset + KVHeaderSize + key.length + val.length ≤ PageSize) :
    readU16 (n.writeLeafKeyValue index offset key val).data (offset + KeyLenSize) =
      val.length := by
  have hs' : 3 + index * 2 + 2 ≤ offset := by
    simp only [NodeHeaderSize_val, OffsetSize_val] at hslot; omega
  have ho' : offset + 4 + key.length + val.length ≤ 4096 := by
    simp only [KVHeaderSize_val, PageSize_val] at hoff; omega
  unfold readU16
  rw [writeLeafKeyValue_getD n index offset key val hlen hslot hoff,
    writeLeafKeyValue_getD n index offset key val hlen hslot hoff]
  simp only [NodeHeaderSize_val, OffsetSize_val, KeyLenSize_val, KVHeaderSize_val]
  rw [if_neg (by omega), if_neg (by omega), if_pos (by omega),
    if_neg (by omega), if_neg (by omega), if_pos (by omega)]
  have e1 : offset + 2 - (offset + 2) = 0 := by omega
  have e2 : offset + 2 + 1 - (offset + 2) = 1 := by omega
  rw [e1, e2]
  show val.length % 256 + 256 * (val.length / 256 % 256) = val.length
  have hv : val.length < 65536 := by omega
  have := @Nat.mod_mul 256 256 val.length
  omega

theorem writeLeafKeyValue_entry (n : Node) (index offset : Nat) (key val : Bytes)
    (hlen : n.data.length = PageSize)
    (hslot : NodeHeaderSize + index * OffsetSize + OffsetSize ≤ offset)
    (hoff : offset + KVHeaderSize + key.length + val.length ≤ PageSize) :
    entryAt (n.writeLeafKeyValue index offset key val).data offset = (key, val) := by
  have hs' : 3 + index * 2 + 2 ≤ offset := by
    simp only [NodeHeaderSize_val, OffsetSize_val] at hslot; omega
  have ho' : offset + 4 + key.length + val.length ≤ 4096 := by
    simp only [KVHeaderSize_val, PageSize_val] at hoff; omega
  have hlen' := length_writeLeafKeyValue n index offset key val hlen hslot hoff
  unfold entryAt
  rw [writeLeafKeyValue_keyLen n index offset key val hlen hslot hoff,
    writeLeafKeyValue_valLen n index offset key val hlen hslot hoff]
  dsimp only
  have hkey : readBytes (n.writeLeafKeyValue index offset key val).data
      (offset + KVHeaderSize) key.length = key := by
    rw [readBytes_eq_map _ _ _ (by rw [hlen', PageSize_val, KVHeaderSize_val]; omega)]
    have : ∀ j ∈ List.range key.length,
        (n.writeLeafKeyValue index offset key val).data.getD (offset + KVHeaderSize + j) 0 =
          key.getD j 0 := by
      intro j hj
      rw [List.mem_range] at hj
      rw [writeLeafKeyValue_getD n index offset key val hlen hslot hoff]
      simp only [NodeHeaderSize_val, OffsetSize_val, KeyLenSize_val, KVHeaderSize_val]
      rw [if_neg (by omega), if_pos (by omega)]
      congr 1
      omega
    rw [List.map_congr_left this]
    exact map_getD_range_self key
  have hval : readBytes (n.writeLeafKeyValue index offset key val).data
      (offset + KVHeaderSize + key.length) val.length = val := by
    rw [readBytes_eq_map _ _ _ (by rw [hlen', PageSize_val, KVHeaderSize_val]; omega)]
    have : ∀ j ∈ List.range val.length,
        (n.writeLeafKeyValue index offset key val).data.getD
          (offset + KVHeaderSize + key.length + j) 0 = val.getD j 0 := by
      intro j hj
      rw [List.mem_range] at hj
      rw [writeLeafKeyValue_getD n index offset key val hlen hslot hoff]
      simp only [NodeHeaderSize_val, OffsetSize_val, KeyLenSize_val, KVHeaderSize_val]
      rw [if_pos (by omega)]
      congr 1
      omega
    rw [List.map_congr_left this]
    exact map_getD_range_self val
  rw [hkey, hval]

theorem writeLeafKeyValue_entryEnd (n : Node) (index offset : Nat) (key val : Bytes)
    (hlen : n.data.length = PageSize)
    (hslot : NodeHeaderSize + index * OffsetSize + OffsetSize ≤ offset)
    (hoff : offset + KVHeaderSize + key.length + val.length ≤ PageSize) :
    entryEnd (n.writeLeafKeyValue index offset key val).data offset =
      offset + KVHeaderSize + key.length + val.length := by
  unfold entryEnd
  rw [writeLeafKeyValue_keyLen n index offset key val hlen hslot hoff,
    writeLeafKeyValue_valLen n index offset key val hlen hslot hoff]

theorem writeLeafKeyValue_outside (n : Node) (index offset : Nat) (key val : Bytes)
    (hlen : n.data.length = PageSize)
    (hslot : NodeHeaderSize + index * OffsetSize + OffsetSize ≤ offset)
    (hoff : offset + KVHeaderSize + key.length + val.length ≤ PageSize) :
    ∀ i, (i < NodeHeaderSize + index * OffsetSize ∨
        (NodeHeaderSize + index * OffsetSize + OffsetSize ≤ i ∧ i < offset) ∨
        offset + KVHeaderSize + key.length + val.length ≤ i) →
      (n.writeLeafKeyValue index offset key val).data.getD i 0 = n.data.getD i 0 := by
  have hs' : 3 + index * 2 + 2 ≤ offset := by
    simp only [NodeHeaderSize_val, OffsetSize_val] at hslot; omega
  have ho' : offset + 4 + key.length + val.length ≤ 4096 := by
    simp only [KVHeaderSize_val, PageSize_val] at hoff; omega
  intro i hi
  simp only [NodeHeaderSize_val, OffsetSize_val, KVHeaderSize_val] at hi
  rw [writeLeafKeyValue_getD n index offset key val hlen hslot hoff]
  simp only [NodeHeaderSize_val, OffsetSize_val, KeyLenSize_val, KVHeaderSize_val]
  rw [if_neg (by omega), if_neg (by omega), if_neg (by omega), if_neg (by omega),
    if_neg (by omega)]

theorem sizesSum_nil : sizesSum [] = 0 := rfl

theorem sizesSum_cons (e : Bytes × Bytes) (es : List (Bytes × Bytes)) :
    sizesSum (e :: es) = entrySize e + sizesSum es := by
  unfold sizesSum
  simp

theorem entrySize_ge (e : Bytes × Bytes) : 4 ≤ entrySize e := by
  unfold entrySize
  simp only [KVHeaderSize_val]
  omega

theorem sizesSum_take_succ_cons (e : Bytes × Bytes) (es : List (Bytes × Bytes)) (j : Nat) :
    sizesSum ((e :: es).take (j + 1)) = entrySize e + sizesSum (es.take j) := by
  rw [List.take_succ_cons, sizesSum_cons]

theorem sizesSum_take_le (es : List (Bytes × Bytes)) (j : Nat) :
    sizesSum (es.take j) ≤ sizesSum es := by
  induction es generalizing j with
  | nil => simp [sizesSum]
  | cons e rest ih =>
    cases j with
    | zero => simp [sizesSum]
    | succ j =>
      rw [sizesSum_take_succ_cons, sizesSum_cons]
      have := ih j
      omega

theorem entryAt_congr (d d' : Bytes) (off : Nat)
    (hlen : entryEnd d off ≤ d.length) (hlen' : entryEnd d off ≤ d'.length)
    (hag : ∀ i, off ≤ i → i < entryEnd d off → d'.getD i 0 = d.getD i 0) :
    entryAt d' off = entryAt d off ∧ entryEnd d' off = entryEnd d off := by
  have hend : entryEnd d off = off + KVHeaderSize + readU16 d off +
      readU16 d (off + KeyLenSize) := rfl
  have hb : off + KVHeaderSize + readU16 d off + readU16 d (off + KeyLenSize) ≤ d.length := by
    omega
  have hkl : readU16 d' off = readU16 d off := by
    apply readU16_congr
    intro i h1 h2
    apply hag i h1
    rw [hend]
    simp only [KVHeaderSize_val] at h2 ⊢
    omega
  have hvl : readU16 d' (off + KeyLenSize) = readU16 d (off + KeyLenSize) := by
    apply readU16_congr
    intro i h1 h2
    apply hag i (by simp only [KeyLenSize_val] at h1; omega)
    rw [hend]
    simp only [KVHeaderSize_val, KeyLenSize_val] at h2 ⊢
    omega
  constructor
  · unfold entryAt
    rw [hkl, hvl]
    dsimp only
    rw [readBytes_congr d d' (off + KVHeaderSize) (readU16 d off)
      (by simp only [KVHeaderSize_val] at hb ⊢; omega)
      (by rw [hend] at hlen'; simp only [KVHeaderSize_val] at hlen' ⊢; omega)
      (fun i h1 h2 => hag i (by simp only [KVHeaderSize_val] at h1; omega)
        (by rw [hend]; simp only [KVHeaderSize_val] at h2 ⊢; omega))]
    rw [readBytes_congr d d' (off + KVHeaderSize + readU16 d off)
      (readU16 d (off + KeyLenSize))
      (by simp only [KVHeaderSize_val, KeyLenSize_val] at hb ⊢; omega)
      (by rw [hend] at hlen'; simp only [KVHeaderSize_val, KeyLenSize_val] at hlen' ⊢; omega)
      (fun i h1 h2 => hag i (by simp only [KVHeaderSize_val] at h1; omega)
        (by rw [hend]; simp only [KVHeaderSize_val, KeyLenSize_val] at h2 ⊢; omega))]
  · unfold entryEnd
    rw [hkl, hvl]

theorem packLoop_bytes_lt (es : List (Bytes × Bytes)) :
    ∀ (d : Bytes) (i0 p0 : Nat), (∀ b ∈ d, b < 256) →
    (∀ e ∈ es, (∀ b ∈ e.1, b < 256) ∧ (∀ b ∈ e.2, b < 256)) →
    ∀ b ∈ (packLoop d es i0 p0).1, b < 256 := by
  induction es with
  | nil => intro d i0 p0 hd he; exact hd
  | cons e rest ih =>
    intro d i0 p0 hd he
    rw [packLoop]
    apply ih _ _ _ _ (fun e' he' => he e' (List.mem_cons_of_mem e he'))
    exact writeLeafKeyValue_bytes_lt (Node.mk d) i0 p0 e.1 e.2 hd
      (he e (List.mem_cons_self e rest)).1 (he e (List.mem_cons_self e rest)).2

theorem packLoop_spec (es : List (Bytes × Bytes)) :
    ∀ (d : Bytes) (i0 p0 : Nat),
    d.length = PageSize →
    NodeHeaderSize + (i0 + es.length) * OffsetSize ≤ p0 →
    p0 + sizesSum es ≤ PageSize →
    (packLoop d es i0 p0).2 = p0 + sizesSum es ∧
    (packLoop d es i0 p0).1.length = PageSize ∧
    (∀ i, (i < NodeHeaderSize + i0 * OffsetSize ∨
        (NodeHeaderSize + (i0 + es.length) * OffsetSize ≤ i ∧ i < p0) ∨
        p0 + sizesSum es ≤ i) →
      (packLoop d es i0 p0).1.getD i 0 = d.getD i 0) ∧
    ∀ j, j < es.length →
      readU16 (packLoop d es i0 p0).1 (NodeHeaderSize + (i0 + j) * OffsetSize) =
        p0 + sizesSum (es.take j) ∧
      entryAt (packLoop d es i0 p0).1 (p0 + sizesSum (es.take j)) = es.getD j ([], []) ∧
      entryEnd (packLoop d es i0 p0).1 (p0 + sizesSum (es.take j)) =
        p0 + sizesSum (es.take (j + 1)) := by
  induction es with
  | nil =>
    intro d i0 p0 hlen hslot hfit
    refine ⟨by simp [packLoop, sizesSum], hlen, ?_, ?_⟩
    · intro i _
      rfl
    · intro j hj
      simp at hj
  | cons e rest ih =>
    intro d i0 p0 hlen hslot hfit
    have hsz : entrySize e = KVHeaderSize + e.1.length + e.2.length := rfl
    have hseq : sizesSum (e :: rest) = entrySize e + sizesSum rest := sizesSum_cons e rest
    have hes : 4 ≤ entrySize e := entrySize_ge e
    have hslotN : 3 + (i0 + (rest.length + 1)) * 2 ≤ p0 := by
      simp only [NodeHeaderSize_val, OffsetSize_val, List.length_cons] at hslot
      omega
    have hfitN : p0 + entrySize e + sizesSum rest ≤ 4096 := by
      simp only [PageSize_val] at hfit
      omega
    have hwslot : NodeHeaderSize + i0 * OffsetSize + OffsetSize ≤ p0 := by
      simp only [NodeHeaderSize_val, OffsetSize_val]
      omega
    have hwoff : p0 + KVHeaderSize + e.1.length + e.2.length ≤ PageSize := by
      simp only [KVHeaderSize_val, PageSize_val]
      simp only [KVHeaderSize_val] at hsz
      omega
    have hd1len : (((Node.mk d).writeLeafKeyValue i0 p0 e.1 e.2).data).length = PageSize :=
      length_writeLeafKeyValue _ _ _ _ _ hlen hwslot hwoff
    have hd1slotv := writeLeafKeyValue_slot (Node.mk d) i0 p0 e.1 e.2 hlen hwslot hwoff
    have hd1entry := writeLeafKeyValue_entry (Node.mk d) i0 p0 e.1 e.2 hlen hwslot hwoff
    have hd1end := writeLeafKeyValue_entryEnd (Node.mk d) i0 p0 e.1 e.2 hlen hwslot hwoff
    have hd1out := writeLeafKeyValue_outside (Node.mk d) i0 p0 e.1 e.2 hlen hwslot hwoff
    have hihslot : NodeHeaderSize + (i0 + 1 + rest.length) * OffsetSize ≤
        p0 + KVHeaderSize + e.1.length + e.2.length := by
      simp only [NodeHeaderSize_val, OffsetSize_val, KVHeaderSize_val]
      omega
    have hihfit : p0 + KVHeaderSize + e.1.length + e.2.length + sizesSum rest ≤ PageSize := by
      simp only [KVHeaderSize_val, PageSize_val]
      simp only [KVHeaderSize_val] at hsz
      omega
    obtain ⟨ih1, ih2, ih3, ih4⟩ := ih (((Node.mk d).writeLeafKeyValue i0 p0 e.1 e.2).data)
      (i0 + 1) (p0 + KVHeaderSize + e.1.length + e.2.length) hd1len hihslot hihfit
    have hstep : packLoop d (e :: rest) i0 p0 =
        packLoop (((Node.mk d).writeLeafKeyValue i0 p0 e.1 e.2).data) rest (i0 + 1)
          (p0 + KVHeaderSize + e.1.length + e.2.length) := rfl
    rw [hstep]
    refine ⟨?_, ih2, ?_, ?_⟩
    · rw [ih1, hseq]
      simp only [KVHeaderSize_val] at hsz ⊢
      omega
    · intro i hi
      simp only [NodeHeaderSize_val, OffsetSize_val, List.length_cons, PageSize_val] at hi
      rw [hseq] at hi
      simp only [KVHeaderSize_val] at hsz
      have hih3 := ih3 i (by
        simp only [NodeHeaderSize_val, OffsetSize_val, KVHeaderSize_val]
        omega)
      rw [hih3]
      apply hd1out i
      simp only [NodeHeaderSize_val, OffsetSize_val, KVHeaderSize_val]
      omega
    · intro j hj
      cases j with
      | zero =>
        simp only [KVHeaderSize_val] at hsz
        have htake0 : sizesSum ((e :: rest).take 0) = 0 := rfl
        have htake1 : sizesSum ((e :: rest).take 1) = entrySize e := by
          rw [sizesSum_take_succ_cons]
          simp [sizesSum]
        have hagree : ∀ i, i < NodeHeaderSize + (i0 + 1) * OffsetSize →
            (packLoop (((Node.mk d).writeLeafKeyValue i0 p0 e.1 e.2).data) rest (i0 + 1)
              (p0 + KVHeaderSize + e.1.length + e.2.length)).1.getD i 0 =
            (((Node.mk d).writeLeafKeyValue i0 p0 e.1 e.2).data).getD i 0 := by
          intro i hi
          exact ih3 i (Or.inl hi)
        refine ⟨?_, ?_, ?_⟩
        · have hru : readU16 (packLoop (((Node.mk d).writeLeafKeyValue i0 p0 e.1 e.2).data)
              rest (i0 + 1) (p0 + KVHeaderSize + e.1.length + e.2.length)).1
              (NodeHeaderSize + (i0 + 0) * OffsetSize) =
              readU16 (((Node.mk d).writeLeafKeyValue i0 p0 e.1 e.2).data)
                (NodeHeaderSize + (i0 + 0) * OffsetSize) := by
            apply readU16_congr
            intro i h1 h2
            apply hagree i
            simp only [NodeHeaderSize_val, OffsetSize_val] at h1 h2 ⊢
            omega
          rw [hru]
          have : NodeHeaderSize + (i0 + 0) * OffsetSize =
              NodeHeaderSize + i0 * OffsetSize := by
            simp only [NodeHeaderSize_val, OffsetSize_val]
            omega
          rw [this, hd1slotv, htake0]
          have hp0 : p0 < 65536 := by omega
          rw [Nat.mod_eq_of_lt hp0]
          omega
        · have hcongr := entryAt_congr (((Node.mk d).writeLeafKeyValue i0 p0 e.1 e.2).data)
            (packLoop (((Node.mk d).writeLeafKeyValue i0 p0 e.1 e.2).data) rest (i0 + 1)
              (p0 + KVHeaderSize + e.1.length + e.2.length)).1 p0
            (by rw [hd1end, hd1len]; exact hwoff)
            (by rw [hd1end, ih2]; exact hwoff)
            (by
              intro i h1 h2
              rw [hd1end] at h2
              apply ih3 i
              right; left
              simp only [NodeHeaderSize_val, OffsetSize_val, KVHeaderSize_val] at h2 ⊢
              constructor <;> omega)
          rw [htake0]
          have hzero : p0 + 0 = p0 := by omega
          rw [hzero, hcongr.1, hd1entry]
          rfl
        · have hcongr := entryAt_congr (((Node.mk d).writeLeafKeyValue i0 p0 e.1 e.2).data)
            (packLoop (((Node.mk d).writeLeafKeyValue i0 p0 e.1 e.2).data) rest (i0 + 1)
              (p0 + KVHeaderSize + e.1.length + e.2.length)).1 p0
            (by rw [hd1end, hd1len]; exact hwoff)
            (by rw [hd1end, ih2]; exact hwoff)
            (by
              intro i h1 h2
              rw [hd1end] at h2
              apply ih3 i
              right; left
              simp only [NodeHeaderSize_val, OffsetSize_val, KVHeaderSize_val] at h2 ⊢
              constructor <;> omega)
          rw [htake0]
          have hzero : p0 + 0 = p0 := by omega
          rw [hzero, hcongr.2, hd1end, htake1]
          simp only [KVHeaderSize_val]
          omega
      | succ j =>
        have hjr : j < rest.length := by
          simp only [List.length_cons] at hj
          omega
        obtain ⟨ihs, ihe, ihn⟩ := ih4 j hjr
        simp only [KVHeaderSize_val] at hsz
        have hpos1 : NodeHeaderSize + (i0 + (j + 1)) * OffsetSize =
            NodeHeaderSize + (i0 + 1 + j) * OffsetSize := by
          simp only [NodeHeaderSize_val, OffsetSize_val]
          omega
        have hpos2 : p0 + sizesSum ((e :: rest).take (j + 1)) =
            p0 + KVHeaderSize + e.1.length + e.2.length + sizesSum (rest.take j) := by
          rw [sizesSum_take_succ_cons]
          simp only [KVHeaderSize_val]
          omega
        have hpos3 : p0 + sizesSum ((e :: rest).take (j + 1 + 1)) =
            p0 + KVHeaderSize + e.1.length + e.2.length + sizesSum (rest.take (j + 1)) := by
          rw [sizesSum_take_succ_cons]
          simp only [KVHeaderSize_val]
          omega
        refine ⟨?_, ?_, ?_⟩
        · rw [hpos1, hpos2]
          exact ihs
        · rw [hpos2]
          rw [ihe]
          rfl
        · rw [hpos2, hpos3]
          exact ihn

/-! ### `compact` correctness -/

theorem enum_foldl_eq_packLoop (pairs : List (Bytes × Bytes)) :
    ∀ (k : Nat) (d : Bytes) (p : Nat),
    (List.enumFrom k pairs).foldl
      (fun (st : Bytes × Nat) ip =>
        let d := writeU16 st.1 (NodeHeaderSize + ip.1 * OffsetSize) st.2
        let d := writeU16 d st.2 ip.2.1.length
        let d := writeU16 d (st.2 + 2) ip.2.2.length
        let d := writeBytes d (st.2 + KVHeaderSize) ip.2.1
        let d := writeBytes d (st.2 + KVHeaderSize + ip.2.1.length) ip.2.2
        (d, st.2 + KVHeaderSize + ip.2.1.length + ip.2.2.length))
      (d, p) = packLoop d pairs k p := by
  induction pairs with
  | nil => intro k d p; rfl
  | cons e rest ih =>
    intro k d p
    rw [packLoop, ← ih (k + 1)]
    rfl

theorem sizes_foldl_eq (pairs : List (Bytes × Bytes)) :
    ∀ a, pairs.foldl (fun acc p => acc + KVHeaderSize + p.1.length + p.2.length) a =
      a + sizesSum pairs := by
  induction pairs with
  | nil => intro a; simp [sizesSum]
  | cons e rest ih =>
    intro a
    rw [List.foldl_cons, ih, sizesSum_cons]
    have : entrySize e = KVHeaderSize + e.1.length + e.2.length := rfl
    omega

theorem entries_getD (n : Node) (j : Nat) (hj : j < n.getKeyCount) :
    n.entries.getD j ([], []) = n.getLeafKeyValue j := by
  unfold Node.entries
  rw [List.getD_eq_getElem?_getD, List.getElem?_map, List.getElem?_range hj]
  rfl

theorem entries_mem_bytes_lt (n : Node) (hb : ∀ b ∈ n.data, b < 256) :
    ∀ e ∈ n.entries, (∀ b ∈ e.1, b < 256) ∧ (∀ b ∈ e.2, b < 256) := by
  intro e he
  unfold Node.entries at he
  obtain ⟨i, _, heq⟩ := List.mem_map.1 he
  constructor
  · intro b hbk
    rw [← heq] at hbk
    exact hb b (mem_readBytes _ _ _ b hbk)
  · intro b hbv
    rw [← heq] at hbv
    exact hb b (mem_readBytes _ _ _ b hbv)

theorem compact_count_zero (n : Node) (reserve : Bool) (hc : n.getKeyCount = 0) :
    n.compact reserve =
      (n, (if reserve then NodeHeaderSize + OffsetSize else NodeHeaderSize), true) := by
  unfold Node.compact
  rw [if_pos hc]

theorem compact_eq_packLoop (n : Node) (reserve : Bool) (hc : n.getKeyCount ≠ 0)
    (hfit : NodeHeaderSize + (if reserve then n.getKeyCount + 1 else n.getKeyCount) *
      OffsetSize + sizesSum n.entries ≤ PageSize) :
    n.compact reserve =
      (Node.mk (packLoop n.data n.entries 0 (NodeHeaderSize +
          (if reserve then n.getKeyCount + 1 else n.getKeyCount) * OffsetSize)).1,
        (packLoop n.data n.entries 0 (NodeHeaderSize +
          (if reserve then n.getKeyCount + 1 else n.getKeyCount) * OffsetSize)).2,
        true) := by
  unfold Node.compact
  rw [if_neg hc]
  dsimp only
  have hsum0 : n.entries.foldl
      (fun acc p => acc + KVHeaderSize + p.1.length + p.2.length) 0 =
      sizesSum n.entries := by
    rw [sizes_foldl_eq]
    omega
  have hpairs : (List.range n.getKeyCount).map n.getLeafKeyValue = n.entries := rfl
  rw [hpairs, hsum0]
  rw [if_neg (by omega)]
  have henum : n.entries.enum = List.enumFrom 0 n.entries := rfl
  rw [henum, enum_foldl_eq_packLoop n.entries 0 n.data
    (NodeHeaderSize + (if reserve = true then n.getKeyCount + 1 else n.getKeyCount) *
      OffsetSize)]

theorem compact_spec (n : Node) (reserve : Bool) (hwf : n.WF)
    (hfit : NodeHeaderSize + (if reserve then n.getKeyCount + 1 else n.getKeyCount) *
      OffsetSize + sizesSum n.entries ≤ PageSize) :
    (n.compact reserve).2.2 = true ∧
    (n.compact reserve).2.1 = NodeHeaderSize + (if reserve then n.getKeyCount + 1
      else n.getKeyCount) * OffsetSize + sizesSum n.entries ∧
    (n.compact reserve).1.getKeyCount = n.getKeyCount ∧
    (n.compact reserve).1.getType = n.getType ∧
    (n.compact reserve).1.entries = n.entries ∧
    (n.compact reserve).1.WF ∧
    (∀ i, i < n.getKeyCount →
      (n.compact reserve).1.getOffset i =
        NodeHeaderSize + (if reserve then n.getKeyCount + 1 else n.getKeyCount) * OffsetSize +
          sizesSum (n.entries.take i) ∧
      entryEnd (n.compact reserve).1.data ((n.compact reserve).1.getOffset i) =
        NodeHeaderSize + (if reserve then n.getKeyCount + 1 else n.getKeyCount) * OffsetSize +
          sizesSum (n.entries.take (i + 1))) := by
  obtain ⟨hlen, hb, hbound⟩ := hwf
  by_cases hc : n.getKeyCount = 0
  · rw [compact_count_zero n reserve hc]
    have hent : n.entries = [] := by
      unfold Node.entries
      rw [hc]
      rfl
    refine ⟨rfl, ?_, rfl, rfl, rfl, ⟨hlen, hb, hbound⟩, ?_⟩
    · rw [hent, hc]
      cases reserve <;> simp [sizesSum]
    · intro i hi
      omega
  · have hlenE : n.entries.length = n.getKeyCount := length_entries n
    have hslotP : NodeHeaderSize + (0 + n.entries.length) * OffsetSize ≤
        NodeHeaderSize + (if reserve then n.getKeyCount + 1 else n.getKeyCount) *
          OffsetSize := by
      rw [hlenE]
      simp only [NodeHeaderSize_val, OffsetSize_val]
      cases reserve <;> simp
    have hfitP : NodeHeaderSize + (if reserve then n.getKeyCount + 1 else n.getKeyCount) *
        OffsetSize + sizesSum n.entries ≤ PageSize := hfit
    obtain ⟨p1, p2, p3, p4⟩ := packLoop_spec n.entries n.data 0
      (NodeHeaderSize + (if reserve then n.getKeyCount + 1 else n.getKeyCount) * OffsetSize)
      hlen hslotP hfitP
    rw [compact_eq_packLoop n reserve hc hfit]
    have hcnt : (Node.mk (packLoop n.data n.entries 0 (NodeHeaderSize +
        (if reserve then n.getKeyCount + 1 else n.getKeyCount) * OffsetSize)).1).getKeyCount =
        n.getKeyCount := by
      show readU16 _ 1 = readU16 n.data 1
      apply readU16_congr
      intro i h1 h2
      apply p3 i
      left
      simp only [NodeHeaderSize_val, OffsetSize_val]
      omega
    have htyp : (Node.mk (packLoop n.data n.entries 0 (NodeHeaderSize +
        (if reserve then n.getKeyCount + 1 else n.getKeyCount) * OffsetSize)).1).getType =
        n.getType := by
      show List.getD _ 0 0 = List.getD n.data 0 0
      apply p3 0
      left
      simp only [NodeHeaderSize_val, OffsetSize_val]
      omega
    have hoffs : ∀ i, i < n.getKeyCount →
        (Node.mk (packLoop n.data n.entries 0 (NodeHeaderSize +
          (if reserve then n.getKeyCount + 1 else n.getKeyCount) * OffsetSize)).1).getOffset i =
        NodeHeaderSize + (if reserve then n.getKeyCount + 1 else n.getKeyCount) * OffsetSize +
          sizesSum (n.entries.take i) := by
      intro i hi
      show readU16 _ (NodeHeaderSize + OffsetSize * i) = _
      rw [show NodeHeaderSize + OffsetSize * i = NodeHeaderSize + (0 + i) * OffsetSize by
        simp only [NodeHeaderSize_val, OffsetSize_val]; omega]
      exact (p4 i (by omega)).1
    have hget : ∀ i, i < n.getKeyCount →
        (Node.mk (packLoop n.data n.entries 0 (NodeHeaderSize +
          (if reserve then n.getKeyCount + 1 else n.getKeyCount) * OffsetSize)).1).getLeafKeyValue
          i = n.getLeafKeyValue i := by
      intro i hi
      unfold Node.getLeafKeyValue
      rw [show (Node.mk (packLoop n.data n.entries 0 (NodeHeaderSize +
        (if reserve then n.getKeyCount + 1 else n.getKeyCount) * OffsetSize)).1).getOffset i =
        NodeHeaderSize + (if reserve then n.getKeyCount + 1 else n.getKeyCount) * OffsetSize +
          sizesSum (n.entries.take i) from hoffs i hi]
      have := (p4 i (by omega)).2.1
      rw [show (Node.mk (packLoop n.data n.entries 0 (NodeHeaderSize +
        (if reserve then n.getKeyCount + 1 else n.getKeyCount) * OffsetSize)).1).data =
        (packLoop n.data n.entries 0 (NodeHeaderSize +
        (if reserve then n.getKeyCount + 1 else n.getKeyCount) * OffsetSize)).1 from rfl]
      rw [this]
      rw [entries_getD n i hi]
      rfl
    have hents : (Node.mk (packLoop n.data n.entries 0 (NodeHeaderSize +
        (if reserve then n.getKeyCount + 1 else n.getKeyCount) * OffsetSize)).1).entries =
        n.entries := by
      have hl1 : (Node.mk (packLoop n.data n.entries 0 (NodeHeaderSize +
          (if reserve then n.getKeyCount + 1 else n.getKeyCount) * OffsetSize)).1).entries.length
          = n.getKeyCount := by
        rw [length_entries, hcnt]
      apply List.ext_getElem
      · rw [hl1, length_entries]
      · intro i hi1 hi2
        rw [entries_getElem _ i hi1, entries_getElem _ i hi2]
        apply hget
        rw [hl1] at hi1
        exact hi1
    have hends : ∀ i, i < n.getKeyCount →
        entryEnd (packLoop n.data n.entries 0 (NodeHeaderSize +
          (if reserve then n.getKeyCount + 1 else n.getKeyCount) * OffsetSize)).1
          (NodeHeaderSize + (if reserve then n.getKeyCount + 1 else n.getKeyCount) *
            OffsetSize + sizesSum (n.entries.take i)) =
        NodeHeaderSize + (if reserve then n.getKeyCount + 1 else n.getKeyCount) * OffsetSize +
          sizesSum (n.entries.take (i + 1)) := by
      intro i hi
      exact (p4 i (by omega)).2.2
    refine ⟨rfl, p1, hcnt, htyp, hents, ?_, ?_⟩
    · refine ⟨p2, ?_, ?_⟩
      · apply packLoop_bytes_lt
        · exact hb
        · exact entries_mem_bytes_lt n hb
      · intro i hi
        rw [hcnt] at hi
        rw [show (Node.mk (packLoop n.data n.entries 0 (NodeHeaderSize +
          (if reserve then n.getKeyCount + 1 else n.getKeyCount) * OffsetSize)).1).getOffset i =
          NodeHeaderSize + (if reserve then n.getKeyCount + 1 else n.getKeyCount) *
            OffsetSize + sizesSum (n.entries.take i) from hoffs i hi]
        rw [show (Node.mk (packLoop n.data n.entries 0 (NodeHeaderSize +
          (if reserve then n.getKeyCount + 1 else n.getKeyCount) * OffsetSize)).1).data =
          (packLoop n.data n.entries 0 (NodeHeaderSize +
          (if reserve then n.getKeyCount + 1 else n.getKeyCount) * OffsetSize)).1 from rfl]
        rw [hends i hi]
        have htle := sizesSum_take_le n.entries (i + 1)
        simp only [PageSize_val] at hfit ⊢
        omega
    · intro i hi
      refine ⟨hoffs i hi, ?_⟩
      rw [show (Node.mk (packLoop n.data n.entries 0 (NodeHeaderSize +
        (if reserve then n.getKeyCount + 1 else n.getKeyCount) * OffsetSize)).1).getOffset i =
        NodeHeaderSize + (if reserve then n.getKeyCount + 1 else n.getKeyCount) *
          OffsetSize + sizesSum (n.entries.take i) from hoffs i hi]
      exact hends i hi

theorem compact_fail (n : Node) (reserve : Bool) (hc : n.getKeyCount ≠ 0)
    (hfit : PageSize < NodeHeaderSize + (if reserve then n.getKeyCount + 1
      else n.getKeyCount) * OffsetSize + sizesSum n.entries) :
    n.compact reserve = (n, 0, false) := by
  unfold Node.compact
  rw [if_neg hc]
  dsimp only
  have hsum0 : n.entries.foldl
      (fun acc p => acc + KVHeaderSize + p.1.length + p.2.length) 0 =
      sizesSum n.entries := by
    rw [sizes_foldl_eq]
    omega
  have hpairs : (List.range n.getKeyCount).map n.getLeafKeyValue = n.entries := rfl
  rw [hpairs, hsum0]
  rw [if_pos (by omega)]

/-! ### The heap scan of the insertion routines -/

theorem scanHeap_bounds (n : Node) :
    ∀ i, i < n.getKeyCount →
      (n.scanHeap).1 ≤ n.getOffset i ∧
      entryEnd n.data (n.getOffset i) ≤ (n.scanHeap).2 := by
  have hgen : ∀ (m : Nat) (a : Nat × Nat),
      (((List.range m).foldl
        (fun (p : Nat × Nat) i =>
          let off := n.getOffset i
          let heapStart := if off < p.1 then off else p.1
          let kLen := readU16 n.data off
          let vLen := readU16 n.data (off + 2)
          let e := off + KVHeaderSize + kLen + vLen
          let maxEnd := if e > p.2 then e else p.2
          (heapStart, maxEnd)) a).1 ≤ a.1 ∧
      a.2 ≤ ((List.range m).foldl
        (fun (p : Nat × Nat) i =>
          let off := n.getOffset i
          let heapStart := if off < p.1 then off else p.1
          let kLen := readU16 n.data off
          let vLen := readU16 n.data (off + 2)
          let e := off + KVHeaderSize + kLen + vLen
          let maxEnd := if e > p.2 then e else p.2
          (heapStart, maxEnd)) a).2) ∧
      ∀ i, i < m →
        ((List.range m).foldl
          (fun (p : Nat × Nat) i =>
            let off := n.getOffset i
            let heapStart := if off < p.1 then off else p.1
            let kLen := readU16 n.data off
            let vLen := readU16 n.data (off + 2)
            let e := off + KVHeaderSize + kLen + vLen
            let maxEnd := if e > p.2 then e else p.2
            (heapStart, maxEnd)) a).1 ≤ n.getOffset i ∧
        entryEnd n.data (n.getOffset i) ≤
          ((List.range m).foldl
            (fun (p : Nat × Nat) i =>
              let off := n.getOffset i
              let heapStart := if off < p.1 then off else p.1
              let kLen := readU16 n.data off
              let vLen := readU16 n.data (off + 2)
              let e := off + KVHeaderSize + kLen + vLen
              let maxEnd := if e > p.2 then e else p.2
              (heapStart, maxEnd)) a).2 := by
    intro m
    induction m with
    | zero =>
      intro a
      refine ⟨⟨Nat.le_refl _, Nat.le_refl _⟩, ?_⟩
      intro i hi
      omega
    | succ m ih =>
      intro a
      rw [List.range_succ, List.foldl_append, List.foldl_cons, List.foldl_nil]
      obtain ⟨⟨ihm1, ihm2⟩, ihcov⟩ := ih a
      set fm := (List.range m).foldl
        (fun (p : Nat × Nat) i =>
          let off := n.getOffset i
          let heapStart := if off < p.1 then off else p.1
          let kLen := readU16 n.data off
          let vLen := readU16 n.data (off + 2)
          let e := off + KVHeaderSize + kLen + vLen
          let maxEnd := if e > p.2 then e else p.2
          (heapStart, maxEnd)) a with hfm
      refine ⟨⟨?_, ?_⟩, ?_⟩
      · dsimp only
        split <;> omega
      · dsimp only
        split <;> omega
      · intro i hi
        rcases Nat.lt_or_ge i m with him | him
        · obtain ⟨hc1, hc2⟩ := ihcov i him
          constructor
          · dsimp only
            split <;> omega
          · dsimp only
            split <;> omega
        · have hieq : i = m := by omega
          subst hieq
          constructor
          · dsimp only
            split <;> omega
          · show entryEnd n.data (n.getOffset i) ≤
              (if n.getOffset i + KVHeaderSize + readU16 n.data (n.getOffset i) +
                readU16 n.data (n.getOffset i + 2) > fm.2
              then n.getOffset i + KVHeaderSize + readU16 n.data (n.getOffset i) +
                readU16 n.data (n.getOffset i + 2)
              else fm.2)
            have hee : entryEnd n.data (n.getOffset i) =
                n.getOffset i + KVHeaderSize + readU16 n.data (n.getOffset i) +
                  readU16 n.data (n.getOffset i + 2) := rfl
            rw [hee]
            split <;> omega
  intro i hi
  exact (hgen n.getKeyCount (PageSize, 0)).2 i hi

theorem getD_readBytes (l : Bytes) (pos len : Nat) (h : pos + len ≤ l.length) (m : Nat) :
    (readBytes l pos len).getD m 0 = if m < len then l.getD (pos + m) 0 else 0 := by
  rw [readBytes_eq_map l pos len h]
  rcases Nat.lt_or_ge m len with hlt | hge
  · rw [if_pos hlt, List.getD_eq_getElem?_getD, List.getElem?_map, List.getElem?_range hlt]
    rfl
  · rw [if_neg (by omega), List.getD_eq_getElem?_getD, List.getElem?_eq_none
      (by simp only [List.length_map, List.length_range]; omega)]
    rfl

theorem getElem?_insert_list {α : Type} (l : List α) (x : α) (idx : Nat)
    (hidx : idx ≤ l.length) (j : Nat) :
    (l.take idx ++ x :: l.drop idx)[j]? =
      if j < idx then l[j]? else if j = idx then some x else l[j - 1]? := by
  have htl : (l.take idx).length = idx := by
    rw [List.length_take]
    omega
  rw [List.getElem?_append]
  rcases Nat.lt_or_ge j idx with h1 | h1
  · rw [if_pos (by omega), if_pos h1]
    rw [List.getElem?_take, if_pos h1]
  · rw [if_neg (by omega), htl, if_neg (by omega)]
    rcases Nat.eq_or_lt_of_le h1 with h2 | h2
    · rw [if_pos (by omega)]
      rw [show j - idx = 0 by omega]
      rw [List.getElem?_cons_zero]
    · rw [if_neg (by omega)]
      rw [show j - idx = (j - idx - 1) + 1 by omega]
      rw [List.getElem?_cons_succ, List.getElem?_drop]
      congr 1
      omega

/-! ### The shared insertion tail (`insertFinish`) -/

theorem finishCore_spec (n : Node) (index writePos : Nat) (key val : Bytes)
    (count : Nat) (S : Bytes) (hcount : n.getKeyCount = count)
    (hlen : n.data.length = PageSize) (hb : ∀ b ∈ n.data, b < 256)
    (hSlen : S.length = PageSize) (hSb : ∀ b ∈ S, b < 256)
    (hSdesc : ∀ i, S.getD i 0 =
      if 3 + index * 2 + 2 ≤ i ∧ i < 3 + count * 2 + 2 then n.data.getD (i - 2) 0
      else n.data.getD i 0)
    (hkb : ∀ b ∈ key, b < 256) (hvb : ∀ b ∈ val, b < 256)
    (hidx : index ≤ count)
    (hoffs : ∀ i, i < count → NodeHeaderSize + (count + 1) * OffsetSize ≤ n.getOffset i)
    (hends : ∀ i, i < count → entryEnd n.data (n.getOffset i) ≤ writePos)
    (hwp : NodeHeaderSize + (count + 1) * OffsetSize ≤ writePos)
    (hfit : writePos + KVHeaderSize + key.length + val.length ≤ PageSize) :
    (Node.mk (writeU16 ((Node.mk S).writeLeafKeyValue index writePos key val).data 1
      (count + 1))).getKeyCount = count + 1 ∧
    (Node.mk (writeU16 ((Node.mk S).writeLeafKeyValue index writePos key val).data 1
      (count + 1))).getType = n.getType ∧
    (Node.mk (writeU16 ((Node.mk S).writeLeafKeyValue index writePos key val).data 1
      (count + 1))).WF ∧
    (Node.mk (writeU16 ((Node.mk S).writeLeafKeyValue index writePos key val).data 1
      (count + 1))).entries = n.entries.take index ++ (key, val) :: n.entries.drop index ∧
    (∀ j, j < count + 1 →
      (Node.mk (writeU16 ((Node.mk S).writeLeafKeyValue index writePos key val).data 1
        (count + 1))).getOffset j =
        if j < index then n.getOffset j
        else if j = index then writePos
        else n.getOffset (j - 1)) := by
  have harith : 3 + (count + 1) * 2 ≤ writePos ∧
      writePos + 4 + key.length + val.length ≤ 4096 := by
    simp only [NodeHeaderSize_val, OffsetSize_val, KVHeaderSize_val, PageSize_val] at hwp hfit
    omega
  have hoffsN : ∀ i, i < count → 3 + (count + 1) * 2 ≤ n.getOffset i := by
    intro i hi
    have := hoffs i hi
    simp only [NodeHeaderSize_val, OffsetSize_val] at this
    omega
  have hcountlt : count + 1 < 65536 := by omega
  have hWslotH : NodeHeaderSize + index * OffsetSize + OffsetSize ≤ writePos := by
    simp only [NodeHeaderSize_val, OffsetSize_val]
    omega
  have hWlen := length_writeLeafKeyValue (Node.mk S) index writePos key val hSlen hWslotH hfit
  have hWslot := writeLeafKeyValue_slot (Node.mk S) index writePos key val hSlen hWslotH hfit
  have hWentry := writeLeafKeyValue_entry (Node.mk S) index writePos key val hSlen hWslotH hfit
  have hWend := writeLeafKeyValue_entryEnd (Node.mk S) index writePos key val hSlen hWslotH hfit
  have hWout := writeLeafKeyValue_outside (Node.mk S) index writePos key val hSlen hWslotH hfit
  have hWb := writeLeafKeyValue_bytes_lt (Node.mk S) index writePos key val hSb hkb hvb
  -- the final count write
  have hClen : (writeU16 ((Node.mk S).writeLeafKeyValue index writePos key val).data 1
      (count + 1)).length = PageSize := by
    rw [length_writeU16 _ _ _ (by rw [hWlen, PageSize_val]; omega)]
    exact hWlen
  have hCgetD : ∀ i, (writeU16 ((Node.mk S).writeLeafKeyValue index writePos key val).data 1
      (count + 1)).getD i 0 =
      if 1 ≤ i ∧ i < 3 then (u16Bytes (count + 1)).getD (i - 1) 0
      else ((Node.mk S).writeLeafKeyValue index writePos key val).data.getD i 0 := by
    intro i
    rw [getD_writeU16 _ _ _ (by rw [hWlen, PageSize_val]; omega)]
  have hCb : ∀ b ∈ (writeU16 ((Node.mk S).writeLeafKeyValue index writePos key val).data 1
      (count + 1)), b < 256 := mem_writeU16_lt _ _ _ hWb
  -- conclusion 1: key count
  have hcnt : (Node.mk (writeU16 ((Node.mk S).writeLeafKeyValue index writePos key val).data 1
      (count + 1))).getKeyCount = count + 1 := by
    show readU16 _ 1 = count + 1
    rw [readU16_writeU16_self _ _ _ (by rw [hWlen, PageSize_val]; omega)]
    exact Nat.mod_eq_of_lt hcountlt
  -- conclusion 2: type
  have htyp : (Node.mk (writeU16 ((Node.mk S).writeLeafKeyValue index writePos key val).data 1
      (count + 1))).getType = n.getType := by
    show List.getD _ 0 0 = List.getD n.data 0 0
    rw [hCgetD 0, if_neg (by omega)]
    rw [hWout 0 (by
      left
      simp only [NodeHeaderSize_val, OffsetSize_val]
      omega)]
    show S.getD 0 0 = n.data.getD 0 0
    rw [hSdesc 0, if_neg (by omega)]
  -- slots
  have hslotF : ∀ j, j < count + 1 →
      (Node.mk (writeU16 ((Node.mk S).writeLeafKeyValue index writePos key val).data 1
        (count + 1))).getOffset j =
        if j < index then n.getOffset j
        else if j = index then writePos
        else n.getOffset (j - 1) := by
    intro j hj
    show readU16 _ (NodeHeaderSize + OffsetSize * j) = _
    have hcongrC : readU16 (writeU16 ((Node.mk S).writeLeafKeyValue index writePos key
        val).data 1 (count + 1)) (NodeHeaderSize + OffsetSize * j) =
        readU16 ((Node.mk S).writeLeafKeyValue index writePos key val).data
          (NodeHeaderSize + OffsetSize * j) := by
      apply readU16_congr
      intro i h1 h2
      rw [hCgetD i, if_neg (by
        simp only [NodeHeaderSize_val, OffsetSize_val] at h1
        omega)]
    rw [hcongrC]
    rcases Nat.lt_or_ge j index with hji | hji
    · rw [if_pos hji]
      have hcongrW : readU16 ((Node.mk S).writeLeafKeyValue index writePos key val).data
          (NodeHeaderSize + OffsetSize * j) = readU16 S (NodeHeaderSize + OffsetSize * j) := by
        apply readU16_congr
        intro i h1 h2
        apply hWout i
        left
        simp only [NodeHeaderSize_val, OffsetSize_val] at h1 h2 ⊢
        omega
      rw [hcongrW]
      show _ = readU16 n.data (NodeHeaderSize + OffsetSize * j)
      apply readU16_congr
      intro i h1 h2
      rw [hSdesc i, if_neg (by
        simp only [NodeHeaderSize_val, OffsetSize_val] at h1 h2
        omega)]
    · rcases Nat.eq_or_lt_of_le hji with hje | hjg
      · rw [if_neg (by omega), if_pos (by omega)]
        rw [show NodeHeaderSize + OffsetSize * j = NodeHeaderSize + index * OffsetSize by
          simp only [NodeHeaderSize_val, OffsetSize_val]
          omega]
        rw [hWslot]
        apply Nat.mod_eq_of_lt
        omega
      · rw [if_neg (by omega), if_neg (by omega)]
        have hcongrW : readU16 ((Node.mk S).writeLeafKeyValue index writePos key val).data
            (NodeHeaderSize + OffsetSize * j) = readU16 S (NodeHeaderSize + OffsetSize * j) := by
          apply readU16_congr
          intro i h1 h2
          apply hWout i
          right; left
          simp only [NodeHeaderSize_val, OffsetSize_val] at h1 h2 ⊢
          omega
        rw [hcongrW]
        show _ = readU16 n.data (NodeHeaderSize + OffsetSize * (j - 1))
        unfold readU16
        rw [hSdesc, hSdesc]
        rw [if_pos (by
          simp only [NodeHeaderSize_val, OffsetSize_val]
          omega)]
        rw [if_pos (by
          simp only [NodeHeaderSize_val, OffsetSize_val]
          omega)]
        simp only [NodeHeaderSize_val, OffsetSize_val]
        have e1 : 3 + 2 * j - 2 = 3 + 2 * (j - 1) := by omega
        have e2 : 3 + 2 * j + 1 - 2 = 3 + 2 * (j - 1) + 1 := by omega
        rw [e1, e2]
  -- old records are untouched
  have hold : ∀ j, j < count →
      entryAt (writeU16 ((Node.mk S).writeLeafKeyValue index writePos key val).data 1
        (count + 1)) (n.getOffset j) = n.getLeafKeyValue j ∧
      entryEnd (writeU16 ((Node.mk S).writeLeafKeyValue index writePos key val).data 1
        (count + 1)) (n.getOffset j) = entryEnd n.data (n.getOffset j) := by
    intro j hj
    have hoj := hoffsN j hj
    have hej := hends j hj
    have hcg := entryAt_congr n.data (writeU16 ((Node.mk S).writeLeafKeyValue index writePos
        key val).data 1 (count + 1)) (n.getOffset j)
      (by rw [hlen]; simp only [PageSize_val]; omega)
      (by rw [hClen]; simp only [PageSize_val]; omega)
      (by
        intro i h1 h2
        rw [hCgetD i, if_neg (by omega)]
        rw [hWout i (by
          right; left
          simp only [NodeHeaderSize_val, OffsetSize_val]
          omega)]
        show S.getD i 0 = n.data.getD i 0
        rw [hSdesc i, if_neg (by omega)])
    exact ⟨hcg.1, hcg.2⟩
  -- the new record
  have hnew : entryAt (writeU16 ((Node.mk S).writeLeafKeyValue index writePos key val).data 1
        (count + 1)) writePos = (key, val) ∧
      entryEnd (writeU16 ((Node.mk S).writeLeafKeyValue index writePos key val).data 1
        (count + 1)) writePos = writePos + KVHeaderSize + key.length + val.length := by
    have hcg := entryAt_congr ((Node.mk S).writeLeafKeyValue index writePos key val).data
      (writeU16 ((Node.mk S).writeLeafKeyValue index writePos key val).data 1 (count + 1))
      writePos
      (by rw [hWend, hWlen]; exact hfit)
      (by rw [hWend, hClen]; exact hfit)
      (by
        intro i h1 h2
        rw [hCgetD i, if_neg (by omega)])
    refine ⟨?_, ?_⟩
    · rw [hcg.1, hWentry]
    · rw [hcg.2, hWend]
  -- entries of the result, entry by entry
  have hentryF : ∀ j, j < count + 1 →
      (Node.mk (writeU16 ((Node.mk S).writeLeafKeyValue index writePos key val).data 1
        (count + 1))).getLeafKeyValue j =
        if j < index then n.getLeafKeyValue j
        else if j = index then (key, val) else n.getLeafKeyValue (j - 1) := by
    intro j hj
    show entryAt _ ((Node.mk (writeU16 ((Node.mk S).writeLeafKeyValue index writePos key
      val).data 1 (count + 1))).getOffset j) = _
    rw [hslotF j hj]
    rcases Nat.lt_or_ge j index with h1 | h1
    · rw [if_pos h1, if_pos h1]
      exact (hold j (by omega)).1
    · have hn1 : ¬ j < index := by omega
      rcases Nat.eq_or_lt_of_le h1 with h2 | h2
      · have hp2 : j = index := by omega
        rw [if_neg hn1, if_neg hn1, if_pos hp2, if_pos hp2]
        exact hnew.1
      · have hn2 : ¬ j = index := by omega
        rw [if_neg hn1, if_neg hn1, if_neg hn2, if_neg hn2]
        exact (hold (j - 1) (by omega)).1
  -- entry list equality
  have hlenE : n.entries.length = count := by
    rw [length_entries, hcount]
  have hidxE : index ≤ n.entries.length := by omega
  have hents : (Node.mk (writeU16 ((Node.mk S).writeLeafKeyValue index writePos key val).data 1
      (count + 1))).entries = n.entries.take index ++ (key, val) :: n.entries.drop index := by
    apply List.ext_getElem?
    intro j
    rw [getElem?_insert_list n.entries (key, val) index hidxE j]
    have hLHS : (Node.mk (writeU16 ((Node.mk S).writeLeafKeyValue index writePos key val).data
        1 (count + 1))).entries[j]? =
        if j < count + 1 then
          some ((Node.mk (writeU16 ((Node.mk S).writeLeafKeyValue index writePos key val).data
            1 (count + 1))).getLeafKeyValue j)
        else none := by
      unfold Node.entries
      rw [hcnt, List.getElem?_map]
      rcases Nat.lt_or_ge j (count + 1) with h1 | h1
      · rw [List.getElem?_range h1, if_pos h1]
        rfl
      · rw [if_neg (by omega), List.getElem?_eq_none (by rw [List.length_range]; omega)]
        rfl
    have hE : ∀ m, m < count → n.entries[m]? = some (n.getLeafKeyValue m) := by
      intro m hm
      unfold Node.entries
      rw [List.getElem?_map, List.getElem?_range (by rw [hcount]; omega)]
      rfl
    have hEnone : ∀ m, count ≤ m → n.entries[m]? = none := by
      intro m hm
      rw [List.getElem?_eq_none (by rw [hlenE]; omega)]
    rw [hLHS]
    rcases Nat.lt_or_ge j (count + 1) with h1 | h1
    · rw [if_pos h1, hentryF j h1]
      rcases Nat.lt_or_ge j index with h2 | h2
      · rw [if_pos h2, if_pos h2, hE j (by omega)]
      · have hn1 : ¬ j < index := by omega
        rcases Nat.eq_or_lt_of_le h2 with h3 | h3
        · have hp2 : j = index := by omega
          rw [if_neg hn1, if_neg hn1, if_pos hp2, if_pos hp2]
        · have hn2 : ¬ j = index := by omega
          rw [if_neg hn1, if_neg hn1, if_neg hn2, if_neg hn2, hE (j - 1) (by omega)]
    · have hn0 : ¬ j < count + 1 := by omega
      have hn1 : ¬ j < index := by omega
      have hn2 : ¬ j = index := by omega
      rw [if_neg hn0, if_neg hn1, if_neg hn2, hEnone (j - 1) (by omega)]
  -- well-formedness
  have hwfF : (Node.mk (writeU16 ((Node.mk S).writeLeafKeyValue index writePos key val).data 1
      (count + 1))).WF := by
    refine ⟨hClen, hCb, ?_⟩
    intro j hj
    rw [hcnt] at hj
    show entryEnd _ ((Node.mk (writeU16 ((Node.mk S).writeLeafKeyValue index writePos key
      val).data 1 (count + 1))).getOffset j) ≤ PageSize
    rw [hslotF j hj]
    rcases Nat.lt_or_ge j index with h1 | h1
    · rw [if_pos h1, (hold j (by omega)).2]
      have := hends j (by omega)
      simp only [PageSize_val] at *
      omega
    · have hn1 : ¬ j < index := by omega
      rcases Nat.eq_or_lt_of_le h1 with h2 | h2
      · have hp2 : j = index := by omega
        rw [if_neg hn1, if_pos hp2, hnew.2]
        exact hfit
      · have hn2 : ¬ j = index := by omega
        rw [if_neg hn1, if_neg hn2, (hold (j - 1) (by omega)).2]
        have := hends (j - 1) (by omega)
        simp only [PageSize_val] at *
        omega
  exact ⟨hcnt, htyp, hwfF, hents, hslotF⟩

theorem insertFinish_spec (n : Node) (index writePos : Nat) (key val : Bytes)
    (count : Nat) (hcount : n.getKeyCount = count)
    (hlen : n.data.length = PageSize) (hb : ∀ b ∈ n.data, b < 256)
    (hkb : ∀ b ∈ key, b < 256) (hvb : ∀ b ∈ val, b < 256)
    (hidx : index ≤ count)
    (hoffs : ∀ i, i < count → NodeHeaderSize + (count + 1) * OffsetSize ≤ n.getOffset i)
    (hends : ∀ i, i < count → entryEnd n.data (n.getOffset i) ≤ writePos)
    (hwp : NodeHeaderSize + (count + 1) * OffsetSize ≤ writePos)
    (hfit : writePos + KVHeaderSize + key.length + val.length ≤ PageSize) :
    (n.insertFinish index writePos key val count).getKeyCount = count + 1 ∧
    (n.insertFinish index writePos key val count).getType = n.getType ∧
    (n.insertFinish index writePos key val count).WF ∧
    (n.insertFinish index writePos key val count).entries =
      n.entries.take index ++ (key, val) :: n.entries.drop index ∧
    (∀ j, j < count + 1 →
      (n.insertFinish index writePos key val count).getOffset j =
        if j < index then n.getOffset j
        else if j = index then writePos
        else n.getOffset (j - 1)) := by
  have harith : 3 + (count + 1) * 2 ≤ writePos ∧
      writePos + 4 + key.length + val.length ≤ 4096 := by
    simp only [NodeHeaderSize_val, OffsetSize_val, KVHeaderSize_val, PageSize_val] at hwp hfit
    omega
  have hlenshift : (writeBytes n.data (NodeHeaderSize + index * OffsetSize + OffsetSize)
      (readBytes n.data (NodeHeaderSize + index * OffsetSize)
        (NodeHeaderSize + count * OffsetSize - (NodeHeaderSize + index * OffsetSize)))).length
      = PageSize := by
    rw [length_writeBytes]
    · exact hlen
    · rw [length_readBytes]
      · simp only [NodeHeaderSize_val, OffsetSize_val]
        rw [hlen, PageSize_val]
        omega
      · rw [hlen]
        simp only [NodeHeaderSize_val, OffsetSize_val, PageSize_val]
        omega
  have hshift : ∀ i, (writeBytes n.data (NodeHeaderSize + index * OffsetSize + OffsetSize)
      (readBytes n.data (NodeHeaderSize + index * OffsetSize)
        (NodeHeaderSize + count * OffsetSize - (NodeHeaderSize + index * OffsetSize)))).getD i 0
      = if 3 + index * 2 + 2 ≤ i ∧ i < 3 + count * 2 + 2 then n.data.getD (i - 2) 0
        else n.data.getD i 0 := by
    intro i
    have hrb : (readBytes n.data (NodeHeaderSize + index * OffsetSize)
        (NodeHeaderSize + count * OffsetSize - (NodeHeaderSize + index * OffsetSize))).length =
        NodeHeaderSize + count * OffsetSize - (NodeHeaderSize + index * OffsetSize) := by
      rw [length_readBytes]
      rw [hlen]
      simp only [NodeHeaderSize_val, OffsetSize_val, PageSize_val]
      omega
    rw [getD_writeBytes _ _ _ (by
      rw [hrb, hlen]
      simp only [NodeHeaderSize_val, OffsetSize_val, PageSize_val]
      omega)]
    rw [hrb]
    simp only [NodeHeaderSize_val, OffsetSize_val]
    rcases Nat.lt_or_ge i (3 + index * 2 + 2) with h1 | h1
    · rw [if_neg (by omega), if_neg (by omega)]
    · rcases Nat.lt_or_ge i (3 + count * 2 + 2) with h2 | h2
      · rw [if_pos (by omega), if_pos (by omega)]
        rw [getD_readBytes _ _ _ (by
          rw [hlen]
          simp only [PageSize_val]
          omega)]
        rw [if_pos (by omega)]
        congr 1
        omega
      · rw [if_neg (by omega), if_neg (by omega)]
  have hbshift : ∀ b ∈ (writeBytes n.data (NodeHeaderSize + index * OffsetSize + OffsetSize)
      (readBytes n.data (NodeHeaderSize + index * OffsetSize)
        (NodeHeaderSize + count * OffsetSize - (NodeHeaderSize + index * OffsetSize)))),
      b < 256 := by
    apply mem_writeBytes_lt _ _ _ hb
    intro b hbm
    exact hb b (mem_readBytes _ _ _ b hbm)
  exact finishCore_spec n index writePos key val count
    (writeBytes n.data (NodeHeaderSize + index * OffsetSize + OffsetSize)
      (readBytes n.data (NodeHeaderSize + index * OffsetSize)
        (NodeHeaderSize + count * OffsetSize - (NodeHeaderSize + index * OffsetSize))))
    hcount hlen hb hlenshift hbshift hshift hkb hvb hidx hoffs hends hwp hfit

theorem compact_true_spec (n : Node) (reserve : Bool) (nc : Node) (pc : Nat)
    (hwf : n.WF) (heq : n.compact reserve = (nc, pc, true)) :
    nc.getKeyCount = n.getKeyCount ∧ nc.getType = n.getType ∧
    nc.entries = n.entries ∧ nc.WF ∧
    pc = NodeHeaderSize + (if reserve then n.getKeyCount + 1 else n.getKeyCount) *
      OffsetSize + sizesSum n.entries ∧
    (∀ i, i < n.getKeyCount →
      nc.getOffset i = NodeHeaderSize + (if reserve then n.getKeyCount + 1
        else n.getKeyCount) * OffsetSize + sizesSum (n.entries.take i) ∧
      entryEnd nc.data (nc.getOffset i) = NodeHeaderSize + (if reserve then n.getKeyCount + 1
        else n.getKeyCount) * OffsetSize + sizesSum (n.entries.take (i + 1))) := by
  have hfit : NodeHeaderSize + (if reserve then n.getKeyCount + 1 else n.getKeyCount) *
      OffsetSize + sizesSum n.entries ≤ PageSize := by
    by_cases hc : n.getKeyCount = 0
    · have hent : n.entries = [] := by
        unfold Node.entries
        rw [hc]
        rfl
      rw [hent, hc]
      simp only [NodeHeaderSize_val, OffsetSize_val, PageSize_val, sizesSum_nil]
      cases reserve <;> simp
    · by_contra hnot
      rw [compact_fail n reserve hc (by omega)] at heq
      have : false = true := congrArg (fun t => t.2.2) heq
      cases this
  obtain ⟨c1, c2, c3, c4, c5, c6, c7⟩ := compact_spec n reserve hwf hfit
  rw [heq] at c1 c2 c3 c4 c5 c6 c7
  exact ⟨c3, c4, c5, c6, c2, c7⟩

/-! ### Content-level specification of leaf insertion -/

theorem compact_false_eq (n : Node) (reserve : Bool) (nc : Node) (pc : Nat)
    (heq : n.compact reserve = (nc, pc, false)) : nc = n := by
  by_cases hc : n.getKeyCount = 0
  · rw [compact_count_zero n reserve hc] at heq
    have : true = false := congrArg (fun t => t.2.2) heq
    cases this
  · by_cases hfit : NodeHeaderSize + (if reserve then n.getKeyCount + 1 else n.getKeyCount) *
        OffsetSize + sizesSum n.entries ≤ PageSize
    · rw [compact_eq_packLoop n reserve hc hfit] at heq
      have : true = false := congrArg (fun t => t.2.2) heq
      cases this
    · rw [compact_fail n reserve hc (by omega)] at heq
      exact (congrArg (fun t => t.1) heq).symm

theorem insertLeafKeyValue_ok_spec (n : Node) (key value : Bytes)
    (hwf : n.WF) (hkb : ∀ b ∈ key, b < 256) (hvb : ∀ b ∈ value, b < 256) :
    ∀ n', n.insertLeafKeyValue key value = (n', none) →
      n'.getKeyCount = n.getKeyCount + 1 ∧
      n'.getType = n.getType ∧ n'.WF ∧
      n'.entries = n.entries.take (n.findKeyInNode key).1 ++
        (key, value) :: n.entries.drop (n.findKeyInNode key).1 := by
  intro n' heq
  obtain ⟨hlen, hb, hbound⟩ := hwf
  have hidx := findKeyInNode_le n key
  have main : ∀ (m : Node) (wp : Nat), m.getKeyCount = n.getKeyCount →
      m.getType = n.getType → m.entries = n.entries → m.WF →
      (∀ i, i < n.getKeyCount →
        NodeHeaderSize + (n.getKeyCount + 1) * OffsetSize ≤ m.getOffset i) →
      (∀ i, i < n.getKeyCount → entryEnd m.data (m.getOffset i) ≤ wp) →
      NodeHeaderSize + (n.getKeyCount + 1) * OffsetSize ≤ wp →
      wp + KVHeaderSize + key.length + value.length ≤ PageSize →
      m.insertFinish (n.findKeyInNode key).1 wp key value n.getKeyCount = n' →
      n'.getKeyCount = n.getKeyCount + 1 ∧
      n'.getType = n.getType ∧ n'.WF ∧
      n'.entries = n.entries.take (n.findKeyInNode key).1 ++
        (key, value) :: n.entries.drop (n.findKeyInNode key).1 := by
    intro m wp hmc hmt hme hmwf hoffs hends hwp hfit hres
    obtain ⟨f1, f2, f3, f4, _⟩ := insertFinish_spec m (n.findKeyInNode key).1 wp key value
      n.getKeyCount hmc hmwf.1 hmwf.2.1 hkb hvb hidx hoffs hends hwp hfit
    rw [hres] at f1 f2 f3 f4
    rw [hmt] at f2
    rw [hme] at f4
    exact ⟨f1, f2, f3, f4⟩
  have mainC : ∀ (nc : Node) (pc : Nat), n.compact true = (nc, pc, true) →
      pc + (KVHeaderSize + key.length + value.length) ≤ PageSize →
      nc.insertFinish (n.findKeyInNode key).1 pc key value n.getKeyCount = n' →
      n'.getKeyCount = n.getKeyCount + 1 ∧
      n'.getType = n.getType ∧ n'.WF ∧
      n'.entries = n.entries.take (n.findKeyInNode key).1 ++
        (key, value) :: n.entries.drop (n.findKeyInNode key).1 := by
    intro nc pc hcmp hfits hres
    obtain ⟨e1, e2, e3, e4, e5, e6⟩ := compact_true_spec n true nc pc ⟨hlen, hb, hbound⟩ hcmp
    rw [if_pos rfl] at e5 e6
    apply main nc pc e1 e2 e3 e4
    · intro i hi
      rw [(e6 i hi).1]
      omega
    · intro i hi
      rw [(e6 i hi).2, e5]
      have := sizesSum_take_le n.entries (i + 1)
      omega
    · rw [e5]; omega
    · simp only [KVHeaderSize_val] at hfits ⊢
      omega
    · exact hres
  unfold Node.insertLeafKeyValue at heq
  dsimp only at heq
  split at heq
  · exact absurd (congrArg Prod.snd heq) (by simp)
  · split at heq
    · -- count = 0
      next hfound hc0 =>
      split at heq
      · -- 5 < tableEnd: impossible for count = 0
        next hlt =>
        rw [hc0] at hlt
        simp only [NodeHeaderSize_val, OffsetSize_val] at hlt
        omega
      · split at heq
        · -- or-condition true with count = 0: must be the size overflow, and
          -- compaction cannot help
          next hor =>
          rcases hcmp : n.compact true with ⟨nc, pc, bc⟩
          rw [hcmp] at heq
          cases bc
          · dsimp only at heq
            exact absurd (congrArg Prod.snd heq) (by simp)
          · dsimp only at heq
            split at heq
            · exact absurd (congrArg Prod.snd heq) (by simp)
            · next hfits =>
              exact mainC nc pc hcmp (by omega) (congrArg Prod.fst heq)
        · next hor =>
          rw [not_or] at hor
          obtain ⟨hor1, hor2⟩ := hor
          apply main n (NodeHeaderSize + OffsetSize) rfl rfl rfl ⟨hlen, hb, hbound⟩
          · intro i hi
            omega
          · intro i hi
            omega
          · rw [hc0]
            simp only [NodeHeaderSize_val, OffsetSize_val]
            omega
          · simp only [gt_iff_lt, not_lt, KVHeaderSize_val] at hor2
            simp only [KVHeaderSize_val]
            omega
          · exact congrArg Prod.fst heq
    · -- count ≠ 0
      next hfound hc0 =>
      split at heq
      · -- maxEnd clamped up to the offset-table end
        next hclamp =>
        split at heq
        · next hor =>
          rcases hcmp : n.compact true with ⟨nc, pc, bc⟩
          rw [hcmp] at heq
          cases bc
          · dsimp only at heq
            exact absurd (congrArg Prod.snd heq) (by simp)
          · dsimp only at heq
            split at heq
            · exact absurd (congrArg Prod.snd heq) (by simp)
            · next hfits =>
              exact mainC nc pc hcmp (by omega) (congrArg Prod.fst heq)
        · next hor =>
          rw [not_or] at hor
          obtain ⟨hor1, hor2⟩ := hor
          simp only [gt_iff_lt, not_lt] at hor1 hor2
          apply main n (NodeHeaderSize + (n.getKeyCount + 1) * OffsetSize) rfl rfl rfl
            ⟨hlen, hb, hbound⟩
          · intro i hi
            have := (scanHeap_bounds n i hi).1
            omega
          · intro i hi
            have := (scanHeap_bounds n i hi).2
            omega
          · omega
          · simp only [KVHeaderSize_val] at hor2 ⊢
            omega
          · exact congrArg Prod.fst heq
      · next hclamp =>
        split at heq
        · next hor =>
          rcases hcmp : n.compact true with ⟨nc, pc, bc⟩
          rw [hcmp] at heq
          cases bc
          · dsimp only at heq
            exact absurd (congrArg Prod.snd heq) (by simp)
          · dsimp only at heq
            split at heq
            · exact absurd (congrArg Prod.snd heq) (by simp)
            · next hfits =>
              exact mainC nc pc hcmp (by omega) (congrArg Prod.fst heq)
        · next hor =>
          rw [not_or] at hor
          obtain ⟨hor1, hor2⟩ := hor
          simp only [gt_iff_lt, not_lt] at hor1 hor2 hclamp
          apply main n ((n.scanHeap).2) rfl rfl rfl ⟨hlen, hb, hbound⟩
          · intro i hi
            have := (scanHeap_bounds n i hi).1
            omega
          · intro i hi
            have := (scanHeap_bounds n i hi).2
            omega
          · omega
          · simp only [KVHeaderSize_val] at hor2 ⊢
            omega
          · exact congrArg Prod.fst heq

theorem insertLeaf_found_eq (n : Node) (key value : Bytes)
    (hfound : (n.findKeyInNode key).2 = true) :
    n.insertLeafKeyValue key value = (n, some Err.keyExists) := by
  unfold Node.insertLeafKeyValue
  dsimp only
  rw [if_pos hfound]

theorem insertLeaf_ok_not_found (n : Node) (key value : Bytes) (n' : Node)
    (heq : n.insertLeafKeyValue key value = (n', none)) :
    (n.findKeyInNode key).2 = false := by
  rcases Bool.eq_false_or_eq_true (n.findKeyInNode key).2 with hf | hf
  · rw [insertLeaf_found_eq n key value hf] at heq
    exact absurd (congrArg Prod.snd heq) (by simp)
  · exact hf

theorem insertLeafKeyValue_err_spec (n : Node) (key value : Bytes) (hwf : n.WF) :
    ∀ n' e, n.insertLeafKeyValue key value = (n', some e) →
      n'.entries = n.entries ∧ n'.getKeyCount = n.getKeyCount ∧
      n'.getType = n.getType ∧ n'.WF := by
  intro n' e heq
  unfold Node.insertLeafKeyValue at heq
  dsimp only at heq
  split at heq
  · have h1 : n = n' := congrArg Prod.fst heq
    rw [← h1]
    exact ⟨rfl, rfl, rfl, hwf⟩
  · have hcompactCase : ∀ (nc : Node) (pc : Nat) (bc : Bool), n.compact true = (nc, pc, bc) →
        nc = n' →
        n'.entries = n.entries ∧ n'.getKeyCount = n.getKeyCount ∧
        n'.getType = n.getType ∧ n'.WF := by
      intro nc pc bc hcmp hres
      cases bc
      · have : nc = n := compact_false_eq n true nc pc hcmp
        rw [← hres, this]
        exact ⟨rfl, rfl, rfl, hwf⟩
      · obtain ⟨e1, e2, e3, e4, _, _⟩ := compact_true_spec n true nc pc hwf hcmp
        rw [← hres]
        exact ⟨e3, e1, e2, e4⟩
    split at heq
    · next hc0 =>
      split at heq
      · next hlt =>
        rw [hc0] at hlt
        simp only [NodeHeaderSize_val, OffsetSize_val] at hlt
        omega
      · split at heq
        · rcases hcmp : n.compact true with ⟨nc, pc, bc⟩
          rw [hcmp] at heq
          cases bc
          · dsimp only at heq
            exact hcompactCase nc pc false hcmp (congrArg Prod.fst heq)
          · dsimp only at heq
            split at heq
            · exact hcompactCase nc pc true hcmp (congrArg Prod.fst heq)
            · exact absurd (congrArg Prod.snd heq) (by simp)
        · exact absurd (congrArg Prod.snd heq) (by simp)
    · split at heq
      · split at heq
        · rcases hcmp : n.compact true with ⟨nc, pc, bc⟩
          rw [hcmp] at heq
          cases bc
          · dsimp only at heq
            exact hcompactCase nc pc false hcmp (congrArg Prod.fst heq)
          · dsimp only at heq
            split at heq
            · exact hcompactCase nc pc true hcmp (congrArg Prod.fst heq)
            · exact absurd (congrArg Prod.snd heq) (by simp)
        · exact absurd (congrArg Prod.snd heq) (by simp)
      · split at heq
        · rcases hcmp : n.compact true with ⟨nc, pc, bc⟩
          rw [hcmp] at heq
          cases bc
          · dsimp only at heq
            exact hcompactCase nc pc false hcmp (congrArg Prod.fst heq)
          · dsimp only at heq
            split at heq
            · exact hcompactCase nc pc true hcmp (congrArg Prod.fst heq)
            · exact absurd (congrArg Prod.snd heq) (by simp)
        · exact absurd (congrArg Prod.snd heq) (by simp)

/-- Inserting an element at position `idx` into a strictly sorted list keeps it
strictly sorted, provided everything before `idx` is below the new element and
everything from `idx` on is above it. -/
theorem pairwise_insert_sorted (l : List Bytes) (key : Bytes) (idx : Nat)
    (hidx : idx ≤ l.length)
    (hs : List.Pairwise bytesLt l)
    (hbelow : ∀ j, j < idx → ∀ (hj : j < l.length), bytesLt (l.get ⟨j, hj⟩) key)
    (habove : ∀ j, idx ≤ j → ∀ (hj : j < l.length), bytesLt key (l.get ⟨j, hj⟩)) :
    List.Pairwise bytesLt (l.take idx ++ key :: l.drop idx) := by
  have hpl := List.pairwise_iff_getElem.1 hs
  have htlen : (l.take idx).length = idx := by rw [List.length_take]; omega
  have hdlen : (l.drop idx).length = l.length - idx := List.length_drop idx l
  rw [List.pairwise_append]
  refine ⟨?_, ?_, ?_⟩
  · rw [List.pairwise_iff_getElem]
    intro i j hi hj hij
    rw [List.getElem_take, List.getElem_take]
    exact hpl i j (by omega) (by omega) hij
  · rw [List.pairwise_cons]
    constructor
    · intro b hb
      obtain ⟨j, hj, hjb⟩ := List.getElem_of_mem hb
      rw [List.getElem_drop] at hjb
      rw [← hjb]
      exact habove (idx + j) (by omega) (by omega)
    · rw [List.pairwise_iff_getElem]
      intro i j hi hj hij
      rw [List.getElem_drop, List.getElem_drop]
      exact hpl (idx + i) (idx + j) (by omega) (by omega) (by omega)
  · intro a ha b hb
    obtain ⟨i, hi, hia⟩ := List.getElem_of_mem ha
    rw [List.getElem_take] at hia
    rcases List.mem_cons.1 hb with hbk | hbd
    · rw [hbk, ← hia]
      exact hbelow i (by omega) (by omega)
    · obtain ⟨j, hj, hjb⟩ := List.getElem_of_mem hbd
      rw [List.getElem_drop] at hjb
      rw [← hia, ← hjb]
      exact hpl i (idx + j) (by omega) (by omega) (by omega)

theorem bytesLt_of_ge_ne {a b : Bytes} (hge : bytesGe a b = true) (hne : a ≠ b) :
    bytesLt b a := by
  rcases bytesCompare_trichotomy a b with h | h | h
  · unfold bytesGe at hge
    rw [h] at hge
    cases hge
  · exact absurd ((bytesCompare_eq_iff a b).1 h) hne
  · exact (bytesCompare_gt_iff_lt a b).1 h

/-- On a successful leaf insert into a sorted node, every key strictly after the
insertion index is strictly greater than the inserted key. -/
theorem insertLeaf_ok_above (n : Node) (key value : Bytes) (n' : Node)
    (hs : n.sortedKeys) (heq : n.insertLeafKeyValue key value = (n', none)) :
    ∀ j, (n.findKeyInNode key).1 ≤ j → j < n.getKeyCount →
      bytesLt key (n.getLeafKeyValue j).1 := by
  intro j hij hj
  have hic : (n.findKeyInNode key).1 < n.getKeyCount := by omega
  have hge := findKeyInNode_ge_at n key hic
  have hnf := insertLeaf_ok_not_found n key value n' heq
  have hne : (n.getLeafKeyValue (n.findKeyInNode key).1).1 ≠ key := by
    intro hk
    have := (findKeyInNode_found_eq n key).2 ⟨hic, hk⟩
    rw [hnf] at this
    cases this
  have hbase : bytesLt key (n.getLeafKeyValue (n.findKeyInNode key).1).1 :=
    bytesLt_of_ge_ne hge hne
  rcases Nat.eq_or_lt_of_le hij with he | hlt
  · rw [← he]
    exact hbase
  · exact bytesLt_trans hbase (sortedKeys_lt n hs hlt hj)

/-- A successful leaf insert into a sorted node leaves the node sorted, with the
new key in its proper position. -/
theorem insertLeafKeyValue_sorted (n : Node) (key value : Bytes)
    (hwf : n.WF) (hkb : ∀ b ∈ key, b < 256) (hvb : ∀ b ∈ value, b < 256)
    (hs : n.sortedKeys) (n' : Node)
    (heq : n.insertLeafKeyValue key value = (n', none)) : n'.sortedKeys := by
  obtain ⟨_, _, _, hents⟩ := insertLeafKeyValue_ok_spec n key value hwf hkb hvb n' heq
  have hkeys : n'.keys = n.keys.take (n.findKeyInNode key).1 ++
      key :: n.keys.drop (n.findKeyInNode key).1 := by
    unfold Node.keys
    rw [hents, List.map_append, List.map_take, List.map_cons, List.map_drop]
  rw [Node.sortedKeys, hkeys]
  have hlk : n.keys.length = n.getKeyCount := length_keys n
  apply pairwise_insert_sorted n.keys key (n.findKeyInNode key).1
  · rw [hlk]
    exact findKeyInNode_le n key
  · exact hs
  · intro j hj hjl
    rw [List.get_eq_getElem, keys_getElem n j hjl]
    exact findKeyInNode_lt_below n key hs j hj
  · intro j hj hjl
    rw [List.get_eq_getElem, keys_getElem n j hjl]
    exact insertLeaf_ok_above n key value n' hs heq j hj (by omega)

/-- `insertBranchKey` is leaf insertion with the 8-byte little-endian child
page id as the value payload. -/
theorem insertBranchKey_eq (n : Node) (key : Bytes) (childPageID : Nat) :
    n.insertBranchKey key childPageID =
      n.insertLeafKeyValue key (u64Bytes childPageID) := rfl

theorem u64Bytes_length (v : Nat) : (u64Bytes v).length = 8 := rfl

theorem u64Bytes_bytes_lt (v : Nat) : ∀ b ∈ u64Bytes v, b < 256 := by
  intro b hb
  simp only [u64Bytes, List.mem_cons, List.not_mem_nil, or_false] at hb
  rcases hb with h | h | h | h | h | h | h | h <;>
    (subst h; exact Nat.mod_lt _ (by omega))

/-- A successful branch insert into a sorted node leaves the node sorted. -/
theorem insertBranchKey_sorted (n : Node) (key : Bytes) (childPageID : Nat)
    (hwf : n.WF) (hkb : ∀ b ∈ key, b < 256) (hs : n.sortedKeys) (n' : Node)
    (heq : n.insertBranchKey key childPageID = (n', none)) : n'.sortedKeys := by
  rw [insertBranchKey_eq] at heq
  exact insertLeafKeyValue_sorted n key (u64Bytes childPageID) hwf hkb
    (u64Bytes_bytes_lt childPageID) hs n' heq

/-! ### Specification of node splitting -/

theorem sizesSum_append (es fs : List (Bytes × Bytes)) :
    sizesSum (es ++ fs) = sizesSum es + sizesSum fs := by
  induction es with
  | nil => simp [sizesSum]
  | cons e rest ih =>
    rw [List.cons_append, sizesSum_cons, sizesSum_cons, ih]
    omega

theorem sizesSum_take_drop (es : List (Bytes × Bytes)) (m : Nat) :
    sizesSum (es.take m) + sizesSum (es.drop m) = sizesSum es := by
  rw [← sizesSum_append, List.take_append_drop]

theorem splitInitDest_spec (dest : Bytes) (ty : Nat) (hd : dest.length ≤ PageSize)
    (hb : ∀ b ∈ dest, b < 256) :
    (splitInitDest dest ty).length = PageSize ∧
    (∀ b ∈ splitInitDest dest ty, b < 256) ∧
    (splitInitDest dest ty).getD 0 0 = ty % 256 ∧
    readU16 (splitInitDest dest ty) 1 = 0 := by
  unfold splitInitDest
  dsimp only
  set d := if dest.length < PageSize then List.replicate PageSize 0 else dest with hdd
  have hdl : d.length = PageSize := by
    rw [hdd]
    split
    · exact List.length_replicate _ _
    · omega
  have hdb : ∀ b ∈ d, b < 256 := by
    rw [hdd]
    split
    · intro b hb2
      have := List.eq_of_mem_replicate hb2
      omega
    · exact hb
  have hone : ∀ b ∈ [ty % 256], b < 256 := by
    intro b hb2
    simp only [List.mem_singleton] at hb2
    omega
  have h1len : (writeBytes d 0 [ty % 256]).length = PageSize := by
    rw [length_writeBytes]
    · exact hdl
    · simp only [List.length_singleton, PageSize_val] at hdl ⊢
      omega
  refine ⟨?_, ?_, ?_, ?_⟩
  · rw [length_writeU16]
    · exact h1len
    · simp only [h1len, PageSize_val]
      omega
  · exact mem_writeU16_lt _ 1 0 (mem_writeBytes_lt d 0 [ty % 256] hdb hone)
  · rw [getD_writeU16 _ 1 0 (by simp only [h1len, PageSize_val]; omega) 0,
      if_neg (by omega)]
    rw [getD_writeBytes d 0 [ty % 256]
      (by simp only [List.length_singleton, PageSize_val] at hdl ⊢; omega) 0]
    rw [if_pos (by simp only [List.length_singleton]; omega)]
    rfl
  · rw [readU16_writeU16_self _ 1 0 (by simp only [h1len, PageSize_val]; omega)]

theorem splitFold_eq_packLoop (n : Node) (middle : Nat) :
    ∀ (cnt k : Nat) (d : Bytes) (p : Nat),
    ((List.range' k cnt).foldl
      (fun (st : Node × Nat) i =>
        let kv := n.getLeafKeyValue (middle + i)
        (st.1.writeLeafKeyValue i st.2 kv.1 kv.2,
         st.2 + KVHeaderSize + kv.1.length + kv.2.length))
      (Node.mk d, p)).1 =
      Node.mk (packLoop d ((List.range' k cnt).map
        (fun i => n.getLeafKeyValue (middle + i))) k p).1 := by
  intro cnt
  induction cnt with
  | zero => intro k d p; rfl
  | succ c ih =>
    intro k d p
    rw [List.range'_succ, List.map_cons, List.foldl_cons, packLoop]
    exact ih (k + 1) _ _

theorem splitCopyLoop_eq (n : Node) (middle newCount : Nat) (dest : Bytes) :
    splitCopyLoop n middle newCount dest =
      Node.mk (packLoop dest ((List.range newCount).map
        (fun i => n.getLeafKeyValue (middle + i))) 0
        (NodeHeaderSize + newCount * OffsetSize)).1 := by
  unfold splitCopyLoop
  rw [List.range_eq_range']
  exact splitFold_eq_packLoop n middle newCount 0 dest _

theorem map_range_eq_drop (n : Node) (middle : Nat) (hm : middle ≤ n.getKeyCount) :
    (List.range (n.getKeyCount - middle)).map (fun i => n.getLeafKeyValue (middle + i)) =
      n.entries.drop middle := by
  apply List.ext_getElem
  · simp only [List.length_map, List.length_range, List.length_drop, length_entries]
  · intro i h1 h2
    simp only [List.length_map, List.length_range] at h1
    rw [List.getElem_map, List.getElem_range]
    rw [List.getElem_drop]
    exact (entries_getElem n (middle + i) (by rw [length_entries]; omega)).symm

theorem entries_take_eq (n : Node) (m : Nat) (hm : m ≤ n.getKeyCount) :
    n.entries.take m = (List.range m).map n.getLeafKeyValue := by
  unfold Node.entries
  rw [← List.map_take, List.take_range, Nat.min_eq_left hm]

/-- Specification of the new (upper) node produced by a split: the copy loop
packs entries `[middle, count)` of `n` contiguously right after the slot
table of the destination node, and the final count write makes them its
logical contents. -/
theorem splitNew_spec (n : Node) (dest : Bytes) (ty middle : Nat)
    (hwf : n.WF) (hm : middle ≤ n.getKeyCount)
    (hdl : dest.length ≤ PageSize) (hdb : ∀ b ∈ dest, b < 256)
    (hfit : NodeHeaderSize + (n.getKeyCount - middle) * OffsetSize +
      sizesSum (n.entries.drop middle) ≤ PageSize) (nn : Node)
    (hnn : nn = Node.mk (writeU16 (splitCopyLoop n middle (n.getKeyCount - middle)
      (splitInitDest dest ty)).data 1 (n.getKeyCount - middle))) :
    nn.getKeyCount = n.getKeyCount - middle ∧ nn.getType = ty % 256 ∧
    nn.entries = n.entries.drop middle ∧ nn.WF ∧
    (∀ j, j < n.getKeyCount - middle →
      nn.getOffset j = NodeHeaderSize + (n.getKeyCount - middle) * OffsetSize +
        sizesSum ((n.entries.drop middle).take j) ∧
      entryEnd nn.data (nn.getOffset j) =
        NodeHeaderSize + (n.getKeyCount - middle) * OffsetSize +
          sizesSum ((n.entries.drop middle).take (j + 1))) := by
  obtain ⟨hlen, hb, hbound⟩ := hwf
  obtain ⟨i1, i2, i3, i4⟩ := splitInitDest_spec dest ty hdl hdb
  have hcnt : n.getKeyCount < 65536 := readU16_lt n.data 1 hb
  have hlenes : (n.entries.drop middle).length = n.getKeyCount - middle := by
    rw [List.length_drop, length_entries]
  obtain ⟨hp1, hp2, hp3, hp4⟩ := packLoop_spec (n.entries.drop middle) (splitInitDest dest ty)
    0 (NodeHeaderSize + (n.getKeyCount - middle) * OffsetSize) i1
    (by simp only [hlenes, NodeHeaderSize_val, OffsetSize_val]; omega)
    hfit
  obtain ⟨P, hP⟩ : ∃ P, (packLoop (splitInitDest dest ty) (n.entries.drop middle) 0
      (NodeHeaderSize + (n.getKeyCount - middle) * OffsetSize)).1 = P := ⟨_, rfl⟩
  rw [hP] at hp2 hp3 hp4
  have hPb : ∀ b ∈ P, b < 256 := by
    rw [← hP]
    exact packLoop_bytes_lt _ _ _ _ i2
      (fun e he => entries_mem_bytes_lt n hb e (List.mem_of_mem_drop he))
  have hscl : (splitCopyLoop n middle (n.getKeyCount - middle) (splitInitDest dest ty)).data
      = P := by
    rw [splitCopyLoop_eq, map_range_eq_drop n middle hm]
    exact hP
  have hdata : nn.data = writeU16 P 1 (n.getKeyCount - middle) := by
    rw [hnn, hscl]
  have h2le : 1 + 2 ≤ P.length := by
    rw [hp2]
    simp only [PageSize_val]
    omega
  have hndlen : nn.data.length = PageSize := by
    rw [hdata, length_writeU16 P 1 _ h2le, hp2]
  have hcount : nn.getKeyCount = n.getKeyCount - middle := by
    show readU16 nn.data 1 = _
    rw [hdata, readU16_writeU16_self P 1 _ h2le]
    omega
  have htype : nn.getType = ty % 256 := by
    show nn.data.getD 0 0 = ty % 256
    rw [hdata, getD_writeU16 P 1 _ h2le 0, if_neg (by omega)]
    rw [hp3 0 (Or.inl (by simp only [NodeHeaderSize_val, OffsetSize_val]; omega))]
    exact i3
  have hoffj : ∀ j, j < n.getKeyCount - middle →
      nn.getOffset j = NodeHeaderSize + (n.getKeyCount - middle) * OffsetSize +
        sizesSum ((n.entries.drop middle).take j) := by
    intro j hj
    show readU16 nn.data (NodeHeaderSize + OffsetSize * j) = _
    rw [hdata]
    rw [readU16_congr P (writeU16 P 1 (n.getKeyCount - middle))
      (NodeHeaderSize + OffsetSize * j) (by
        intro i hi1 hi2
        rw [getD_writeU16 P 1 _ h2le i, if_neg (by
          simp only [NodeHeaderSize_val, OffsetSize_val] at hi1
          omega)])]
    have hconv : NodeHeaderSize + OffsetSize * j = NodeHeaderSize + (0 + j) * OffsetSize := by
      rw [Nat.zero_add, Nat.mul_comm]
    rw [hconv]
    exact (hp4 j (by omega)).1
  have hendP : ∀ j, j < n.getKeyCount - middle →
      entryEnd P (NodeHeaderSize + (n.getKeyCount - middle) * OffsetSize +
        sizesSum ((n.entries.drop middle).take j)) ≤ P.length := by
    intro j hj
    rw [(hp4 j (by omega)).2.2, hp2]
    have := sizesSum_take_le (n.entries.drop middle) (j + 1)
    omega
  have hagree : ∀ j, j < n.getKeyCount - middle → ∀ i,
      NodeHeaderSize + (n.getKeyCount - middle) * OffsetSize +
        sizesSum ((n.entries.drop middle).take j) ≤ i →
      i < entryEnd P (NodeHeaderSize + (n.getKeyCount - middle) * OffsetSize +
        sizesSum ((n.entries.drop middle).take j)) →
      (writeU16 P 1 (n.getKeyCount - middle)).getD i 0 = P.getD i 0 := by
    intro j hj i hi1 hi2
    rw [getD_writeU16 P 1 _ h2le i, if_neg (by
      simp only [NodeHeaderSize_val, OffsetSize_val] at hi1
      omega)]
  have hcgr : ∀ j, j < n.getKeyCount - middle →
      entryAt nn.data (NodeHeaderSize + (n.getKeyCount - middle) * OffsetSize +
        sizesSum ((n.entries.drop middle).take j)) =
        (n.entries.drop middle).getD j ([], []) ∧
      entryEnd nn.data (NodeHeaderSize + (n.getKeyCount - middle) * OffsetSize +
        sizesSum ((n.entries.drop middle).take j)) =
        NodeHeaderSize + (n.getKeyCount - middle) * OffsetSize +
          sizesSum ((n.entries.drop middle).take (j + 1)) := by
    intro j hj
    have hc := entryAt_congr P nn.data
      (NodeHeaderSize + (n.getKeyCount - middle) * OffsetSize +
        sizesSum ((n.entries.drop middle).take j))
      (hendP j hj)
      (by rw [hndlen, ← hp2]; exact hendP j hj)
      (by
        intro i hi1 hi2
        rw [hdata]
        exact hagree j hj i hi1 hi2)
    refine ⟨?_, ?_⟩
    · rw [hc.1, (hp4 j (by omega)).2.1]
    · rw [hc.2, (hp4 j (by omega)).2.2]
  refine ⟨hcount, htype, ?_, ?_, ?_⟩
  · apply List.ext_getElem
    · rw [length_entries, hcount, hlenes]
    · intro i h1 h2
      have hic : i < n.getKeyCount - middle := by
        rw [length_entries, hcount] at h1
        exact h1
      rw [entries_getElem nn i h1]
      show entryAt nn.data (nn.getOffset i) = _
      rw [hoffj i hic]
      rw [(hcgr i hic).1]
      rw [List.getD_eq_getElem?_getD, List.getElem?_eq_getElem h2]
      rfl
  · refine ⟨hndlen, ?_, ?_⟩
    · rw [hdata]
      exact mem_writeU16_lt P 1 _ hPb
    · intro i hi
      rw [hcount] at hi
      rw [hoffj i hi, (hcgr i hi).2]
      have := sizesSum_take_le (n.entries.drop middle) (i + 1)
      simp only [PageSize_val, NodeHeaderSize_val, OffsetSize_val] at hfit ⊢
      omega
  · intro j hj
    refine ⟨hoffj j hj, ?_⟩
    rw [hoffj j hj, (hcgr j hj).2]

/-- Specification of the count-truncation step on the original node of a split:
only the stored count changes, so the logical contents become the first
`middle` entries. -/
theorem splitOld_trunc_spec (n : Node) (middle : Nat)
    (hwf : n.WF) (hm : middle ≤ n.getKeyCount)
    (hoff : ∀ i, i < n.getKeyCount → NodeHeaderSize ≤ n.getOffset i) :
    ∀ m, m = Node.mk (writeU16 n.data 1 middle) →
      m.getKeyCount = middle ∧ m.getType = n.getType ∧
      m.entries = n.entries.take middle ∧ m.WF ∧
      (∀ i, i < middle → m.getOffset i = n.getOffset i) := by
  obtain ⟨hlen, hb, hbound⟩ := hwf
  have hcnt : n.getKeyCount < 65536 := readU16_lt n.data 1 hb
  have h2le : 1 + 2 ≤ n.data.length := by
    rw [hlen]
    simp only [PageSize_val]
    omega
  intro m hmdef
  have hdata : m.data = writeU16 n.data 1 middle := by
    rw [hmdef]
  have hmlen : m.data.length = PageSize := by
    rw [hdata, length_writeU16 n.data 1 _ h2le, hlen]
  have hcount : m.getKeyCount = middle := by
    show readU16 m.data 1 = middle
    rw [hdata, readU16_writeU16_self n.data 1 _ h2le]
    omega
  have htype : m.getType = n.getType := by
    show m.data.getD 0 0 = n.data.getD 0 0
    rw [hdata, getD_writeU16 n.data 1 _ h2le 0, if_neg (by omega)]
  have hoffeq : ∀ i, m.getOffset i = n.getOffset i := by
    intro i
    show readU16 m.data (NodeHeaderSize + OffsetSize * i) = _
    rw [hdata]
    exact readU16_congr n.data _ (NodeHeaderSize + OffsetSize * i) (by
      intro k hk1 hk2
      rw [getD_writeU16 n.data 1 _ h2le k, if_neg (by
        simp only [NodeHeaderSize_val, OffsetSize_val] at hk1
        omega)])
  have hkv : ∀ i, i < middle → m.getLeafKeyValue i = n.getLeafKeyValue i ∧
      entryEnd m.data (m.getOffset i) = entryEnd n.data (n.getOffset i) := by
    intro i hi
    have hic : i < n.getKeyCount := by omega
    have hc := entryAt_congr n.data m.data (n.getOffset i)
      (by rw [hlen]; exact hbound i hic)
      (by rw [hmlen]; exact hbound i hic)
      (by
        intro k hk1 hk2
        rw [hdata, getD_writeU16 n.data 1 _ h2le k, if_neg (by
          have := hoff i hic
          simp only [NodeHeaderSize_val] at this
          omega)])
    constructor
    · show entryAt m.data (m.getOffset i) = entryAt n.data (n.getOffset i)
      rw [hoffeq i]
      exact hc.1
    · rw [hoffeq i]
      exact hc.2
  refine ⟨hcount, htype, ?_, ?_, fun i _ => hoffeq i⟩
  · rw [entries_take_eq n middle hm]
    unfold Node.entries
    rw [hcount]
    apply List.map_congr_left
    intro i hi
    rw [List.mem_range] at hi
    exact (hkv i hi).1
  · refine ⟨hmlen, ?_, ?_⟩
    · rw [hdata]
      exact mem_writeU16_lt n.data 1 _ hb
    · intro i hi
      rw [hcount] at hi
      rw [(hkv i hi).2]
      exact hbound i (by omega)

/-- Full specification of `splitLeaf`: the promote key is the key at slot
`count / 2`, the new node receives entries `[count/2, count)` packed
contiguously, and the original keeps the first `count / 2` entries. -/
theorem splitLeaf_spec (n newNode : Node) (hwf : n.WF)
    (hoff : ∀ i, i < n.getKeyCount → NodeHeaderSize ≤ n.getOffset i)
    (hdl : newNode.data.length ≤ PageSize) (hdb : ∀ b ∈ newNode.data, b < 256)
    (hfit : NodeHeaderSize + n.getKeyCount * OffsetSize + sizesSum n.entries ≤ PageSize) :
    ∀ old nw pk, n.splitLeaf newNode = (old, nw, pk) →
      pk = (n.getLeafKeyValue (n.getKeyCount / 2)).1 ∧
      nw.getKeyCount = n.getKeyCount - n.getKeyCount / 2 ∧
      nw.getType = NodeLeaf ∧
      nw.entries = n.entries.drop (n.getKeyCount / 2) ∧ nw.WF ∧
      (∀ j, j < n.getKeyCount - n.getKeyCount / 2 →
        nw.getOffset j = NodeHeaderSize +
          (n.getKeyCount - n.getKeyCount / 2) * OffsetSize +
          sizesSum ((n.entries.drop (n.getKeyCount / 2)).take j)) ∧
      old.getKeyCount = n.getKeyCount / 2 ∧ old.getType = n.getType ∧
      old.entries = n.entries.take (n.getKeyCount / 2) ∧ old.WF := by
  intro old nw pk heq
  unfold Node.splitLeaf at heq
  dsimp only at heq
  have hpk := congrArg (fun t => t.2.2) heq
  have hnw := congrArg (fun t => t.2.1) heq
  have hold := congrArg (fun t => t.1) heq
  dsimp only at hpk hnw hold
  have hm : n.getKeyCount / 2 ≤ n.getKeyCount := Nat.div_le_self _ _
  have hfitN : NodeHeaderSize + (n.getKeyCount - n.getKeyCount / 2) * OffsetSize +
      sizesSum (n.entries.drop (n.getKeyCount / 2)) ≤ PageSize := by
    have h1 := sizesSum_take_drop n.entries (n.getKeyCount / 2)
    simp only [NodeHeaderSize_val, OffsetSize_val, PageSize_val] at hfit ⊢
    omega
  obtain ⟨n1, n2, n3, n4, n5⟩ := splitNew_spec n newNode.data NodeLeaf
    (n.getKeyCount / 2) hwf hm hdl hdb hfitN nw hnw.symm
  obtain ⟨M, hM⟩ : ∃ M, Node.mk (writeU16 n.data 1 (n.getKeyCount / 2)) = M := ⟨_, rfl⟩
  rw [hM] at hold
  obtain ⟨m1, m2, m3, m4, m5⟩ := splitOld_trunc_spec n (n.getKeyCount / 2) hwf hm hoff
    M hM.symm
  have holdfacts : old.getKeyCount = n.getKeyCount / 2 ∧ old.getType = n.getType ∧
      old.entries = n.entries.take (n.getKeyCount / 2) ∧ old.WF := by
    by_cases hmid0 : n.getKeyCount / 2 = 0
    · have hMeq : old = M := by
        rw [← hold, compact_count_zero M false (by rw [m1]; exact hmid0)]
      rw [hMeq]
      exact ⟨m1, m2, m3, m4⟩
    · have hfitO : NodeHeaderSize + M.getKeyCount * OffsetSize +
          sizesSum M.entries ≤ PageSize := by
        rw [m1, m3]
        have h1 := sizesSum_take_drop n.entries (n.getKeyCount / 2)
        simp only [NodeHeaderSize_val, OffsetSize_val, PageSize_val] at hfit ⊢
        omega
      have hctrue := compact_eq_packLoop M false (by rw [m1]; exact hmid0) hfitO
      obtain ⟨c1, c2, c3, c4, _, _⟩ := compact_true_spec M false _ _ m4 hctrue
      rw [hctrue] at hold
      dsimp only at hold
      rw [hold] at c1 c2 c3 c4
      exact ⟨by rw [c1, m1], by rw [c2, m2], by rw [c3, m3], c4⟩
  refine ⟨hpk.symm, n1, ?_, n3, n4, fun j hj => (n5 j hj).1, holdfacts⟩
  rw [n2]
  rfl

/-- Full specification of `splitBranch`; identical to `splitLeaf_spec` except
for the type tag of the new node. -/
theorem splitBranch_spec (n newNode : Node) (hwf : n.WF)
    (hoff : ∀ i, i < n.getKeyCount → NodeHeaderSize ≤ n.getOffset i)
    (hdl : newNode.data.length ≤ PageSize) (hdb : ∀ b ∈ newNode.data, b < 256)
    (hfit : NodeHeaderSize + n.getKeyCount * OffsetSize + sizesSum n.entries ≤ PageSize) :
    ∀ old nw pk, n.splitBranch newNode = (old, nw, pk) →
      pk = (n.getLeafKeyValue (n.getKeyCount / 2)).1 ∧
      nw.getKeyCount = n.getKeyCount - n.getKeyCount / 2 ∧
      nw.getType = NodeBranch ∧
      nw.entries = n.entries.drop (n.getKeyCount / 2) ∧ nw.WF ∧
      (∀ j, j < n.getKeyCount - n.getKeyCount / 2 →
        nw.getOffset j = NodeHeaderSize +
          (n.getKeyCount - n.getKeyCount / 2) * OffsetSize +
          sizesSum ((n.entries.drop (n.getKeyCount / 2)).take j)) ∧
      old.getKeyCount = n.getKeyCount / 2 ∧ old.getType = n.getType ∧
      old.entries = n.entries.take (n.getKeyCount / 2) ∧ old.WF := by
  intro old nw pk heq
  unfold Node.splitBranch at heq
  dsimp only at heq
  have hpk := congrArg (fun t => t.2.2) heq
  have hnw := congrArg (fun t => t.2.1) heq
  have hold := congrArg (fun t => t.1) heq
  dsimp only at hpk hnw hold
  have hm : n.getKeyCount / 2 ≤ n.getKeyCount := Nat.div_le_self _ _
  have hfitN : NodeHeaderSize + (n.getKeyCount - n.getKeyCount / 2) * OffsetSize +
      sizesSum (n.entries.drop (n.getKeyCount / 2)) ≤ PageSize := by
    have h1 := sizesSum_take_drop n.entries (n.getKeyCount / 2)
    simp only [NodeHeaderSize_val, OffsetSize_val, PageSize_val] at hfit ⊢
    omega
  obtain ⟨n1, n2, n3, n4, n5⟩ := splitNew_spec n newNode.data NodeBranch
    (n.getKeyCount / 2) hwf hm hdl hdb hfitN nw hnw.symm
  obtain ⟨M, hM⟩ : ∃ M, Node.mk (writeU16 n.data 1 (n.getKeyCount / 2)) = M := ⟨_, rfl⟩
  rw [hM] at hold
  obtain ⟨m1, m2, m3, m4, m5⟩ := splitOld_trunc_spec n (n.getKeyCount / 2) hwf hm hoff
    M hM.symm
  have holdfacts : old.getKeyCount = n.getKeyCount / 2 ∧ old.getType = n.getType ∧
      old.entries = n.entries.take (n.getKeyCount / 2) ∧ old.WF := by
    by_cases hmid0 : n.getKeyCount / 2 = 0
    · have hMeq : old = M := by
        rw [← hold, compact_count_zero M false (by rw [m1]; exact hmid0)]
      rw [hMeq]
      exact ⟨m1, m2, m3, m4⟩
    · have hfitO : NodeHeaderSize + M.getKeyCount * OffsetSize +
          sizesSum M.entries ≤ PageSize := by
        rw [m1, m3]
        have h1 := sizesSum_take_drop n.entries (n.getKeyCount / 2)
        simp only [NodeHeaderSize_val, OffsetSize_val, PageSize_val] at hfit ⊢
        omega
      have hctrue := compact_eq_packLoop M false (by rw [m1]; exact hmid0) hfitO
      obtain ⟨c1, c2, c3, c4, _, _⟩ := compact_true_spec M false _ _ m4 hctrue
      rw [hctrue] at hold
      dsimp only at hold
      rw [hold] at c1 c2 c3 c4
      exact ⟨by rw [c1, m1], by rw [c2, m2], by rw [c3, m3], c4⟩
  refine ⟨hpk.symm, n1, ?_, n3, n4, fun j hj => (n5 j hj).1, holdfacts⟩
  rw [n2]
  rfl

/-- Leaf insertion succeeds whenever the key is absent and the slot table plus
all entries plus the new record fit in a page: every branch of the size check
then leads to `insertFinish`. -/
theorem insertLeaf_ok_of_fit (n : Node) (key value : Bytes) (hwf : n.WF)
    (hnf : (n.findKeyInNode key).2 = false)
    (hfit : NodeHeaderSize + (n.getKeyCount + 1) * OffsetSize + sizesSum n.entries
      + (KVHeaderSize + key.length + value.length) ≤ PageSize) :
    ∃ n', n.insertLeafKeyValue key value = (n', none) := by
  unfold Node.insertLeafKeyValue
  dsimp only
  rw [hnf]
  rw [if_neg (by simp)]
  by_cases hc0 : n.getKeyCount = 0
  · have hent : n.entries = [] := by
      unfold Node.entries
      rw [hc0]
      rfl
    rw [hc0, hent] at hfit
    rw [hc0]
    rw [if_pos rfl, if_pos rfl]
    have hmx : ¬ (NodeHeaderSize + OffsetSize <
        NodeHeaderSize + (0 + 1) * OffsetSize) := by decide
    rw [if_neg hmx]
    have hor : ¬ (NodeHeaderSize + (0 + 1) * OffsetSize > NodeHeaderSize + OffsetSize ∨
        NodeHeaderSize + OffsetSize + (KVHeaderSize + key.length + value.length) >
          PageSize) := by
      simp only [NodeHeaderSize_val, OffsetSize_val, KVHeaderSize_val, PageSize_val,
        sizesSum_nil, gt_iff_lt, not_or, not_lt] at hfit ⊢
      omega
    rw [if_neg hor]
    exact ⟨_, rfl⟩
  · have hcfit : NodeHeaderSize + (n.getKeyCount + 1) * OffsetSize +
        sizesSum n.entries ≤ PageSize := by
      simp only [NodeHeaderSize_val, OffsetSize_val, KVHeaderSize_val, PageSize_val] at hfit ⊢
      omega
    have hcpl := compact_eq_packLoop n true hc0 hcfit
    rw [if_neg hc0, if_neg hc0]
    rcases hcmp : n.compact true with ⟨nc, pc, bc⟩
    have hbc : bc = true := by
      rw [hcmp] at hcpl
      have h := congrArg (fun t => t.2.2) hcpl
      dsimp only at h
      exact h
    subst hbc
    obtain ⟨e1, e2, e3, e4, e5, e6⟩ := compact_true_spec n true nc pc hwf hcmp
    rw [if_pos rfl] at e5
    split
    · split
      · split
        · next m1 hmatch =>
          have hcontra := congrArg (fun t => t.2.2) hmatch
          dsimp only at hcontra
          cases hcontra
        · next m1 m2 hmatch =>
          have hm2 : pc = m2 := by
            have h := congrArg (fun t => t.2.1) hmatch
            dsimp only at h
            exact h
          have hne : ¬ (m2 + (KVHeaderSize + key.length + value.length) > PageSize) := by
            rw [← hm2, e5]
            simp only [NodeHeaderSize_val, OffsetSize_val, KVHeaderSize_val, PageSize_val,
              gt_iff_lt, not_lt] at hfit ⊢
            omega
          rw [if_neg hne]
          exact ⟨_, rfl⟩
      · exact ⟨_, rfl⟩
    · split
      · split
        · next m1 hmatch =>
          have hcontra := congrArg (fun t => t.2.2) hmatch
          dsimp only at hcontra
          cases hcontra
        · next m1 m2 hmatch =>
          have hm2 : pc = m2 := by
            have h := congrArg (fun t => t.2.1) hmatch
            dsimp only at h
            exact h
          have hne : ¬ (m2 + (KVHeaderSize + key.length + value.length) > PageSize) := by
            rw [← hm2, e5]
            simp only [NodeHeaderSize_val, OffsetSize_val, KVHeaderSize_val, PageSize_val,
              gt_iff_lt, not_lt] at hfit ⊢
            omega
          rw [if_neg hne]
          exact ⟨_, rfl⟩
      · exact ⟨_, rfl⟩

theorem pairwise_take_of_pairwise {α : Type} (R : α → α → Prop) (l : List α) (k : Nat)
    (hs : List.Pairwise R l) : List.Pairwise R (l.take k) := by
  rw [List.pairwise_iff_getElem] at hs ⊢
  intro i j hi hj hij
  rw [List.getElem_take, List.getElem_take]
  rw [List.length_take] at hi hj
  exact hs i j (by omega) (by omega) hij

theorem pairwise_drop_of_pairwise {α : Type} (R : α → α → Prop) (l : List α) (k : Nat)
    (hs : List.Pairwise R l) : List.Pairwise R (l.drop k) := by
  rw [List.pairwise_iff_getElem] at hs ⊢
  intro i j hi hj hij
  rw [List.getElem_drop, List.getElem_drop]
  rw [List.length_drop] at hi hj
  exact hs (k + i) (k + j) (by omega) (by omega) (by omega)

theorem sortedKeys_of_entries_take (n m : Node) (k : Nat)
    (hme : m.entries = n.entries.take k) (hs : n.sortedKeys) : m.sortedKeys := by
  unfold Node.sortedKeys Node.keys at hs ⊢
  rw [hme, List.map_take]
  exact pairwise_take_of_pairwise _ _ _ hs

theorem sortedKeys_of_entries_drop (n m : Node) (k : Nat)
    (hme : m.entries = n.entries.drop k) (hs : n.sortedKeys) : m.sortedKeys := by
  unfold Node.sortedKeys Node.keys at hs ⊢
  rw [hme, List.map_drop]
  exact pairwise_drop_of_pairwise _ _ _ hs

theorem sortedKeys_of_entries_eq (n m : Node)
    (hme : m.entries = n.entries) (hs : n.sortedKeys) : m.sortedKeys := by
  unfold Node.sortedKeys Node.keys at hs ⊢
  rw [hme]
  exact hs

theorem wEmpty_count : wEmpty.getKeyCount = 0 := rfl

theorem wEmpty_entries : wEmpty.entries = [] := rfl

theorem wEmpty_len : wEmpty.data.length = PageSize := by
  show (writeBytes (List.replicate PageSize 0) 0 [NodeLeaf]).length = PageSize
  rw [length_writeBytes]
  · exact List.length_replicate _ _
  · rw [List.length_replicate]
    simp only [List.length_singleton, PageSize_val]
    omega

theorem wEmpty_bytes : ∀ b ∈ wEmpty.data, b < 256 := by
  show ∀ b ∈ writeBytes (List.replicate PageSize 0) 0 [NodeLeaf], b < 256
  apply mem_writeBytes_lt
  · intro b hb
    have := List.eq_of_mem_replicate hb
    omega
  · intro b hb
    simp only [List.mem_singleton] at hb
    rw [hb]
    decide

theorem wEmpty_WF : wEmpty.WF := by
  refine ⟨wEmpty_len, wEmpty_bytes, ?_⟩
  intro i hi
  rw [wEmpty_count] at hi
  omega

theorem wEmpty_sorted : wEmpty.sortedKeys := by
  unfold Node.sortedKeys Node.keys
  rw [wEmpty_entries]
  exact List.Pairwise.nil

theorem wEmptyB_count : wEmptyB.getKeyCount = 0 := rfl

theorem wEmptyB_entries : wEmptyB.entries = [] := rfl

theorem wEmptyB_len : wEmptyB.data.length = PageSize := by
  show (writeBytes (List.replicate PageSize 0) 0 [NodeBranch]).length = PageSize
  rw [length_writeBytes]
  · exact List.length_replicate _ _
  · rw [List.length_replicate]
    simp only [List.length_singleton, PageSize_val]
    omega

theorem wEmptyB_bytes : ∀ b ∈ wEmptyB.data, b < 256 := by
  show ∀ b ∈ writeBytes (List.replicate PageSize 0) 0 [NodeBranch], b < 256
  apply mem_writeBytes_lt
  · intro b hb
    have := List.eq_of_mem_replicate hb
    omega
  · intro b hb
    simp only [List.mem_singleton] at hb
    rw [hb]
    decide

theorem wEmptyB_WF : wEmptyB.WF := by
  refine ⟨wEmptyB_len, wEmptyB_bytes, ?_⟩
  intro i hi
  rw [wEmptyB_count] at hi
  omega

theorem wEmptyB_sorted : wEmptyB.sortedKeys := by
  unfold Node.sortedKeys Node.keys
  rw [wEmptyB_entries]
  exact List.Pairwise.nil

theorem w1_eq : wEmpty.insertLeafKeyValue [97] [120] = (w1, none) := by
  obtain ⟨n', he⟩ := insertLeaf_ok_of_fit wEmpty [97] [120] wEmpty_WF rfl (by
    rw [wEmpty_count, wEmpty_entries]
    decide)
  have h1 : w1 = n' := by
    show (wEmpty.insertLeafKeyValue [97] [120]).1 = n'
    rw [he]
  rw [h1]
  exact he

theorem w1_facts : w1.getKeyCount = 1 ∧ w1.getType = NodeLeaf ∧ w1.WF ∧
    w1.entries = [([97], [120])] := by
  obtain ⟨h1, h2, h3, h4⟩ := insertLeafKeyValue_ok_spec wEmpty [97] [120] wEmpty_WF
    (by decide) (by decide) w1 w1_eq
  refine ⟨by rw [h1, wEmpty_count], by rw [h2]; rfl, h3, ?_⟩
  rw [h4, wEmpty_entries]
  rfl

theorem w1_sorted : w1.sortedKeys :=
  insertLeafKeyValue_sorted wEmpty [97] [120] wEmpty_WF (by decide) (by decide)
    wEmpty_sorted w1 w1_eq

theorem w1_keys : w1.keys = [[97]] := by
  unfold Node.keys
  rw [w1_facts.2.2.2]
  rfl

theorem w1_offset0 : w1.getOffset 0 = 5 := rfl

theorem wB_eq : wEmptyB.insertBranchKey [97] 5 = (wB, none) := by
  obtain ⟨n', he⟩ := insertLeaf_ok_of_fit wEmptyB [97] (u64Bytes 5) wEmptyB_WF rfl (by
    rw [wEmptyB_count, wEmptyB_entries]
    decide)
  rw [insertBranchKey_eq] at *
  have h1 : wB = n' := by
    show (wEmptyB.insertLeafKeyValue [97] (u64Bytes 5)).1 = n'
    rw [he]
  rw [h1]
  exact he

theorem wB_facts : wB.getKeyCount = 1 ∧ wB.WF ∧
    wB.entries = [([97], u64Bytes 5)] := by
  have heq : wEmptyB.insertLeafKeyValue [97] (u64Bytes 5) = (wB, none) := by
    rw [← insertBranchKey_eq]
    exact wB_eq
  obtain ⟨h1, h2, h3, h4⟩ := insertLeafKeyValue_ok_spec wEmptyB [97] (u64Bytes 5)
    wEmptyB_WF (by decide) (u64Bytes_bytes_lt 5) wB heq
  refine ⟨by rw [h1, wEmptyB_count], h3, ?_⟩
  rw [h4, wEmptyB_entries]
  rfl

theorem wB_sorted : wB.sortedKeys := by
  have heq : wEmptyB.insertLeafKeyValue [97] (u64Bytes 5) = (wB, none) := by
    rw [← insertBranchKey_eq]
    exact wB_eq
  exact insertLeafKeyValue_sorted wEmptyB [97] (u64Bytes 5) wEmptyB_WF (by decide)
    (u64Bytes_bytes_lt 5) wEmptyB_sorted wB heq

theorem wB_kv0 : (wB.getLeafKeyValue 0).1 = [97] := by
  have h := entries_getD wB 0 (by rw [wB_facts.1]; omega)
  rw [wB_facts.2.2] at h
  rw [← h]
  rfl

/-! ### Claim theorems: node-level claims -/

/-- C4: on a node with strictly ascending keys, `findKeyInNode` returns the
lowest index whose key is lexicographically `≥ key` (all smaller indices hold
strictly smaller keys, and the index is at most `count`, so it is `count`
when no such slot exists), and `found` holds exactly when the slot at the
returned index exists and holds a key byte-equal to the search key. -/
theorem C4_find_lowest_ge (n : Node) (key : Bytes) (hs : n.sortedKeys) :
    (n.findKeyInNode key).1 ≤ n.getKeyCount ∧
    ((n.findKeyInNode key).1 < n.getKeyCount →
      bytesGe (n.getLeafKeyValue (n.findKeyInNode key).1).1 key = true) ∧
    (∀ j, j < (n.findKeyInNode key).1 → bytesLt (n.getLeafKeyValue j).1 key) ∧
    ((n.findKeyInNode key).2 = true ↔
      ((n.findKeyInNode key).1 < n.getKeyCount ∧
        (n.getLeafKeyValue (n.findKeyInNode key).1).1 = key)) :=
  ⟨findKeyInNode_le n key, findKeyInNode_ge_at n key,
   findKeyInNode_lt_below n key hs, findKeyInNode_found_eq n key⟩

theorem C4_witness : w1.sortedKeys ∧
    ((w1.findKeyInNode [98]).1 ≤ w1.getKeyCount ∧
    ((w1.findKeyInNode [98]).1 < w1.getKeyCount →
      bytesGe (w1.getLeafKeyValue (w1.findKeyInNode [98]).1).1 [98] = true) ∧
    (∀ j, j < (w1.findKeyInNode [98]).1 → bytesLt (w1.getLeafKeyValue j).1 [98]) ∧
    ((w1.findKeyInNode [98]).2 = true ↔
      ((w1.findKeyInNode [98]).1 < w1.getKeyCount ∧
        (w1.getLeafKeyValue (w1.findKeyInNode [98]).1).1 = [98]))) :=
  ⟨w1_sorted, C4_find_lowest_ge w1 [98] w1_sorted⟩

/-- C6: on a sorted leaf, inserting a key that is byte-equal to a stored key
fails with `KeyExists` for every value and returns the node unchanged (never
overwriting the stored value); a successful insert is possible only for keys
not present. -/
theorem C6_keyExists_no_overwrite (n : Node) (key : Bytes) (hs : n.sortedKeys) :
    (key ∈ n.keys → ∀ value, n.insertLeafKeyValue key value =
      (n, some Err.keyExists)) ∧
    (∀ value n', n.insertLeafKeyValue key value = (n', none) → key ∉ n.keys) := by
  constructor
  · intro hmem value
    exact insertLeaf_found_eq n key value ((findKeyInNode_found_iff_mem n key hs).2 hmem)
  · intro value n' he hmem
    have h := insertLeaf_ok_not_found n key value n' he
    rw [(findKeyInNode_found_iff_mem n key hs).2 hmem] at h
    cases h

theorem C6_witness : w1.sortedKeys ∧
    (([97] ∈ w1.keys → ∀ value, w1.insertLeafKeyValue [97] value =
      (w1, some Err.keyExists)) ∧
    (∀ value n', w1.insertLeafKeyValue [97] value = (n', none) → [97] ∉ w1.keys)) :=
  ⟨w1_sorted, C6_keyExists_no_overwrite w1 [97] w1_sorted⟩

/-- C10: whenever `insertLeafKeyValue` returns an error (key exists, node
full directly, or node full after attempted compaction), the decoded
(key, value) sequence of the returned node is the same as before the call. -/
theorem C10_error_preserves_entries (n : Node) (key value : Bytes) (hwf : n.WF) :
    ∀ n' e, n.insertLeafKeyValue key value = (n', some e) →
      n'.entries = n.entries := by
  intro n' e he
  exact (insertLeafKeyValue_err_spec n key value hwf n' e he).1

theorem C10_witness : w1.WF ∧
    w1.insertLeafKeyValue [97] [1] = (w1, some Err.keyExists) ∧
    w1.entries = w1.entries := by
  have hfound : (w1.findKeyInNode [97]).2 = true :=
    (findKeyInNode_found_iff_mem w1 [97] w1_sorted).2 (by
      rw [w1_keys]
      exact List.mem_singleton.2 rfl)
  have he := insertLeaf_found_eq w1 [97] [1] hfound
  exact ⟨w1_facts.2.2.1, he,
    C10_error_preserves_entries w1 [97] [1] w1_facts.2.2.1 w1 Err.keyExists he⟩

theorem w1_hoff : ∀ i, i < w1.getKeyCount → NodeHeaderSize ≤ w1.getOffset i := by
  intro i hi
  rw [w1_facts.1] at hi
  have h0 : i = 0 := by omega
  rw [h0, w1_offset0]
  decide

theorem w1_hfit : NodeHeaderSize + w1.getKeyCount * OffsetSize +
    sizesSum w1.entries ≤ PageSize := by
  rw [w1_facts.1, w1_facts.2.2.2]
  decide

/-- C3: on a well-formed node with strictly ascending keys, every successful
node operation — leaf insert, branch insert, leaf split, branch split and
compaction — again yields node(s) with strictly ascending keys (the inserted
key landing in its correct position). -/
theorem C3_ordering_preserved (n dest : Node) (key value : Bytes) (cid : Nat)
    (hwf : n.WF) (hs : n.sortedKeys)
    (hkb : ∀ b ∈ key, b < 256) (hvb : ∀ b ∈ value, b < 256)
    (hoff : ∀ i, i < n.getKeyCount → NodeHeaderSize ≤ n.getOffset i)
    (hdl : dest.data.length ≤ PageSize) (hdb : ∀ b ∈ dest.data, b < 256)
    (hfit : NodeHeaderSize + n.getKeyCount * OffsetSize +
      sizesSum n.entries ≤ PageSize) :
    (∀ n', n.insertLeafKeyValue key value = (n', none) → n'.sortedKeys) ∧
    (∀ n', n.insertBranchKey key cid = (n', none) → n'.sortedKeys) ∧
    (∀ old nw pk, n.splitLeaf dest = (old, nw, pk) →
      old.sortedKeys ∧ nw.sortedKeys) ∧
    (∀ old nw pk, n.splitBranch dest = (old, nw, pk) →
      old.sortedKeys ∧ nw.sortedKeys) ∧
    (∀ reserve n' p, n.compact reserve = (n', p, true) → n'.sortedKeys) := by
  refine ⟨?_, ?_, ?_, ?_, ?_⟩
  · intro n' he
    exact insertLeafKeyValue_sorted n key value hwf hkb hvb hs n' he
  · intro n' he
    exact insertBranchKey_sorted n key cid hwf hkb hs n' he
  · intro old nw pk he
    obtain ⟨_, _, _, hnwe, _, _, _, _, holde, _⟩ :=
      splitLeaf_spec n dest hwf hoff hdl hdb hfit old nw pk he
    exact ⟨sortedKeys_of_entries_take n old _ holde hs,
      sortedKeys_of_entries_drop n nw _ hnwe hs⟩
  · intro old nw pk he
    obtain ⟨_, _, _, hnwe, _, _, _, _, holde, _⟩ :=
      splitBranch_spec n dest hwf hoff hdl hdb hfit old nw pk he
    exact ⟨sortedKeys_of_entries_take n old _ holde hs,
      sortedKeys_of_entries_drop n nw _ hnwe hs⟩
  · intro reserve n' p he
    obtain ⟨_, _, he3, _, _, _⟩ := compact_true_spec n reserve n' p hwf he
    exact sortedKeys_of_entries_eq n n' he3 hs

theorem C3_witness :
    (∀ n', w1.insertLeafKeyValue [98] [1] = (n', none) → n'.sortedKeys) ∧
    (∀ n', w1.insertBranchKey [98] 7 = (n', none) → n'.sortedKeys) ∧
    (∀ old nw pk, w1.splitLeaf wEmpty = (old, nw, pk) →
      old.sortedKeys ∧ nw.sortedKeys) ∧
    (∀ old nw pk, w1.splitBranch wEmpty = (old, nw, pk) →
      old.sortedKeys ∧ nw.sortedKeys) ∧
    (∀ reserve n' p, w1.compact reserve = (n', p, true) → n'.sortedKeys) :=
  C3_ordering_preserved w1 wEmpty [98] [1] 7 w1_facts.2.2.1 w1_sorted
    (by decide) (by decide) w1_hoff (le_of_eq wEmpty_len) wEmpty_bytes w1_hfit

/-- C5: on a well-formed leaf with at least one entry (offsets past the
header, contents fitting in a packed page), `splitLeaf` chooses
`mid = count / 2`, returns a copy of the key at slot `mid` as the promote
key, moves exactly the entries `[mid, count)` into the new node, packed
contiguously and in order, and leaves the original with `count = mid`,
compacted via `compact` with `reserve = false`. -/
theorem C5_splitLeaf (n dest : Node) (hwf : n.WF) (hc : 1 ≤ n.getKeyCount)
    (hoff : ∀ i, i < n.getKeyCount → NodeHeaderSize ≤ n.getOffset i)
    (hdl : dest.data.length ≤ PageSize) (hdb : ∀ b ∈ dest.data, b < 256)
    (hfit : NodeHeaderSize + n.getKeyCount * OffsetSize +
      sizesSum n.entries ≤ PageSize) :
    ∀ old nw pk, n.splitLeaf dest = (old, nw, pk) →
      pk = (n.getLeafKeyValue (n.getKeyCount / 2)).1 ∧
      nw.getKeyCount = n.getKeyCount - n.getKeyCount / 2 ∧
      nw.entries = n.entries.drop (n.getKeyCount / 2) ∧
      (∀ j, j < n.getKeyCount - n.getKeyCount / 2 →
        nw.getOffset j = NodeHeaderSize +
          (n.getKeyCount - n.getKeyCount / 2) * OffsetSize +
          sizesSum ((n.entries.drop (n.getKeyCount / 2)).take j)) ∧
      old.getKeyCount = n.getKeyCount / 2 ∧
      old.entries = n.entries.take (n.getKeyCount / 2) ∧
      old = ((Node.mk (writeU16 n.data 1 (n.getKeyCount / 2))).compact false).1 := by
  intro old nw pk heq
  have hold : ((Node.mk (writeU16 n.data 1 (n.getKeyCount / 2))).compact false).1
      = old := by
    have h := congrArg (fun t => t.1) heq
    dsimp only at h
    exact h
  obtain ⟨h1, h2, _, h4, _, h6, h7, _, h9, _⟩ :=
    splitLeaf_spec n dest hwf hoff hdl hdb hfit old nw pk heq
  exact ⟨h1, h2, h4, h6, h7, h9, hold.symm⟩

theorem C5_witness : w1.WF ∧ 1 ≤ w1.getKeyCount ∧
    ((w1.splitLeaf wEmpty).2.2 = (w1.getLeafKeyValue (w1.getKeyCount / 2)).1 ∧
      (w1.splitLeaf wEmpty).2.1.getKeyCount = w1.getKeyCount - w1.getKeyCount / 2 ∧
      (w1.splitLeaf wEmpty).2.1.entries = w1.entries.drop (w1.getKeyCount / 2) ∧
      (∀ j, j < w1.getKeyCount - w1.getKeyCount / 2 →
        (w1.splitLeaf wEmpty).2.1.getOffset j = NodeHeaderSize +
          (w1.getKeyCount - w1.getKeyCount / 2) * OffsetSize +
          sizesSum ((w1.entries.drop (w1.getKeyCount / 2)).take j)) ∧
      (w1.splitLeaf wEmpty).1.getKeyCount = w1.getKeyCount / 2 ∧
      (w1.splitLeaf wEmpty).1.entries = w1.entries.take (w1.getKeyCount / 2) ∧
      (w1.splitLeaf wEmpty).1 =
        ((Node.mk (writeU16 w1.data 1 (w1.getKeyCount / 2))).compact false).1) :=
  ⟨w1_facts.2.2.1, by rw [w1_facts.1],
    C5_splitLeaf w1 wEmpty w1_facts.2.2.1 (by rw [w1_facts.1]) w1_hoff
      (le_of_eq wEmpty_len) wEmpty_bytes w1_hfit
      (w1.splitLeaf wEmpty).1 (w1.splitLeaf wEmpty).2.1 (w1.splitLeaf wEmpty).2.2 rfl⟩

theorem C8_witness : IsGreatestPivotLE wB [97] (branchChildIndex wB [97]) ∧
    (∀ i, IsGreatestPivotLE wB [97] i →
      wB.getChild (branchChildIndex wB [97]) = wB.getChild i) :=
  branchChildIndex_greatestPivotLE wB [97] wB_facts.2.1 wB_sorted
    (by rw [wB_facts.1])
    ⟨0, by rw [wB_facts.1]; omega, by rw [wB_kv0]; exact bytesLt_irrefl [97]⟩

theorem txAllocateNode_frame (st : St) :
    (txAllocateNode st).1.file = st.file ∧ (txAllocateNode st).1.trace = st.trace := by
  unfold txAllocateNode pagerGetFreePage
  dsimp only
  split
  · exact ⟨rfl, rfl⟩
  · exact ⟨rfl, rfl⟩

theorem txInsertRecursive_frame : ∀ (fuel : Nat) (st : St) (pid : Nat)
    (key value : Bytes),
    (txInsertRecursive fuel st pid key value).1.file = st.file ∧
    (txInsertRecursive fuel st pid key value).1.trace = st.trace := by
  intro fuel
  induction fuel with
  | zero =>
    intro st pid key value
    exact ⟨rfl, rfl⟩
  | succ f ih =>
    intro st pid key value
    unfold txInsertRecursive
    dsimp only
    split
    · exact ⟨rfl, rfl⟩
    · next node hnode =>
      split
      · split
        · exact ⟨rfl, rfl⟩
        · split
          · exact ⟨rfl, rfl⟩
          · split
            · split
              · exact txAllocateNode_frame st
              · exact txAllocateNode_frame st
            · split
              · exact txAllocateNode_frame st
              · exact txAllocateNode_frame st
      · split
        · next st1 kp e heq =>
          have h := ih st (node.getChild (branchChildIndex node key)) key value
          rw [heq] at h
          exact h
        · next st1 heq =>
          have h := ih st (node.getChild (branchChildIndex node key)) key value
          rw [heq] at h
          exact h
        · next st1 kp heq =>
          have h := ih st (node.getChild (branchChildIndex node key)) key value
          rw [heq] at h
          have hal := txAllocateNode_frame st1
          have hcomb : (txAllocateNode st1).1.file = st.file ∧
              (txAllocateNode st1).1.trace = st.trace :=
            ⟨by rw [hal.1]; exact h.1, by rw [hal.2]; exact h.2⟩
          split
          · exact h
          · split
            · exact h
            · split
              · split
                · exact hcomb
                · exact hcomb
              · split
                · exact hcomb
                · exact hcomb

/-- C7: `Tx.Put` never writes to the database file: whatever it does (copied
leaves and branches, split halves, new roots) is staged in the in-memory
dirty-node map only; the on-disk page image and the write/sync event trace
are exactly as before the call, for every state, key, value and recursion
budget. -/
theorem C7_put_stages_only (fuel : Nat) (st : St) (key value : Bytes) :
    (txPut fuel st key value).1.file = st.file ∧
    (txPut fuel st key value).1.trace = st.trace := by
  unfold txPut
  split
  · next st1 kp e heq =>
    have h := txInsertRecursive_frame fuel st st.txRoot key value
    rw [heq] at h
    exact h
  · next st1 heq =>
    have h := txInsertRecursive_frame fuel st st.txRoot key value
    rw [heq] at h
    exact h
  · next st1 kp heq =>
    have h := txInsertRecursive_frame fuel st st.txRoot key value
    rw [heq] at h
    have hal := txAllocateNode_frame st1
    have hcomb : (txAllocateNode st1).1.file = st.file ∧
        (txAllocateNode st1).1.trace = st.trace :=
      ⟨by rw [hal.1]; exact h.1, by rw [hal.2]; exact h.2⟩
    dsimp only
    split
    · exact hcomb
    · split
      · exact hcomb
      · split
        · exact hcomb
        · exact hcomb

/-- C9 (amended): the writability check lives in `Tx.Commit`, not `Tx.Put`:
committing any transaction whose `writable` flag is false fails with the
read-only error and changes nothing. -/
theorem C9_commit_requires_writable (st : St) (h : st.writable = false) :
    txCommit st = (st, some Err.notWritable) := by
  unfold txCommit
  rw [if_pos h]

theorem C9_commit_requires_writable_witness :
    c9st.writable = false ∧ txCommit c9st = (c9st, some Err.notWritable) :=
  ⟨rfl, C9_commit_requires_writable c9st rfl⟩

/-- C9 counterexample to the claim as stated: `Tx.Put` never checks
`writable` — on a read-only transaction over a fresh database it succeeds
and stages a modified copy of the root leaf in the dirty-node map. -/
theorem C9_put_ignores_writable :
    c9st.writable = false ∧
    (txPut 1 c9st [97] [120]).2 = none ∧
    (txPut 1 c9st [97] [120]).1.dirtyNodes = [(1, w1)] :=
  ⟨rfl, rfl, rfl⟩

theorem u32Bytes_length (v : Nat) : (u32Bytes v).length = 4 := rfl

theorem metaSerialize_length (a b c : Nat) :
    (metaSerialize a b c).length = PageSize := by
  have h0 : (List.replicate PageSize (0 : Nat)).length = PageSize :=
    List.length_replicate _ _
  have h1 : (writeBytes (List.replicate PageSize 0) 0 (u32Bytes a)).length
      = PageSize := by
    rw [length_writeBytes, h0]
    rw [h0, u32Bytes_length]
    simp only [PageSize_val]
    omega
  have h2 : (writeBytes (writeBytes (List.replicate PageSize 0) 0 (u32Bytes a))
      4 (u32Bytes b)).length = PageSize := by
    rw [length_writeBytes, h1]
    rw [h1, u32Bytes_length]
    simp only [PageSize_val]
    omega
  show (writeBytes (writeBytes (writeBytes (List.replicate PageSize 0)
    0 (u32Bytes a)) 4 (u32Bytes b)) 8 (u32Bytes c)).length = PageSize
  rw [length_writeBytes, h2]
  rw [h2, u32Bytes_length]
  simp only [PageSize_val]
  omega

theorem commitDirty_spec : ∀ (ds : List (Nat × Node)) (st : St),
    (∀ d ∈ ds, d.2.data.length ≤ PageSize) →
    ∃ st', commitDirty st ds = (st', none) ∧
      st'.trace = st.trace ++ ds.map (fun d => PagerEvent.write d.1 d.2.data) ∧
      st'.dbRoot = st.dbRoot ∧ st'.txRoot = st.txRoot ∧
      st'.metaMagic = st.metaMagic ∧ st'.metaRoot = st.metaRoot ∧
      st'.metaFree = st.metaFree ∧ st'.writable = st.writable ∧
      st'.dirtyNodes = st.dirtyNodes := by
  intro ds
  induction ds with
  | nil =>
    intro st h
    exact ⟨st, rfl, by simp, rfl, rfl, rfl, rfl, rfl, rfl, rfl⟩
  | cons d rest ih =>
    intro st h
    have hw : ¬ (d.2.data.length > PageSize) := by
      have := h d (List.mem_cons_self d rest)
      omega
    have hwr : pagerWrite st d.1 d.2.data =
        ({ st with
            numPages := if d.1 ≥ st.numPages then d.1 + 1 else st.numPages,
            file := fileSet st.file d.1 d.2.data,
            trace := st.trace ++ [.write d.1 d.2.data] }, none) := by
      unfold pagerWrite
      rw [if_neg hw]
    unfold commitDirty
    rw [hwr]
    dsimp only
    obtain ⟨st'', e1, e2, e3, e4, e5, e6, e7, e8, e9⟩ := ih _ (by
      intro x hx
      exact h x (List.mem_cons_of_mem d hx))
    refine ⟨st'', e1, ?_, e3, e4, e5, e6, e7, e8, e9⟩
    rw [e2]
    show (st.trace ++ [PagerEvent.write d.1 d.2.data]) ++ _ = _
    rw [List.map_cons, List.append_assoc]
    rfl

theorem dbWriteMeta_spec (st : St) :
    ∃ st', dbWriteMeta st = (st', none) ∧
      st'.trace = st.trace ++ [PagerEvent.write MetaPageID
        (metaSerialize st.metaMagic st.metaRoot st.metaFree), PagerEvent.sync] ∧
      st'.dbRoot = st.dbRoot ∧ st'.txRoot = st.txRoot ∧
      st'.metaRoot = st.metaRoot ∧ st'.metaMagic = st.metaMagic ∧
      st'.metaFree = st.metaFree := by
  have hlen : ¬ ((metaSerialize st.metaMagic st.metaRoot st.metaFree).length >
      PageSize) := by
    rw [metaSerialize_length]
    omega
  unfold dbWriteMeta pagerWrite
  rw [if_neg hlen]
  dsimp only
  unfold pagerSync
  refine ⟨_, rfl, ?_, rfl, rfl, rfl, rfl, rfl⟩
  show (st.trace ++ [PagerEvent.write MetaPageID
    (metaSerialize st.metaMagic st.metaRoot st.metaFree)]) ++ [PagerEvent.sync] = _
  rw [List.append_assoc]
  rfl

/-- C2: `Tx.Commit` on a writable transaction whose dirty pages have legal
size performs its effects in order: one `Pager.Write` per entry of the
dirty-node map, then `Sync`; then, exactly when `tx.root` differs from
`db.Root`, the meta page (serialized with the new root) is written and
`Sync` is called a second time, and `db.Root` becomes `tx.root`; when the
root did not change, nothing further is written and `db.Root` stays. -/
theorem C2_commit_order (st : St) (hw : st.writable = true)
    (hlen : ∀ d ∈ st.dirtyNodes, d.2.data.length ≤ PageSize) :
    ∃ st', txCommit st = (st', none) ∧
      st'.trace = st.trace ++
        st.dirtyNodes.map (fun d => PagerEvent.write d.1 d.2.data) ++
        [PagerEvent.sync] ++
        (if st.txRoot ≠ st.dbRoot then
          [PagerEvent.write MetaPageID
            (metaSerialize st.metaMagic (st.txRoot % 2 ^ 32) st.metaFree),
            PagerEvent.sync]
          else []) ∧
      st'.dbRoot = (if st.txRoot ≠ st.dbRoot then st.txRoot else st.dbRoot) ∧
      st'.metaRoot = (if st.txRoot ≠ st.dbRoot then st.txRoot % 2 ^ 32
        else st.metaRoot) := by
  have hnw : ¬ (st.writable = false) := by
    rw [hw]
    simp
  unfold txCommit
  rw [if_neg hnw]
  obtain ⟨st1, e1, e2, e3, e4, e5, e6, e7, e8, e9⟩ :=
    commitDirty_spec st.dirtyNodes st hlen
  rw [e1]
  dsimp only
  unfold pagerSync
  dsimp only
  by_cases hroot : st.txRoot = st.dbRoot
  · have hcond : ¬ (st1.txRoot ≠ st1.dbRoot) := by
      rw [e4, e3, hroot]
      simp
    rw [if_neg hcond]
    have hcond2 : ¬ (st.txRoot ≠ st.dbRoot) := by
      rw [hroot]
      simp
    rw [if_neg hcond2, if_neg hcond2, if_neg hcond2]
    refine ⟨_, rfl, ?_, e3, e6⟩
    show st1.trace ++ [PagerEvent.sync] = _
    rw [e2, List.append_assoc, List.append_nil]
  · have hcond : st1.txRoot ≠ st1.dbRoot := by
      rw [e4, e3]
      exact hroot
    rw [if_pos hcond]
    rw [if_pos hroot, if_pos hroot, if_pos hroot]
    obtain ⟨st3, f1, f2, f3, f4, f5, f6, f7⟩ := dbWriteMeta_spec
      { st1 with trace := st1.trace ++ [PagerEvent.sync],
                 metaRoot := st1.txRoot % 2 ^ 32 }
    rw [f1]
    dsimp only
    refine ⟨_, rfl, ?_, ?_, ?_⟩
    · show st3.trace = _
      rw [f2]
      dsimp only
      rw [e2, e4, e5, e7]
    · show st3.txRoot = st.txRoot
      rw [f4]
      dsimp only
      exact e4
    · show st3.metaRoot = st.txRoot % 2 ^ 32
      rw [f5]
      dsimp only
      rw [e4]

theorem c2st_hlen : ∀ d ∈ c2st.dirtyNodes, d.2.data.length ≤ PageSize := by
  intro d hd
  rw [show c2st.dirtyNodes = [(2, w1)] from rfl, List.mem_singleton] at hd
  rw [hd]
  exact le_of_eq w1_facts.2.2.1.1

theorem C2_witness : c2st.writable = true ∧
    (∃ st', txCommit c2st = (st', none) ∧
      st'.trace = c2st.trace ++
        c2st.dirtyNodes.map (fun d => PagerEvent.write d.1 d.2.data) ++
        [PagerEvent.sync] ++
        (if c2st.txRoot ≠ c2st.dbRoot then
          [PagerEvent.write MetaPageID
            (metaSerialize c2st.metaMagic (c2st.txRoot % 2 ^ 32) c2st.metaFree),
            PagerEvent.sync]
          else []) ∧
      st'.dbRoot = (if c2st.txRoot ≠ c2st.dbRoot then c2st.txRoot
        else c2st.dbRoot) ∧
      st'.metaRoot = (if c2st.txRoot ≠ c2st.dbRoot then c2st.txRoot % 2 ^ 32
        else c2st.metaRoot)) :=
  ⟨rfl, C2_commit_order c2st rfl c2st_hlen⟩

/-- When every stored key is strictly below the search key, `find` returns
`count` (and no match). -/
theorem findKeyInNode_eq_count_of_all_lt (n : Node) (key : Bytes)
    (hlt : ∀ j, j < n.getKeyCount → bytesLt (n.getLeafKeyValue j).1 key) :
    (n.findKeyInNode key).1 = n.getKeyCount ∧ (n.findKeyInNode key).2 = false := by
  have hle := findKeyInNode_le n key
  have hnotlt : ¬ (n.findKeyInNode key).1 < n.getKeyCount := by
    intro hltc
    have hge := findKeyInNode_ge_at n key hltc
    have := hlt _ hltc
    rw [(bytesGe_eq_false_iff _ _).2 this] at hge
    cases hge
  have h1 : (n.findKeyInNode key).1 = n.getKeyCount := by omega
  refine ⟨h1, ?_⟩
  rcases Bool.eq_false_or_eq_true (n.findKeyInNode key).2 with hf | hf
  · obtain ⟨h2, _⟩ := (findKeyInNode_found_eq n key).1 hf
    omega
  · exact hf

/-- On a well-formed node, the stored record end of slot `j` is determined
by the decoded key and value lengths. -/
theorem entryEnd_eq_of_WF (m : Node) (hwf : m.WF) (j : Nat)
    (hj : j < m.getKeyCount) :
    entryEnd m.data (m.getOffset j) = m.getOffset j + KVHeaderSize +
      (m.getLeafKeyValue j).1.length + (m.getLeafKeyValue j).2.length := by
  obtain ⟨hlen, hb, hbound⟩ := hwf
  have hend := hbound j hj
  have hendv : entryEnd m.data (m.getOffset j) = m.getOffset j + KVHeaderSize +
      readU16 m.data (m.getOffset j) +
      readU16 m.data (m.getOffset j + KeyLenSize) := rfl
  have hk : (m.getLeafKeyValue j).1.length = readU16 m.data (m.getOffset j) := by
    show (readBytes m.data (m.getOffset j + KVHeaderSize)
      (readU16 m.data (m.getOffset j))).length = _
    rw [length_readBytes]
    rw [hlen]
    simp only [KVHeaderSize_val, KeyLenSize_val, PageSize_val] at hendv hend ⊢
    omega
  have hv : (m.getLeafKeyValue j).2.length =
      readU16 m.data (m.getOffset j + KeyLenSize) := by
    show (readBytes m.data (m.getOffset j + KVHeaderSize +
      readU16 m.data (m.getOffset j))
      (readU16 m.data (m.getOffset j + KeyLenSize))).length = _
    rw [length_readBytes]
    rw [hlen]
    simp only [KVHeaderSize_val, KeyLenSize_val, PageSize_val] at hendv hend ⊢
    omega
  rw [hk, hv]
  exact hendv

/-- Appending a key greater than every stored key into a perfectly packed
node with room to spare: the insert succeeds, the entry lands at the end,
and the node is again perfectly packed. -/
theorem insertLeaf_append_spec (n : Node) (key value : Bytes) (hwf : n.WF)
    (hs : n.sortedKeys) (hkb : ∀ b ∈ key, b < 256) (hvb : ∀ b ∈ value, b < 256)
    (hlt : ∀ j, j < n.getKeyCount → bytesLt (n.getLeafKeyValue j).1 key)
    (hpk : ∀ j, j < n.getKeyCount → n.getOffset j =
      NodeHeaderSize + n.getKeyCount * OffsetSize + sizesSum (n.entries.take j))
    (hfit : NodeHeaderSize + (n.getKeyCount + 1) * OffsetSize + sizesSum n.entries
      + (KVHeaderSize + key.length + value.length) ≤ PageSize) :
    ∃ n', n.insertLeafKeyValue key value = (n', none) ∧
      n'.getKeyCount = n.getKeyCount + 1 ∧ n'.getType = n.getType ∧
      n'.WF ∧ n'.sortedKeys ∧
      n'.entries = n.entries ++ [(key, value)] ∧
      (∀ j, j < n'.getKeyCount → n'.getOffset j =
        NodeHeaderSize + n'.getKeyCount * OffsetSize +
          sizesSum (n'.entries.take j)) := by
  obtain ⟨hfind1, hfind2⟩ := findKeyInNode_eq_count_of_all_lt n key hlt
  obtain ⟨hlen, hb, hbound⟩ := hwf
  have hentlen : n.entries.length = n.getKeyCount := length_entries n
  have htc : n.entries.take n.getKeyCount = n.entries := by
    rw [← hentlen]
    exact List.take_length n.entries
  have assemble : ∀ (m : Node) (wp : Nat) (n' : Node),
      m.insertFinish (n.findKeyInNode key).1 wp key value n.getKeyCount = n' →
      m.getKeyCount = n.getKeyCount → m.getType = n.getType →
      m.entries = n.entries → m.WF →
      (∀ i, i < n.getKeyCount →
        NodeHeaderSize + (n.getKeyCount + 1) * OffsetSize ≤ m.getOffset i) →
      (∀ i, i < n.getKeyCount → entryEnd m.data (m.getOffset i) ≤ wp) →
      NodeHeaderSize + (n.getKeyCount + 1) * OffsetSize ≤ wp →
      wp = NodeHeaderSize + (n.getKeyCount + 1) * OffsetSize + sizesSum n.entries →
      (∀ i, i < n.getKeyCount → m.getOffset i = NodeHeaderSize +
        (n.getKeyCount + 1) * OffsetSize + sizesSum (n.entries.take i)) →
      (∀ j, j < n'.getKeyCount → n'.getOffset j =
        NodeHeaderSize + n'.getKeyCount * OffsetSize +
          sizesSum (n'.entries.take j)) := by
    intro m wp n' hres hmc hmt hme hmwf hoffs hends hwple hwp hmoff
    obtain ⟨f1, f2, f3, f4, f5⟩ := insertFinish_spec m (n.findKeyInNode key).1 wp
      key value n.getKeyCount hmc hmwf.1 hmwf.2.1 hkb hvb
      (by rw [hfind1]) hoffs hends hwple (by rw [hwp]; omega)
    rw [hres] at f1 f2 f3 f4 f5
    rw [hme, hfind1] at f4
    have hents : n'.entries = n.entries ++ [(key, value)] := by
      rw [f4, htc, ← hentlen, List.drop_length n.entries]
    intro j hj
    rw [f1] at hj
    have hthis := f5 j hj
    rw [hfind1] at hthis
    rw [hthis, f1, hents]
    rcases Nat.lt_or_ge j n.getKeyCount with hjc | hjc
    · rw [if_pos hjc]
      rw [hmoff j hjc]
      rw [List.take_append_of_le_length (by omega)]
    · have hjeq : j = n.getKeyCount := by omega
      rw [if_neg (by omega), if_pos hjeq, hjeq]
      rw [List.take_append_of_le_length (by omega)]
      rw [htc, hwp]
  have post : ∀ n', n.insertLeafKeyValue key value = (n', none) →
      n'.getKeyCount = n.getKeyCount + 1 ∧ n'.getType = n.getType ∧
      n'.WF ∧ n'.sortedKeys ∧ n'.entries = n.entries ++ [(key, value)] := by
    intro n' he
    obtain ⟨g1, g2, g3, g4⟩ := insertLeafKeyValue_ok_spec n key value
      ⟨hlen, hb, hbound⟩ hkb hvb n' he
    refine ⟨g1, g2, g3,
      insertLeafKeyValue_sorted n key value ⟨hlen, hb, hbound⟩ hkb hvb hs n' he, ?_⟩
    rw [g4, hfind1, htc, ← hentlen, List.drop_length n.entries]
  suffices h : ∃ n', n.insertLeafKeyValue key value = (n', none) ∧
      (∀ j, j < n'.getKeyCount → n'.getOffset j =
        NodeHeaderSize + n'.getKeyCount * OffsetSize +
          sizesSum (n'.entries.take j)) by
    obtain ⟨n', he, hoffs⟩ := h
    obtain ⟨p1, p2, p3, p4, p5⟩ := post n' he
    exact ⟨n', he, p1, p2, p3, p4, p5, hoffs⟩
  unfold Node.insertLeafKeyValue
  dsimp only
  rw [hfind2]
  rw [if_neg (by simp)]
  by_cases hc0 : n.getKeyCount = 0
  · have hent : n.entries = [] := by
      unfold Node.entries
      rw [hc0]
      rfl
    rw [hc0, hent] at hfit
    rw [hc0]
    rw [if_pos rfl, if_pos rfl]
    have hmx : ¬ (NodeHeaderSize + OffsetSize <
        NodeHeaderSize + (0 + 1) * OffsetSize) := by decide
    rw [if_neg hmx]
    have hor : ¬ (NodeHeaderSize + (0 + 1) * OffsetSize > NodeHeaderSize + OffsetSize ∨
        NodeHeaderSize + OffsetSize + (KVHeaderSize + key.length + value.length) >
          PageSize) := by
      simp only [NodeHeaderSize_val, OffsetSize_val, KVHeaderSize_val, PageSize_val,
        sizesSum_nil, gt_iff_lt, not_or, not_lt] at hfit ⊢
      omega
    rw [if_neg hor]
    refine ⟨_, rfl, ?_⟩
    refine assemble n (NodeHeaderSize + OffsetSize) _ (by rw [hc0]) rfl rfl rfl
      ⟨hlen, hb, hbound⟩ ?_ ?_ ?_ ?_ ?_
    · intro i hi
      rw [hc0] at hi
      omega
    · intro i hi
      rw [hc0] at hi
      omega
    · rw [hc0]
      simp only [NodeHeaderSize_val, OffsetSize_val]
      omega
    · rw [hc0, hent]
      simp only [NodeHeaderSize_val, OffsetSize_val, sizesSum_nil]
    · intro i hi
      rw [hc0] at hi
      omega
  · have hcfit : NodeHeaderSize + (n.getKeyCount + 1) * OffsetSize +
        sizesSum n.entries ≤ PageSize := by
      simp only [NodeHeaderSize_val, OffsetSize_val, KVHeaderSize_val,
        PageSize_val] at hfit ⊢
      omega
    have hcpl := compact_eq_packLoop n true hc0 hcfit
    rw [if_neg hc0, if_neg hc0]
    have h1st : NodeHeaderSize + (n.getKeyCount + 1) * OffsetSize > (n.scanHeap).1 := by
      have hmin := (scanHeap_bounds n 0 (by omega)).1
      have hoff0 := hpk 0 (by omega)
      rw [List.take_zero, sizesSum_nil] at hoff0
      simp only [NodeHeaderSize_val, OffsetSize_val, gt_iff_lt] at hmin hoff0 ⊢
      omega
    rw [if_pos (Or.inl h1st)]
    rcases hcmp : n.compact true with ⟨nc, pc, bc⟩
    have hbc : bc = true := by
      rw [hcmp] at hcpl
      have h := congrArg (fun t => t.2.2) hcpl
      dsimp only at h
      exact h
    subst hbc
    obtain ⟨e1, e2, e3, e4, e5, e6⟩ := compact_true_spec n true nc pc
      ⟨hlen, hb, hbound⟩ hcmp
    rw [if_pos rfl] at e5
    have hne : ¬ (pc + (KVHeaderSize + key.length + value.length) > PageSize) := by
      rw [e5]
      simp only [NodeHeaderSize_val, OffsetSize_val, KVHeaderSize_val, PageSize_val,
        gt_iff_lt, not_lt] at hfit ⊢
      omega
    dsimp only
    rw [if_neg hne]
    refine ⟨_, rfl, ?_⟩
    refine assemble nc pc _ rfl e1 e2 e3 e4 ?_ ?_ ?_ e5 ?_
    · intro i hi
      have h6 := (e6 i hi).1
      rw [if_pos rfl] at h6
      rw [h6]
      omega
    · intro i hi
      have h6e := (e6 i hi).2
      rw [if_pos rfl] at h6e
      rw [h6e, e5]
      have := sizesSum_take_le n.entries (i + 1)
      omega
    · rw [e5]
      omega
    · intro i hi
      have h6 := (e6 i hi).1
      rw [if_pos rfl] at h6
      exact h6

/-- Inserting a fresh key into a packed non-empty node whose contents no
longer fit even after compaction: the insert compacts and then fails with
`nodeFull`, returning the compacted node. -/
theorem insertLeaf_full_spec (n : Node) (key value : Bytes) (hwf : n.WF)
    (hnf : (n.findKeyInNode key).2 = false)
    (hc0 : n.getKeyCount ≠ 0)
    (hpk : ∀ j, j < n.getKeyCount → n.getOffset j =
      NodeHeaderSize + n.getKeyCount * OffsetSize + sizesSum (n.entries.take j))
    (hcfit : NodeHeaderSize + (n.getKeyCount + 1) * OffsetSize +
      sizesSum n.entries ≤ PageSize)
    (hbig : PageSize < NodeHeaderSize + (n.getKeyCount + 1) * OffsetSize +
      sizesSum n.entries + (KVHeaderSize + key.length + value.length)) :
    ∃ nc pc, n.compact true = (nc, pc, true) ∧
      n.insertLeafKeyValue key value = (nc, some Err.nodeFull) := by
  have hcpl := compact_eq_packLoop n true hc0 hcfit
  unfold Node.insertLeafKeyValue
  dsimp only
  rw [hnf, if_neg (by simp)]
  rw [if_neg hc0, if_neg hc0]
  have h1st : NodeHeaderSize + (n.getKeyCount + 1) * OffsetSize > (n.scanHeap).1 := by
    have hmin := (scanHeap_bounds n 0 (by omega)).1
    have hoff0 := hpk 0 (by omega)
    rw [List.take_zero, sizesSum_nil] at hoff0
    simp only [NodeHeaderSize_val, OffsetSize_val, gt_iff_lt] at hmin hoff0 ⊢
    omega
  rw [if_pos (Or.inl h1st)]
  rcases hcmp : n.compact true with ⟨nc, pc, bc⟩
  have hbc : bc = true := by
    rw [hcmp] at hcpl
    have h := congrArg (fun t => t.2.2) hcpl
    dsimp only at h
    exact h
  subst hbc
  obtain ⟨_, _, _, _, e5, _⟩ := compact_true_spec n true nc pc hwf hcmp
  rw [if_pos rfl] at e5
  dsimp only
  have hgt : pc + (KVHeaderSize + key.length + value.length) > PageSize := by
    rw [e5]
    simp only [NodeHeaderSize_val, OffsetSize_val, KVHeaderSize_val, PageSize_val,
      gt_iff_lt] at hbig ⊢
    omega
  rw [if_pos hgt]
  exact ⟨nc, pc, rfl, rfl⟩

theorem c1v_length : c1v.length = 2000 := List.length_replicate _ _

theorem c1v_bytes : ∀ b ∈ c1v, b < 256 := by
  intro b hb
  have := List.eq_of_mem_replicate hb
  omega

theorem wEmpty_type : wEmpty.getType = NodeLeaf := rfl

theorem L1_facts : wEmpty.insertLeafKeyValue [97] c1v = (L1, none) ∧
    L1.getKeyCount = 1 ∧ L1.getType = NodeLeaf ∧ L1.WF ∧ L1.sortedKeys ∧
    L1.entries = [([97], c1v)] ∧
    (∀ j, j < L1.getKeyCount → L1.getOffset j =
      NodeHeaderSize + L1.getKeyCount * OffsetSize +
        sizesSum (L1.entries.take j)) := by
  obtain ⟨n', he, p1, p2, p3, p4, p5, p6⟩ := insertLeaf_append_spec wEmpty [97] c1v
    wEmpty_WF wEmpty_sorted (by decide) c1v_bytes
    (by
      intro j hj
      rw [wEmpty_count] at hj
      omega)
    (by
      intro j hj
      rw [wEmpty_count] at hj
      omega)
    (by
      rw [wEmpty_count, wEmpty_entries, c1v_length]
      decide)
  have hL : L1 = n' := by
    show (wEmpty.insertLeafKeyValue [97] c1v).1 = n'
    rw [he]
  rw [hL]
  refine ⟨he, by rw [p1, wEmpty_count], by rw [p2, wEmpty_type], p3, p4, ?_, p6⟩
  rw [p5, wEmpty_entries]
  rfl

theorem L2_facts : L1.insertLeafKeyValue [98] c1v = (L2, none) ∧
    L2.getKeyCount = 2 ∧ L2.getType = NodeLeaf ∧ L2.WF ∧ L2.sortedKeys ∧
    L2.entries = [([97], c1v), ([98], c1v)] ∧
    (∀ j, j < L2.getKeyCount → L2.getOffset j =
      NodeHeaderSize + L2.getKeyCount * OffsetSize +
        sizesSum (L2.entries.take j)) := by
  obtain ⟨hE, h1, h2, h3, h4, h5, h6⟩ := L1_facts
  obtain ⟨n', he, p1, p2, p3, p4, p5, p6⟩ := insertLeaf_append_spec L1 [98] c1v
    h3 h4 (by decide) c1v_bytes
    (by
      intro j hj
      rw [h1] at hj
      have hj0 : j = 0 := by omega
      have hkv := entries_getD L1 0 (by omega)
      rw [h5] at hkv
      rw [hj0, ← hkv]
      decide)
    (by
      intro j hj
      exact h6 j hj)
    (by
      rw [h1, h5]
      simp only [sizesSum_cons, sizesSum_nil, entrySize, c1v_length]
      decide)
  have hL : L2 = n' := by
    show (L1.insertLeafKeyValue [98] c1v).1 = n'
    rw [he]
  rw [hL]
  refine ⟨he, by rw [p1, h1], by rw [p2, h2], p3, p4, ?_, p6⟩
  rw [p5, h5]
  rfl

theorem L2c_facts : L2.insertLeafKeyValue [99] c1v = (L2c, some Err.nodeFull) ∧
    L2c.getKeyCount = 2 ∧ L2c.getType = NodeLeaf ∧ L2c.WF ∧
    L2c.entries = [([97], c1v), ([98], c1v)] ∧ L2c.sortedKeys ∧
    (∀ i, i < L2c.getKeyCount → L2c.getOffset i =
      NodeHeaderSize + (L2c.getKeyCount + 1) * OffsetSize +
        sizesSum (L2c.entries.take i)) := by
  obtain ⟨hE, h1, h2, h3, h4, h5, h6⟩ := L2_facts
  have hlt : ∀ j, j < L2.getKeyCount → bytesLt (L2.getLeafKeyValue j).1 [99] := by
    intro j hj
    rw [h1] at hj
    have hkv := entries_getD L2 j (by rw [h1]; omega)
    rw [h5] at hkv
    have hj01 : j = 0 ∨ j = 1 := by omega
    rcases hj01 with hj0 | hj0 <;> (rw [hj0] at hkv ⊢; rw [← hkv]; decide)
  have hnf := (findKeyInNode_eq_count_of_all_lt L2 [99] hlt).2
  obtain ⟨nc, pc, hcmp, hins⟩ := insertLeaf_full_spec L2 [99] c1v h3 hnf
    (by rw [h1]; omega) h6
    (by
      rw [h1, h5]
      simp only [sizesSum_cons, sizesSum_nil, entrySize, c1v_length]
      decide)
    (by
      rw [h1, h5]
      simp only [sizesSum_cons, sizesSum_nil, entrySize, c1v_length]
      decide)
  have hL : L2c = nc := by
    show (L2.compact true).1 = nc
    rw [hcmp]
  obtain ⟨e1, e2, e3, e4, e5, e6⟩ := compact_true_spec L2 true nc pc h3 hcmp
  rw [hL]
  refine ⟨hins, by rw [e1, h1], by rw [e2, h2], e4, by rw [e3, h5],
    sortedKeys_of_entries_eq L2 nc e3 h4, ?_⟩
  intro i hi
  rw [e1, h1] at hi
  have h6i := (e6 i (by rw [h1]; omega)).1
  rw [if_pos rfl, h1] at h6i
  rw [e3, e1, h1]
  simp only [NodeHeaderSize_val, OffsetSize_val] at h6i ⊢
  omega

theorem splitL2c_facts :
    (L2c.splitLeaf (Node.mk [])).2.2 = [98] ∧
    oldL.getKeyCount = 1 ∧ oldL.getType = NodeLeaf ∧ oldL.WF ∧
    oldL.entries = [([97], c1v)] ∧ oldL.sortedKeys ∧
    newL.getKeyCount = 1 ∧ newL.getType = NodeLeaf ∧ newL.WF ∧
    newL.entries = [([98], c1v)] ∧ newL.sortedKeys ∧
    (∀ j, j < newL.getKeyCount → newL.getOffset j =
      NodeHeaderSize + newL.getKeyCount * OffsetSize +
        sizesSum (newL.entries.take j)) := by
  obtain ⟨_, c1, c2, c3, c4, c5, c6⟩ := L2c_facts
  have hfit : NodeHeaderSize + L2c.getKeyCount * OffsetSize +
      sizesSum L2c.entries ≤ PageSize := by
    rw [c1, c4]
    simp only [sizesSum_cons, sizesSum_nil, entrySize, c1v_length]
    decide
  rcases hp : L2c.splitLeaf (Node.mk []) with ⟨a, b, c⟩
  have ha : oldL = a := by
    show (L2c.splitLeaf (Node.mk [])).1 = a
    rw [hp]
  have hb : newL = b := by
    show (L2c.splitLeaf (Node.mk [])).2.1 = b
    rw [hp]
  obtain ⟨s1, s2, s3, s4, s5, s6, s7, s8, s9, s10⟩ := splitLeaf_spec L2c
    (Node.mk []) c3
    (by
      intro i hi
      rw [c6 i hi]
      simp only [NodeHeaderSize_val, OffsetSize_val]
      omega)
    (by
      show (0 : Nat) ≤ PageSize
      simp only [PageSize_val]
      omega)
    (by intro b2 hb2; cases hb2)
    hfit a b c hp
  have hmid : L2c.getKeyCount / 2 = 1 := by rw [c1]
  have hpk : c = [98] := by
    rw [s1, hmid]
    have hkv := entries_getD L2c 1 (by rw [c1]; omega)
    rw [c4] at hkv
    rw [← hkv]
    rfl
  have htake : L2c.entries.take 1 = [([97], c1v)] := by
    rw [c4]
    rfl
  have hdrop : L2c.entries.drop 1 = [([98], c1v)] := by
    rw [c4]
    rfl
  have holde : a.entries = [([97], c1v)] := by
    rw [s9, hmid, htake]
  have hnewe : b.entries = [([98], c1v)] := by
    rw [s4, hmid, hdrop]
  rw [ha, hb]
  refine ⟨hpk, by rw [s7, hmid], by rw [s8, c2], s10, holde,
    sortedKeys_of_entries_take L2c a _ s9 c5,
    by rw [s2, hmid, c1], s3, s5, hnewe,
    sortedKeys_of_entries_drop L2c b _ s4 c5, ?_⟩
  intro j hj
  have hnc : b.getKeyCount = 1 := by rw [s2, hmid, c1]
  rw [hnc] at hj ⊢
  have hs6 := s6 j (by rw [hmid, c1]; omega)
  rw [hs6, hmid, c1, hnewe, hdrop]

theorem N2_facts : newL.insertLeafKeyValue [99] c1v = (N2, none) ∧
    N2.getKeyCount = 2 ∧ N2.getType = NodeLeaf ∧ N2.WF ∧ N2.sortedKeys ∧
    N2.entries = [([98], c1v), ([99], c1v)] := by
  obtain ⟨_, _, _, _, _, _, n7, n8, n9, n10, n11, n12⟩ := splitL2c_facts
  obtain ⟨n', he, p1, p2, p3, p4, p5, p6⟩ := insertLeaf_append_spec newL [99] c1v
    n9 n11 (by decide) c1v_bytes
    (by
      intro j hj
      rw [n7] at hj
      have hj0 : j = 0 := by omega
      have hkv := entries_getD newL 0 (by rw [n7]; omega)
      rw [n10] at hkv
      rw [hj0, ← hkv]
      decide)
    n12
    (by
      rw [n7, n10]
      simp only [sizesSum_cons, sizesSum_nil, entrySize, c1v_length]
      decide)
  have hL : N2 = n' := by
    show (newL.insertLeafKeyValue [99] c1v).1 = n'
    rw [he]
  rw [hL]
  refine ⟨he, by rw [p1, n7], by rw [p2, n8], p3, p4, ?_⟩
  rw [p5, n10]
  rfl

theorem c1root0_count : c1root0.getKeyCount = 0 := rfl

theorem c1root0_type : c1root0.getType = NodeBranch := rfl

theorem c1root0_entries : c1root0.entries = [] := rfl

theorem c1root0_len : c1root0.data.length = PageSize := by
  show (writeU16 (writeBytes (List.replicate PageSize 0) 0 [NodeBranch])
    1 0).length = PageSize
  have hinner : (writeBytes (List.replicate PageSize 0) 0 [NodeBranch]).length
      = PageSize := by
    rw [length_writeBytes]
    · exact List.length_replicate _ _
    · rw [List.length_replicate]
      simp only [List.length_singleton, PageSize_val]
      omega
  rw [length_writeU16, hinner]
  rw [hinner]
  simp only [PageSize_val]
  omega

theorem c1root0_bytes : ∀ b ∈ c1root0.data, b < 256 := by
  show ∀ b ∈ writeU16 (writeBytes (List.replicate PageSize 0) 0 [NodeBranch]) 1 0,
    b < 256
  apply mem_writeU16_lt
  apply mem_writeBytes_lt
  · intro b hb
    have := List.eq_of_mem_replicate hb
    omega
  · intro b hb
    simp only [List.mem_singleton] at hb
    rw [hb]
    decide

theorem c1root0_WF : c1root0.WF := by
  refine ⟨c1root0_len, c1root0_bytes, ?_⟩
  intro i hi
  rw [c1root0_count] at hi
  omega

theorem c1root0_sorted : c1root0.sortedKeys := by
  unfold Node.sortedKeys Node.keys
  rw [c1root0_entries]
  exact List.Pairwise.nil

theorem R1_facts : c1root0.insertBranchKey [97] 1 = (R1, none) ∧
    R1.getKeyCount = 1 ∧ R1.getType = NodeBranch ∧ R1.WF ∧ R1.sortedKeys ∧
    R1.entries = [([97], u64Bytes 1)] ∧
    (∀ j, j < R1.getKeyCount → R1.getOffset j =
      NodeHeaderSize + R1.getKeyCount * OffsetSize +
        sizesSum (R1.entries.take j)) := by
  obtain ⟨n', he, p1, p2, p3, p4, p5, p6⟩ := insertLeaf_append_spec c1root0 [97]
    (u64Bytes 1) c1root0_WF c1root0_sorted (by decide) (u64Bytes_bytes_lt 1)
    (by
      intro j hj
      rw [c1root0_count] at hj
      omega)
    (by
      intro j hj
      rw [c1root0_count] at hj
      omega)
    (by
      rw [c1root0_count, c1root0_entries]
      decide)
  have hL : R1 = n' := by
    show (c1root0.insertLeafKeyValue [97] (u64Bytes 1)).1 = n'
    rw [he]
  rw [hL]
  refine ⟨?_, by rw [p1, c1root0_count], by rw [p2, c1root0_type], p3, p4, ?_, p6⟩
  · rw [insertBranchKey_eq]
    exact he
  · rw [p5, c1root0_entries]
    rfl

theorem R2_facts : R1.insertBranchKey [98] 2 = (R2, none) ∧
    R2.getKeyCount = 2 ∧ R2.getType = NodeBranch ∧ R2.WF ∧ R2.sortedKeys ∧
    R2.entries = [([97], u64Bytes 1), ([98], u64Bytes 2)] := by
  obtain ⟨_, r1, r2, r3, r4, r5, r6⟩ := R1_facts
  obtain ⟨n', he, p1, p2, p3, p4, p5, p6⟩ := insertLeaf_append_spec R1 [98]
    (u64Bytes 2) r3 r4 (by decide) (u64Bytes_bytes_lt 2)
    (by
      intro j hj
      rw [r1] at hj
      have hj0 : j = 0 := by omega
      have hkv := entries_getD R1 0 (by rw [r1]; omega)
      rw [r5] at hkv
      rw [hj0, ← hkv]
      decide)
    r6
    (by
      rw [r1, r5]
      decide)
  have hL : R2 = n' := by
    show (R1.insertLeafKeyValue [98] (u64Bytes 2)).1 = n'
    rw [he]
  rw [hL]
  refine ⟨?_, by rw [p1, r1], by rw [p2, r2], p3, p4, ?_⟩
  · rw [insertBranchKey_eq]
    exact he
  · rw [p5, r5]
    rfl

theorem c1_put1 : txPut 1 c1st0 [97] c1v = (c1st1, none) := by
  have hrec : txInsertRecursive 1 c1st0 1 [97] c1v = (c1st1, none, none) := by
    show txInsertRecursive (0 + 1) c1st0 1 [97] c1v = _
    unfold txInsertRecursive
    rw [show txGetNode c1st0 1 = some wEmpty from rfl]
    dsimp only
    rw [if_pos (show wEmpty.getType = NodeLeaf from rfl)]
    rw [L1_facts.1]
    dsimp only
    rfl
  unfold txPut
  rw [show c1st0.txRoot = 1 from rfl]
  rw [hrec]

theorem c1_put2 : txPut 1 c1st1 [98] c1v = (c1st2, none) := by
  have hrec : txInsertRecursive 1 c1st1 1 [98] c1v = (c1st2, none, none) := by
    show txInsertRecursive (0 + 1) c1st1 1 [98] c1v = _
    unfold txInsertRecursive
    rw [show txGetNode c1st1 1 = some L1 from rfl]
    dsimp only
    rw [if_pos L1_facts.2.2.1]
    rw [L2_facts.1]
    dsimp only
    rfl
  unfold txPut
  rw [show c1st1.txRoot = 1 from rfl]
  rw [hrec]

theorem oldL_kv0 : (oldL.getLeafKeyValue 0).1 = [97] := by
  obtain ⟨_, o1, _, _, o5, _⟩ := splitL2c_facts
  have hkv := entries_getD oldL 0 (by rw [o1]; omega)
  rw [o5] at hkv
  rw [← hkv]
  rfl

theorem c1_put3 : txPut 1 c1st2 [99] c1v = (c1st3, none) := by
  have hrec : txInsertRecursive 1 c1st2 1 [99] c1v = (c1m1, some ([98], 2), none) := by
    show txInsertRecursive (0 + 1) c1st2 1 [99] c1v = _
    unfold txInsertRecursive
    rw [show txGetNode c1st2 1 = some L2 from rfl]
    dsimp only
    rw [if_pos L2_facts.2.2.1]
    rw [L2c_facts.1]
    dsimp only
    have hne : ¬ (Err.nodeFull ≠ Err.nodeFull) := by decide
    rw [if_neg hne]
    rw [show (L2c.splitLeaf (Node.mk [])).2.2 = [98] from splitL2c_facts.1]
    have hcmp : ¬ (bytesCompare [99] [98] = Ordering.lt) := by decide
    rw [if_neg hcmp]
    rw [show (L2c.splitLeaf (Node.mk [])).2.1 = newL from rfl]
    rw [N2_facts.1]
    dsimp only
    rw [show (L2c.splitLeaf (Node.mk [])).1 = oldL from rfl]
    rfl
  unfold txPut
  rw [show c1st2.txRoot = 1 from rfl]
  rw [hrec]
  dsimp only
  rw [show txGetNode (txAllocateNode c1m1).1 (txAllocateNode c1m1).1.txRoot =
    some oldL from rfl]
  dsimp only
  rw [oldL_kv0]
  rw [show (txAllocateNode c1m1).1.txRoot = 1 from rfl]
  rw [show Node.mk (writeU16 (writeBytes (List.replicate PageSize 0) 0
    [NodeBranch]) 1 0) = c1root0 from rfl]
  rw [R1_facts.1]
  dsimp only
  rw [R2_facts.1]
  dsimp only
  rfl

theorem R2_childIndex : branchChildIndex R2 [99] = 1 := by
  obtain ⟨_, r1, r2, _, _, r5⟩ := R2_facts
  have hlt : ∀ j, j < R2.getKeyCount → bytesLt (R2.getLeafKeyValue j).1 [99] := by
    intro j hj
    rw [r1] at hj
    have hkv := entries_getD R2 j (by rw [r1]; omega)
    rw [r5] at hkv
    have hj01 : j = 0 ∨ j = 1 := by omega
    rcases hj01 with hj0 | hj0 <;> (rw [hj0] at hkv ⊢; rw [← hkv]; decide)
  obtain ⟨hf1, _⟩ := findKeyInNode_eq_count_of_all_lt R2 [99] hlt
  unfold branchChildIndex
  dsimp only
  rw [hf1, r1]
  have h1 : ¬ ((2 : Nat) < 2) := by decide
  rw [if_neg h1]
  have h2 : (2 : Nat) ≥ 2 := by decide
  rw [if_pos h2]

theorem R2_child : R2.getChild (branchChildIndex R2 [99]) = 2 := by
  rw [R2_childIndex]
  obtain ⟨_, r1, _, _, _, r5⟩ := R2_facts
  show readU64Bytes (R2.getLeafKeyValue 1).2 = 2
  have hkv := entries_getD R2 1 (by rw [r1]; omega)
  rw [r5] at hkv
  rw [← hkv]
  decide

theorem oldL_nofound : (oldL.findKeyInNode [99]).2 = false := by
  obtain ⟨_, o1, _, _, o5, o6, _⟩ := splitL2c_facts
  have hkeys : oldL.keys = [[97]] := by
    unfold Node.keys
    rw [o5]
    rfl
  rcases Bool.eq_false_or_eq_true (oldL.findKeyInNode [99]).2 with hf | hf
  · exfalso
    have hm := (findKeyInNode_found_iff_mem oldL [99] o6).1 hf
    rw [hkeys] at hm
    exact absurd hm (by decide)
  · exact hf

theorem N2_found : (N2.findKeyInNode [99]).2 = true := by
  obtain ⟨_, _, _, _, n5, n6⟩ := N2_facts
  apply (findKeyInNode_found_iff_mem N2 [99] n5).2
  unfold Node.keys
  rw [n6]
  decide

theorem N2_value : (N2.getLeafKeyValue (N2.findKeyInNode [99]).1).2 = c1v := by
  obtain ⟨_, n2, _, _, _, n6⟩ := N2_facts
  obtain ⟨hlt2, hkeq⟩ := (findKeyInNode_found_eq N2 [99]).1 N2_found
  have hkv0 := entries_getD N2 0 (by rw [n2]; omega)
  have hkv1 := entries_getD N2 1 (by rw [n2]; omega)
  rw [n6] at hkv0 hkv1
  rw [n2] at hlt2
  have hcase : (N2.findKeyInNode [99]).1 = 0 ∨ (N2.findKeyInNode [99]).1 = 1 := by
    omega
  rcases hcase with hc | hc
  · rw [hc] at hkeq
    rw [← hkv0] at hkeq
    exact absurd hkeq (by decide)
  · rw [hc, ← hkv1]
    rfl

theorem c1_get : txGet c1st3 1 [99] = none := by
  have hfl : txFindLeaf c1st3 1 c1st3.dbRoot [99] = some oldL := by
    rw [show c1st3.dbRoot = 1 from rfl]
    show txFindLeaf c1st3 (0 + 1) 1 [99] = _
    unfold txFindLeaf
    rw [show txGetNode c1st3 1 = some oldL from rfl]
    dsimp only
    rw [if_pos splitL2c_facts.2.2.1]
  unfold txGet
  rw [hfl]
  dsimp only
  rw [oldL_nofound]
  rfl

theorem c1_get_txroot : txFindLeaf c1st3 2 c1st3.txRoot [99] = some N2 := by
  rw [show c1st3.txRoot = 3 from rfl]
  show txFindLeaf c1st3 (1 + 1) 3 [99] = _
  unfold txFindLeaf
  rw [show txGetNode c1st3 3 = some R2 from rfl]
  dsimp only
  have hnb : ¬ (R2.getType = NodeLeaf) := by
    rw [R2_facts.2.2.1]
    decide
  rw [if_neg hnb]
  rw [R2_child]
  show txFindLeaf c1st3 (0 + 1) 2 [99] = _
  unfold txFindLeaf
  rw [show txGetNode c1st3 2 = some N2 from rfl]
  dsimp only
  rw [if_pos N2_facts.2.2.1]

/-- C1: the round-trip guarantee fails in the code once a root split happens
inside the transaction.  On a fresh database, three Puts of the distinct
keys `a`, `b`, `c` (2000-byte values) all succeed, the third splitting the
root leaf and installing a new root at `tx.root`; the key `c` sits in the
new right-hand leaf reachable from `tx.root` with exactly the stored value,
yet `Tx.Get` of `c` in the same transaction reports key-not-found, because
`Get` descends from the stale `db.Root` instead of `tx.root`. -/
theorem C1_roundtrip_fails_after_root_split :
    txPut 1 c1st0 [97] c1v = (c1st1, none) ∧
    txPut 1 c1st1 [98] c1v = (c1st2, none) ∧
    txPut 1 c1st2 [99] c1v = (c1st3, none) ∧
    txGet c1st3 1 [99] = none ∧
    txFindLeaf c1st3 2 c1st3.txRoot [99] = some N2 ∧
    (N2.findKeyInNode [99]).2 = true ∧
    (N2.getLeafKeyValue (N2.findKeyInNode [99]).1).2 = c1v :=
  ⟨c1_put1, c1_put2, c1_put3, c1_get, c1_get_txroot, N2_found, N2_value⟩

end GoKV
